import Mathlib

/-!
A verification development for `cnn_model.h`

Shallow embedding of the `CNN` class of `src/cnn_model.h`:

* `std::vector<float>` is a `List α`, `std::vector<std::vector<float>>` a `List (List α)`,
  `float[64][64]` a `List (List α)` of shape 64 x 64 (`IsGrid`);
* every `operator[]` is totalised: an index outside the container makes the
  surrounding function return `none` (the C++ program has undefined behaviour there);
* the counted `for` loops are `forLoop`, which runs the body for `0, 1, ..., n-1` in order;
* scalars are an arbitrary type `α` carrying the operations the code uses; the
  statements "in exact arithmetic" are proved for every field, and run on `ℚ`;
* `FloatVal` is the scalar type that adds the infinities and NaN of `float` to exact
  finite values, with the IEEE-754 rules for them (`0 * inf` is NaN, no comparison with
  NaN is true);
* the generator of a call of `augment_data` is a supplied stream of rationals;
* an array declared without initialiser has cells `none` until they are written;
* `size_t` sums wrap at `2 ^ 64`, and a loop whose end is not evident runs on fuel.
-/

namespace CNN

/-! ## Constants -/

/-- The constant `IMAGE_SIZE` of the source. -/
def IMAGE_SIZE : Nat := 64

/-- The constant `NUM_CLASSES` of the source. -/
def NUM_CLASSES : Nat := 4

/-! ## Loops and totalised indexing -/

/-- The iterations `i, i + 1, ..., i + n - 1` of a counted loop over a state `σ`; the body
may fail (an index out of range), and then the loop stops and fails. -/
def forLoopFrom {σ : Type} (body : Nat → σ → Option σ) : Nat → Nat → σ → Option σ
  | 0, _, s => some s
  | n + 1, i, s =>
    match body i s with
    | none => none
    | some s1 => forLoopFrom body n (i + 1) s1

/-- The loop `for (int i = 0; i < n; ++i) body(i)`. -/
def forLoop {σ : Type} (n : Nat) (body : Nat → σ → Option σ) (s : σ) : Option σ :=
  forLoopFrom body n 0 s

/-- Totalised read `xs[i]`. -/
def readAt {α : Type} (xs : List α) (i : Nat) : Option α := xs[i]?

/-- Totalised write `xs[i] = v`. -/
def writeAt {α : Type} (xs : List α) (i : Nat) (v : α) : Option (List α) :=
  if i < xs.length then some (xs.set i v) else none

/-- Totalised `xs[i] += v`. -/
def addAt {α : Type} [Add α] (xs : List α) (i : Nat) (v : α) : Option (List α) :=
  (readAt xs i).bind (fun x => writeAt xs i (x + v))

/-- Totalised read `xss[f][t]` of a vector of vectors. -/
def readAt2 {α : Type} (xss : List (List α)) (f t : Nat) : Option α :=
  (readAt xss f).bind (fun row => readAt row t)

/-- Totalised `xss[f][t] += v` on a vector of vectors. -/
def addAt2 {α : Type} [Add α] (xss : List (List α)) (f t : Nat) (v : α) :
    Option (List (List α)) :=
  (readAt xss f).bind (fun row => (addAt row t v).bind (fun row1 => writeAt xss f row1))

/-! ## Data model -/

/-- The six weight buffers of the class `CNN`. -/
structure WeightSet (α : Type) where
  conv1 : List (List α)
  conv2 : List (List α)
  conv3 : List (List α)
  fc1 : List α
  fc2 : List α
  fc3 : List α

/-- The struct `Image`: a grid `data` and a `label`. -/
structure Image (α : Type) where
  data : List (List α)
  label : Nat

/-- Shape of `float data[IMAGE_SIZE][IMAGE_SIZE]`. -/
def IsGrid {α : Type} (g : List (List α)) : Prop :=
  g.length = IMAGE_SIZE ∧ ∀ row ∈ g, row.length = IMAGE_SIZE

/-- A vector of `n` vectors of `m` elements each. -/
def HasShape {α : Type} (xss : List (List α)) (n m : Nat) : Prop :=
  xss.length = n ∧ ∀ row ∈ xss, row.length = m

/-- The buffer sizes fixed by the network topology (those of `initialize_weights`). -/
def Topology {α : Type} (w : WeightSet α) : Prop :=
  HasShape w.conv1 32 9 ∧ HasShape w.conv2 64 (32 * 3 * 3) ∧ HasShape w.conv3 128 (64 * 3 * 3) ∧
  w.fc1.length = 128 * 8 * 8 ∧ w.fc2.length = 256 ∧ w.fc3.length = 128

/-- The function `initialize_weights`, with the fill value (`0.01f` in the source) as `c`. -/
def initialize_weights {α : Type} (c : α) : WeightSet α where
  conv1 := List.replicate 32 (List.replicate 9 c)
  conv2 := List.replicate 64 (List.replicate (32 * 3 * 3) c)
  conv3 := List.replicate 128 (List.replicate (64 * 3 * 3) c)
  fc1 := List.replicate (128 * 8 * 8) c
  fc2 := List.replicate 256 c
  fc3 := List.replicate 128 c

/-- The all-zero 64 x 64 grid. -/
def zeroGrid (α : Type) [Zero α] : List (List α) :=
  List.replicate IMAGE_SIZE (List.replicate IMAGE_SIZE 0)

/-! ## Arg-max of `predict` -/

/-- The scan of `std::max_element` after its first element: `cur` is the largest value
so far, found at index `curIdx`; `k` is the index of the head of the remaining range.
A later element replaces the current one only when it is strictly larger. -/
def max_element_go {α : Type} [LT α] [DecidableRel (fun (a b : α) => a < b)]
    (cur : α) (curIdx : Nat) : List α → Nat → Nat
  | [], _ => curIdx
  | x :: rest, k =>
    if cur < x then max_element_go x k rest (k + 1)
    else max_element_go cur curIdx rest (k + 1)

/-- The expression `std::distance(v.begin(), std::max_element(v.begin(), v.end()))`. -/
def max_element {α : Type} [LT α] [DecidableRel (fun (a b : α) => a < b)] : List α → Nat
  | [] => 0
  | x :: rest => max_element_go x 0 rest 1

/-! ## Forward pass -/

section Forward

variable {α : Type} [Zero α] [Add α] [Mul α] [LT α] [DecidableRel (fun (a b : α) => a < b)]

/-- The expression `std::max(0.0f, x)`: the second argument when `0 < x`, else the first. -/
def relu (x : α) : α := if 0 < x then x else 0

/-- One convolution stage of `forward`: `F` filters over an `H` x `W` window. `rd r c` is the
totalised read of the stage input at row `r`, column `c` (for stage 1 `input[r][c]`, for
the later stages `prev[r * width + c]`); the result buffer starts as `F * H * W` zeros. -/
def convLoops (F H W : Nat) (rd : Nat → Nat → Option α) (wts : List (List α)) :
    Option (List α) :=
  forLoop F (fun f out =>
    forLoop H (fun i out =>
      forLoop W (fun j out =>
        (forLoop 3 (fun ki sum =>
          forLoop 3 (fun kj sum =>
            (rd (i + ki) (j + kj)).bind (fun x =>
              (readAt2 wts f (ki * 3 + kj)).bind (fun wv => some (sum + x * wv)))) sum) 0).bind
          (fun sum => writeAt out (f * H * W + i * W + j) (relu sum))) out) out)
    (List.replicate (F * H * W) 0)

/-- One fully-connected stage of `forward`: each of the `n` outputs is `act` of the sum over
`j < m` of `inp[j] * wts[j]`, accumulated from `0` in increasing `j`. -/
def fcLoops (n m : Nat) (inp wts : List α) (act : α → α) : Option (List α) :=
  forLoop n (fun i out =>
    (forLoop m (fun j sum =>
      (readAt inp j).bind (fun x =>
        (readAt wts j).bind (fun wv => some (sum + x * wv)))) 0).bind
      (fun sum => writeAt out i (act sum)))
    (List.replicate n 0)

/-- The local buffers of `forward`, in the order they are computed. -/
structure Activations (α : Type) where
  conv_output1 : List α
  conv_output2 : List α
  conv_output3 : List α
  fc1_output : List α
  fc2_output : List α
  output : List α

/-- The body of `forward`, keeping every intermediate buffer. -/
def forward_trace (w : WeightSet α) (input : List (List α)) : Option (Activations α) :=
  (convLoops 32 32 32 (fun r c => readAt2 input r c) w.conv1).bind fun conv_output1 =>
  (convLoops 64 16 16 (fun r c => readAt conv_output1 (r * 32 + c)) w.conv2).bind
    fun conv_output2 =>
  (convLoops 128 8 8 (fun r c => readAt conv_output2 (r * 16 + c)) w.conv3).bind
    fun conv_output3 =>
  (fcLoops 256 (128 * 8 * 8) conv_output3 w.fc1 relu).bind fun fc1_output =>
  (fcLoops 128 256 fc1_output w.fc2 relu).bind fun fc2_output =>
  (fcLoops NUM_CLASSES 128 fc2_output w.fc3 id).bind fun output =>
  some ⟨conv_output1, conv_output2, conv_output3, fc1_output, fc2_output, output⟩

/-- The function `forward`: the class scores. -/
def forward (w : WeightSet α) (input : List (List α)) : Option (List α) :=
  (forward_trace w input).map (fun a => a.output)

/-- The function `predict` (without its diagnostic print): arg-max of the scores. -/
def predict (w : WeightSet α) (img : Image α) : Option Nat :=
  (forward w img.data).map max_element

/-- The sum `((0 + a₀ * b₀) + a₁ * b₁) + ...` accumulated from the left, as the inner
loops of the fully-connected stages do. -/
def dotLeft (xs ys : List α) : α :=
  (List.zipWith (fun a b => a * b) xs ys).foldl (fun s p => s + p) 0

/-- The 3 x 3 window sum of a convolution stage at window origin `(i, j)`, accumulated in
the order of the `ki`, `kj` loops, over a total input `x` and the taps `t`. -/
def convSum (x : Nat → Nat → α) (t : Nat → α) (i j : Nat) : α :=
  0 + x (i + 0) (j + 0) * t 0 + x (i + 0) (j + 1) * t 1 + x (i + 0) (j + 2) * t 2
    + x (i + 1) (j + 0) * t 3 + x (i + 1) (j + 1) * t 4 + x (i + 1) (j + 2) * t 5
    + x (i + 2) (j + 0) * t 6 + x (i + 2) (j + 1) * t 7 + x (i + 2) (j + 2) * t 8

/-- The value of `xss[f][t]`, with `0` outside the container. -/
def tapOf (xss : List (List α)) (f t : Nat) : α := ((xss.getD f []).getD t 0)

/-- The value of a grid entry `g[r][c]`, with `0` outside the grid. -/
def gridAt (g : List (List α)) (r c : Nat) : α := ((g.getD r []).getD c 0)

/-- The result buffer of a convolution stage, cell by cell in index order: the cell at
flat index `p` belongs to filter `p / (H * W)`, row `p / W % H`, column `p % W`. -/
def convTable (F H W : Nat) (x : Nat → Nat → α) (wts : List (List α)) : List α :=
  (List.range (F * H * W)).map
    (fun p => relu (convSum x (tapOf wts (p / (H * W))) (p / W % H) (p % W)))

/-- The buffers of `forward` written as closed expressions of the input and the weights. -/
def forwardTable (w : WeightSet α) (input : List (List α)) : Activations α :=
  let c1 := convTable 32 32 32 (gridAt input) w.conv1
  let c2 := convTable 64 16 16 (fun r c => c1.getD (r * 32 + c) 0) w.conv2
  let c3 := convTable 128 8 8 (fun r c => c2.getD (r * 16 + c) 0) w.conv3
  let f1 := List.replicate 256 (relu (dotLeft c3 w.fc1))
  let f2 := List.replicate 128 (relu (dotLeft f1 w.fc2))
  ⟨c1, c2, c3, f1, f2, List.replicate NUM_CLASSES (dotLeft f2 w.fc3)⟩

end Forward

/-! ## Backward pass -/

section Backward

variable {α : Type} [Zero α] [One α] [Add α] [Sub α] [Mul α]

/-- The vector `output_grad` of `backward`: `NUM_CLASSES` zeros, then
`output_grad[label] = 1.0f - output[label]`. -/
def output_grad (output : List α) (label : Nat) : Option (List α) :=
  (readAt output label).bind (fun o => writeAt (List.replicate NUM_CLASSES 0) label (1 - o))

/-- A fully-connected loop nest of `backward`: for `i < n` and `j < m`,
`grad[j] += up[i]; wts[j] += lr * up[i]`, with `grad` starting as `m` zeros. -/
def fcBackLoops (n m : Nat) (up : List α) (lr : α) (wts : List α) : Option (List α × List α) :=
  forLoop n (fun i st =>
    forLoop m (fun j st =>
      (readAt up i).bind (fun g =>
        (addAt st.1 j g).bind (fun grad =>
          (addAt st.2 j (lr * g)).bind (fun wts1 => some (grad, wts1))))) st)
    (List.replicate m 0, wts)

/-- The body of the innermost loop of a convolution loop nest of `backward`, at flat
position `p = f * H * W + i * W + j` and tap `t = ki * 3 + kj`:
`grad[p] += up[p]; wts[f][t] += lr * grad[p]`. -/
def convBackStep (up : List α) (lr : α) (p f t : Nat) (st : List α × List (List α)) :
    Option (List α × List (List α)) :=
  (readAt up p).bind (fun u =>
    (addAt st.1 p u).bind (fun grad =>
      (readAt grad p).bind (fun g =>
        (addAt2 st.2 f t (lr * g)).bind (fun wts1 => some (grad, wts1)))))

/-- The body of the outer (filter) loop of a convolution loop nest of `backward`. -/
def convBackFilter (H W : Nat) (up : List α) (lr : α) (f : Nat)
    (st : List α × List (List α)) : Option (List α × List (List α)) :=
  forLoop H (fun i st =>
    forLoop W (fun j st =>
      forLoop 3 (fun ki st =>
        forLoop 3 (fun kj st =>
          convBackStep up lr (f * H * W + i * W + j) f (ki * 3 + kj) st) st) st) st) st

/-- The first `k` filter iterations of a convolution loop nest of `backward` over `F`
filters and an `H` x `W` window; `grad` starts as `F * H * W` zeros. The whole nest is
`k = F`. -/
def convBackLoops (k F H W : Nat) (up : List α) (lr : α) (wts : List (List α)) :
    Option (List α × List (List α)) :=
  forLoop k (convBackFilter H W up lr) (List.replicate (F * H * W) 0, wts)

/-- Lines 171-180 of the source: `output_grad`, then the `fc3` loop nest. Returns
`fc3_grad` and the weights with `fc3` updated. -/
def backward_fc3 (w : WeightSet α) (output : List α) (label : Nat) (lr : α) :
    Option (List α × WeightSet α) :=
  (output_grad output label).bind (fun og =>
    (fcBackLoops NUM_CLASSES 128 og lr w.fc3).map (fun r => (r.1, { w with fc3 := r.2 })))

/-- Lines 182-188: the `fc2` loop nest. Returns `fc2_grad` and the updated weights. -/
def backward_fc2 (fc3_grad : List α) (lr : α) (w : WeightSet α) :
    Option (List α × WeightSet α) :=
  (fcBackLoops 128 256 fc3_grad lr w.fc2).map (fun r => (r.1, { w with fc2 := r.2 }))

/-- Lines 190-202: the first `k` filter iterations of the `conv3` loop nest (all of it
for `k = 128`). Returns `conv3_grad` and the updated weights. -/
def backward_conv3 (k : Nat) (fc2_grad : List α) (lr : α) (w : WeightSet α) :
    Option (List α × WeightSet α) :=
  (convBackLoops k 128 8 8 fc2_grad lr w.conv3).map (fun r => (r.1, { w with conv3 := r.2 }))

/-- Lines 204-216: the first `k` filter iterations of the `conv2` loop nest (all of it
for `k = 64`). -/
def backward_conv2 (k : Nat) (conv3_grad : List α) (lr : α) (w : WeightSet α) :
    Option (List α × WeightSet α) :=
  (convBackLoops k 64 16 16 conv3_grad lr w.conv2).map (fun r => (r.1, { w with conv2 := r.2 }))

/-- Lines 218-230: the first `k` filter iterations of the `conv1` loop nest (all of it
for `k = 32`). -/
def backward_conv1 (k : Nat) (conv2_grad : List α) (lr : α) (w : WeightSet α) :
    Option (List α × WeightSet α) :=
  (convBackLoops k 32 32 32 conv2_grad lr w.conv1).map (fun r => (r.1, { w with conv1 := r.2 }))

/-- The function `backward`: the five loop nests in source order, each working on the
weights left by the one before. The parameter `input` is not used by the source either. -/
def backward (w : WeightSet α) (_input : List (List α)) (output : List α) (label : Nat)
    (lr : α) : Option (WeightSet α) :=
  (backward_fc3 w output label lr).bind (fun s3 =>
    (backward_fc2 s3.1 lr s3.2).bind (fun s2 =>
      (backward_conv3 128 s2.1 lr s2.2).bind (fun c3 =>
        (backward_conv2 64 c3.1 lr c3.2).bind (fun c2 =>
          (backward_conv1 32 c2.1 lr c2.2).map (fun c1 => c1.2)))))

/-- The part of `backward` that runs before its first out-of-range read: the `fc3` and
`fc2` loop nests and the first four filter iterations of the `conv3` loop nest. -/
def backward_in_range (w : WeightSet α) (output : List α) (label : Nat) (lr : α) :
    Option (List α × WeightSet α) :=
  (backward_fc3 w output label lr).bind (fun s3 =>
    (backward_fc2 s3.1 lr s3.2).bind (fun s2 => backward_conv3 4 s2.1 lr s2.2))

end Backward

/-! ## Scenario data -/

/-- The output vector of the training-step scenario: `[0.1, 0.2, 0.3, 0.4]`. -/
def scenarioOutput : List ℚ := [1 / 10, 1 / 5, 3 / 10, 2 / 5]

/-- The weights a freshly constructed model holds: every weight `0.01`. -/
def scenarioWeights : WeightSet ℚ := initialize_weights (1 / 100)

/-! ## Augmentation -/

/-- The horizontal-flip step of `augment_data`: for every row index `i` in order,
`std::reverse(img.data[i], img.data[i] + IMAGE_SIZE)`. -/
def flip_rows {α : Type} (data : List (List α)) : Option (List (List α)) :=
  forLoop IMAGE_SIZE (fun i d => (readAt d i).bind (fun row => writeAt d i row.reverse)) data

/-- Totalised write `xss[r][c] = v` on an array of rows. -/
def writeAt2 {α : Type} (xss : List (List α)) (r c : Nat) (v : α) : Option (List (List α)) :=
  (readAt xss r).bind (fun row => (writeAt row c v).bind (fun row1 => writeAt xss r row1))

/-- Reading every cell of an array whose cells may still be uninitialised (`none`): the
values when every cell has been written, and `none` otherwise. -/
def collect {α : Type} : List (Option α) → Option (List α)
  | [] => some []
  | none :: _ => none
  | some x :: rest => (collect rest).map (fun xs => x :: xs)

/-- The call `std::copy(&temp[0][0], &temp[0][0] + IMAGE_SIZE * IMAGE_SIZE, &img.data[0][0])`:
every cell of `temp` is read and becomes the cell of `img.data` at the same place. -/
def copy_back {α : Type} (temp : List (List (Option α))) : Option (List (List α)) :=
  collect (temp.map collect)

/-- The rotation step of `augment_data`: `temp` is declared without initialiser (every cell
`none`), the loop nest sets `temp[j][IMAGE_SIZE - 1 - i] = img.data[i][j]`, and `temp` is
copied back over `img.data`. -/
def rotate_image {α : Type} (data : List (List α)) : Option (List (List α)) :=
  (forLoop IMAGE_SIZE (fun i temp =>
    forLoop IMAGE_SIZE (fun j temp =>
      (readAt2 data i j).bind (fun v => writeAt2 temp j (IMAGE_SIZE - 1 - i) (some v))) temp)
    (List.replicate IMAGE_SIZE (List.replicate IMAGE_SIZE none))).bind copy_back

/-- The body of the loop of `augment_data` for one image: `d1` and `d2` are the two values
`dis(gen)` returns, in that order; both are compared with `0.5`. The label is not touched. -/
def augment_image {α : Type} (d1 d2 : ℚ) (img : Image α) : Option (Image α) :=
  (if d1 > 1 / 2 then flip_rows img.data else some img.data).bind (fun data1 =>
    (if d2 > 1 / 2 then rotate_image data1 else some data1).bind (fun data2 =>
      some ⟨data2, img.label⟩))

/-- The loop `for (auto& img : batch)` of `augment_data` over the remaining images, with
the random source a supplied stream `draw` of which `k` values have been consumed. Returns
the augmented images and the number of values consumed. -/
def augment_from {α : Type} (draw : Nat → ℚ) : Nat → List (Image α) →
    Option (List (Image α) × Nat)
  | k, [] => some ([], k)
  | k, img :: rest =>
    (augment_image (draw k) (draw (k + 1)) img).bind (fun img1 =>
      (augment_from draw (k + 2) rest).map (fun r => (img1 :: r.1, r.2)))

/-- The function `augment_data` on a batch, with the freshly seeded generator of the call
given as the stream `draw` of its successive values. -/
def augment_data {α : Type} (draw : Nat → ℚ) (batch : List (Image α)) :
    Option (List (Image α)) :=
  (augment_from draw 0 batch).map (fun r => r.1)

/-- The grid with every row reversed. -/
def flipGrid {α : Type} (g : List (List α)) : List (List α) := g.map List.reverse

/-- The grid `new` with `new[j][63 - i] = g[i][j]`, that is `new[r][c] = g[63 - c][r]`. -/
def rotGrid {α : Type} [Zero α] (g : List (List α)) : List (List α) :=
  (List.range IMAGE_SIZE).map (fun r =>
    (List.range IMAGE_SIZE).map (fun c => ((g.getD (IMAGE_SIZE - 1 - c) []).getD r 0)))

/-- The image `augment_data` makes of `img` when its two draws are `d1` and `d2`: flipped
when `d1 > 0.5`, then rotated when `d2 > 0.5`, with the label kept. -/
def augmentSpec {α : Type} [Zero α] (d1 d2 : ℚ) (img : Image α) : Image α :=
  ⟨(if d2 > 1 / 2 then rotGrid else id) ((if d1 > 1 / 2 then flipGrid else id) img.data),
    img.label⟩

/-! ## Training loop -/

/-- A loop `for (const auto& x : xs)` over a state that may fail. -/
def foldSteps {ι σ : Type} (step : σ → ι → Option σ) : σ → List ι → Option σ
  | s, [] => some s
  | s, x :: rest =>
    match step s x with
    | none => none
    | some s1 => foldSteps step s1 rest

/-- The batch loop of `train`: `for (size_t i = 0; i < train_data.size(); i += batch_size)`
with `end = std::min(i + batch_size, train_data.size())` and the batch the copy of
`train_data[i .. end)`, handed to `body` together with `i`. The `size_t` sums wrap at
`2 ^ 64`. A range with `end < i` is outside the model (`none`), and so is a loop that has
not ended after `fuel` iterations. -/
def batch_loop {ι σ : Type} (train_data : List ι) (batch_size : Nat)
    (body : Nat → List ι → σ → Option σ) : Nat → Nat → σ → Option σ
  | 0, i, s => if i < train_data.length then none else some s
  | fuel + 1, i, s =>
    if i < train_data.length then
      if min ((i + batch_size) % 2 ^ 64) train_data.length < i then none
      else
        match body i ((train_data.drop i).take
            (min ((i + batch_size) % 2 ^ 64) train_data.length - i)) s with
        | none => none
        | some s1 =>
          batch_loop train_data batch_size body fuel ((i + batch_size) % 2 ^ 64) s1
    else some s

/-- The loops of `train`: `epochs` times the batch loop over `train_data`, with `body`
standing for what is done with a batch (`body epoch i batch`, where `i` is the index the
batch starts at). The batch loop gets `train_data.size()` iterations of fuel, which is
enough whenever `batch_size` is not zero. -/
def train_loop {ι σ : Type} (train_data : List ι) (epochs batch_size : Nat)
    (body : Nat → Nat → List ι → σ → Option σ) (s : σ) : Option σ :=
  forLoop epochs (fun epoch s =>
    batch_loop train_data batch_size (body epoch) train_data.length 0 s) s

/-- The batches `train` forms, in the order it forms them, each with the number of its
epoch: the loops of `train` with a body that only records its batch. -/
def train_batches {ι : Type} (train_data : List ι) (epochs batch_size : Nat) :
    Option (List (Nat × List ι)) :=
  train_loop train_data epochs batch_size
    (fun epoch _ batch acc => some (acc ++ [(epoch, batch)])) []

section Training

variable {α : Type} [Zero α] [One α] [Add α] [Sub α] [Mul α] [LT α]
  [DecidableRel (fun (a b : α) => a < b)]

/-- The body of the loop of `train_batch`: `forward` on the image, then `backward` with
that output and the label of the image. -/
def train_step (lr : α) (w : WeightSet α) (img : Image α) : Option (WeightSet α) :=
  (forward w img.data).bind (fun output => backward w img.data output img.label lr)

/-- The function `train_batch`. -/
def train_batch (w : WeightSet α) (batch : List (Image α)) (lr : α) : Option (WeightSet α) :=
  foldSteps (train_step lr) w batch

/-- The function `train` (without its progress messages), from the weights `w`. Every call
of `augment_data` seeds a new generator: `draws epoch i` is the stream of the call for the
batch that starts at `i` in epoch `epoch`. -/
def train (draws : Nat → Nat → Nat → ℚ) (w : WeightSet α) (train_data : List (Image α))
    (epochs : Nat) (lr : α) (batch_size : Nat) : Option (WeightSet α) :=
  train_loop train_data epochs batch_size (fun epoch i batch w =>
    (augment_data (draws epoch i) batch).bind (fun aug => train_batch w aug lr)) w

end Training

/-! ## Weight files

Bytes are natural numbers below 256, a `float` is its 32-bit pattern, and integers lie in
memory least significant byte first. The failure branches of `save_weights` and
`load_weights` (the file cannot be opened) are not part of the model: the file is a list of
bytes that is there. -/

/-- The `k` bytes of the unsigned integer `n`, least significant first. -/
def le_bytes : Nat → Nat → List Nat
  | 0, _ => []
  | k + 1, n => n % 256 :: le_bytes k (n / 256)

/-- The unsigned integer whose bytes, least significant first, are `bs`. -/
def of_le_bytes : List Nat → Nat
  | [] => 0
  | b :: bs => b + 256 * of_le_bytes bs

/-- One element of a `std::vector<std::vector<float>>`: a `std::vector<float>` object.
`object` is the bytes of the vector object itself, `sizeof(std::vector<float>)` of them
(its pointers into the heap); `elems` is the floats of the heap block the object owns.
The floats are not part of the object. -/
structure FloatVector where
  object : List Nat
  elems : List Nat

/-- The data members of a `CNN` object as they lie in memory. -/
structure Model where
  conv1 : List FloatVector
  conv2 : List FloatVector
  conv3 : List FloatVector
  fc1 : List Nat
  fc2 : List Nat
  fc3 : List Nat

/-- The six weight buffers held by a model in memory. -/
def Model.weights (m : Model) : WeightSet Nat where
  conv1 := m.conv1.map (fun v => v.elems)
  conv2 := m.conv2.map (fun v => v.elems)
  conv3 := m.conv3.map (fun v => v.elems)
  fc1 := m.fc1
  fc2 := m.fc2
  fc3 := m.fc3

/-- A well-formed topology-sized model in memory: topology-sized buffers, every float a
32-bit pattern, every vector object `vsize = sizeof(std::vector<float>)` bytes. -/
def ModelShape (vsize : Nat) (m : Model) : Prop :=
  Topology m.weights ∧
  (∀ v ∈ m.conv1 ++ m.conv2 ++ m.conv3,
    v.object.length = vsize ∧ (∀ b ∈ v.object, b < 256) ∧ ∀ x ∈ v.elems, x < 2 ^ 32) ∧
  (∀ x ∈ m.fc1 ++ m.fc2 ++ m.fc3, x < 2 ^ 32)

/-- The template `save_vector<T>`: `size = vec.size()` as 8 bytes, then the
`size * sizeof(T)` bytes found at `vec.data()`, which are the `T` objects one after the
other; `bytes` gives the `sizeof(T)` bytes of one `T` object. -/
def save_vector {T : Type} (bytes : T → List Nat) (vec : List T) : List Nat :=
  le_bytes 8 vec.length ++ vec.flatMap bytes

/-- The function `save_weights`: `save_vector` on the six members in source order. The
three `conv` members are vectors of vector objects (`T = std::vector<float>`), the three
`fc` members vectors of floats (`T = float`). -/
def save_weights (m : Model) : List Nat :=
  save_vector (fun v => v.object) m.conv1 ++ save_vector (fun v => v.object) m.conv2
    ++ save_vector (fun v => v.object) m.conv3
    ++ save_vector (le_bytes 4) m.fc1 ++ save_vector (le_bytes 4) m.fc2
    ++ save_vector (le_bytes 4) m.fc3

/-- The call `vec.resize(n)`: keep the first `n` elements, append value-initialised ones
(`d`) up to length `n`. -/
def resize {T : Type} (vec : List T) (n : Nat) (d : T) : List T :=
  vec.take n ++ List.replicate (n - vec.length) d

/-- The bulk read `file.read(vec.data(), size * sizeof(T))`: element `k` has its
`sz = sizeof(T)` bytes overwritten by the bytes `k * sz, ..., k * sz + sz - 1` of the
unread file; `store old bs` is the object that results from overwriting the bytes of `old`
by `bs`. -/
def read_elems {T : Type} (sz : Nat) (store : T → List Nat → T) (vec : List T)
    (bs : List Nat) : List T :=
  List.zipWith store vec ((List.range vec.length).map (fun k => (bs.drop (k * sz)).take sz))

/-- The template `load_vector<T>` on the unread part `file` of the stream: read `size`,
`vec.resize(size)`, read `size * sizeof(T)` bytes over the elements. Returns the vector and
the rest of the stream; a stream that ends early is not modelled (`none`). -/
def load_vector {T : Type} (sz : Nat) (store : T → List Nat → T) (d : T) (file : List Nat)
    (vec : List T) : Option (List T × List Nat) :=
  if file.length < 8 then none
  else if (file.drop 8).length < of_le_bytes (file.take 8) * sz then none
  else some (read_elems sz store (resize vec (of_le_bytes (file.take 8)) d) (file.drop 8),
    (file.drop 8).drop (of_le_bytes (file.take 8) * sz))

/-- Overwriting a `float` by 4 bytes. -/
def store_float (_old : Nat) (bs : List Nat) : Nat := of_le_bytes bs

/-- Overwriting a `std::vector<float>` object by `sizeof(std::vector<float>)` bytes read
from a file: the object now holds the pointers that were written to the file, and its
elements are whatever the loading process has at those addresses, `mem bs`. The heap block
the object owned before is no longer referenced. -/
def store_vector (mem : List Nat → List Nat) (_old : FloatVector) (bs : List Nat) :
    FloatVector :=
  ⟨bs, mem bs⟩

/-- The function `load_weights` into the model `m`: `load_vector` on the six members in
source order. `vsize` is `sizeof(std::vector<float>)`, and `mem` is the memory of the
loading process as seen through a vector object. -/
def load_weights (vsize : Nat) (mem : List Nat → List Nat) (file : List Nat) (m : Model) :
    Option Model :=
  (load_vector vsize (store_vector mem) ⟨List.replicate vsize 0, []⟩ file m.conv1).bind
    fun r1 =>
  (load_vector vsize (store_vector mem) ⟨List.replicate vsize 0, []⟩ r1.2 m.conv2).bind
    fun r2 =>
  (load_vector vsize (store_vector mem) ⟨List.replicate vsize 0, []⟩ r2.2 m.conv3).bind
    fun r3 =>
  (load_vector 4 store_float 0 r3.2 m.fc1).bind fun r4 =>
  (load_vector 4 store_float 0 r4.2 m.fc2).bind fun r5 =>
  (load_vector 4 store_float 0 r5.2 m.fc3).bind fun r6 =>
  some ⟨r1.1, r2.1, r3.1, r4.1, r5.1, r6.1⟩

/-- The file layout in the words of the specification: for each of the six buffers in
order, an 8-byte length equal to the buffer's number of float elements, then that many
4-byte floats. -/
def spec_file (w : WeightSet Nat) : List Nat :=
  save_vector (le_bytes 4) w.conv1.flatten ++ save_vector (le_bytes 4) w.conv2.flatten
    ++ save_vector (le_bytes 4) w.conv3.flatten
    ++ save_vector (le_bytes 4) w.fc1 ++ save_vector (le_bytes 4) w.fc2
    ++ save_vector (le_bytes 4) w.fc3

/-- The 24 bytes of a `std::vector<float>` object with `n` elements whose heap block
starts at address `start`: the pointers to the first element, past the last element, and
past the end of the block. -/
def vector_object (start n : Nat) : List Nat :=
  le_bytes 8 start ++ le_bytes 8 (start + 4 * n) ++ le_bytes 8 (start + 4 * n)

/-- A model in memory with `conv1[0][0]` holding the bit pattern `x`, every other weight
the bit pattern of `0.01f`, and the heap blocks of the inner vectors at fixed addresses. -/
def sampleModel (x : Nat) : Model where
  conv1 := (List.range 32).map (fun f =>
    ⟨vector_object (4096 + 64 * f) 9,
      if f = 0 then x :: List.replicate 8 1008981770 else List.replicate 9 1008981770⟩)
  conv2 := (List.range 64).map (fun f =>
    ⟨vector_object (65536 + 2048 * f) 288, List.replicate 288 1008981770⟩)
  conv3 := (List.range 128).map (fun f =>
    ⟨vector_object (1048576 + 4096 * f) 576, List.replicate 576 1008981770⟩)
  fc1 := List.replicate 8192 1008981770
  fc2 := List.replicate 256 1008981770
  fc3 := List.replicate 128 1008981770

/-! ## Tables: buffers written as functions of the index -/

/-- The buffer of length `N` whose entry `p` is `gf p`. -/
def tab {α : Type} (N : Nat) (gf : Nat → α) : List α := (List.range N).map gf

/-- The vector of `L` vectors of length `M` whose entry `[f][t]` is `wf f t`. -/
def tab2 {α : Type} (L M : Nat) (wf : Nat → Nat → α) : List (List α) :=
  (List.range L).map (fun f => (List.range M).map (wf f))

/-- The sum `up 0 + up 1 + ... + up (n - 1)`, accumulated from the left starting at `0`. -/
def psum {α : Type} [Zero α] [Add α] (up : Nat → α) : Nat → α
  | 0 => 0
  | n + 1 => psum up n + up n

/-! ## More scenario data -/

/-- The 64 x 64 grid that is zero except for a one at row 20, column 20. -/
def spotGrid : List (List ℚ) :=
  tab2 64 64 (fun r c => if r = 20 ∧ c = 20 then 1 else 0)

/-- Topology-sized weights that agree with the freshly initialised ones on taps 0..8 of
filter 0 of `conv1`, of filter 0 of `conv2` and of every filter of `conv3`, and on `fc1`,
`fc2`, `fc3`; every other convolution weight is 7. -/
def variantWeights : WeightSet ℚ where
  conv1 := tab2 32 9 (fun f _ => if f = 0 then 1 / 100 else 7)
  conv2 := tab2 64 (32 * 3 * 3) (fun f t => if f = 0 ∧ t < 9 then 1 / 100 else 7)
  conv3 := tab2 128 (64 * 3 * 3) (fun _ t => if t < 9 then 1 / 100 else 7)
  fc1 := List.replicate (128 * 8 * 8) (1 / 100)
  fc2 := List.replicate 256 (1 / 100)
  fc3 := List.replicate 128 (1 / 100)


/-! ## Scalars with the special values of `float` -/

/-- The values of a `float` as far as its special values go: a finite value, the two
infinities, and NaN. Finite values are kept exact (no rounding, no overflow, one zero). -/
inductive FloatVal where
  | fin (q : ℚ)
  | pinf
  | ninf
  | nan

/-- The sum of two values: IEEE-754 on the special values (`inf + -inf` is NaN, NaN
propagates), exact on the finite ones. -/
def FloatVal.add : FloatVal → FloatVal → FloatVal
  | .fin a, .fin b => .fin (a + b)
  | .fin _, .pinf => .pinf
  | .fin _, .ninf => .ninf
  | .pinf, .fin _ => .pinf
  | .pinf, .pinf => .pinf
  | .pinf, .ninf => .nan
  | .ninf, .fin _ => .ninf
  | .ninf, .pinf => .nan
  | .ninf, .ninf => .ninf
  | .nan, _ => .nan
  | _, .nan => .nan

/-- The product of a finite value `a` and an infinity of sign `pos`: NaN when `a` is zero,
else the infinity whose sign is the product of the signs. -/
def FloatVal.scaleInf (a : ℚ) (pos : Bool) : FloatVal :=
  if a = 0 then .nan else if decide (0 < a) = pos then .pinf else .ninf

/-- The product of two values: IEEE-754 on the special values (`0 * inf` is NaN, NaN
propagates), exact on the finite ones. -/
def FloatVal.mul : FloatVal → FloatVal → FloatVal
  | .fin a, .fin b => .fin (a * b)
  | .fin a, .pinf => FloatVal.scaleInf a true
  | .fin a, .ninf => FloatVal.scaleInf a false
  | .pinf, .fin b => FloatVal.scaleInf b true
  | .ninf, .fin b => FloatVal.scaleInf b false
  | .pinf, .pinf => .pinf
  | .pinf, .ninf => .ninf
  | .ninf, .pinf => .ninf
  | .ninf, .ninf => .pinf
  | .nan, _ => .nan
  | _, .nan => .nan

/-- The comparison `a < b` of `float`: false whenever an operand is NaN. -/
def FloatVal.ltb : FloatVal → FloatVal → Bool
  | .fin a, .fin b => decide (a < b)
  | .fin _, .pinf => true
  | .ninf, .fin _ => true
  | .ninf, .pinf => true
  | _, _ => false

/-- The comparison `a <= b` of `float`: false whenever an operand is NaN. -/
def FloatVal.leb : FloatVal → FloatVal → Bool
  | .fin a, .fin b => decide (a ≤ b)
  | .fin _, .pinf => true
  | .ninf, .fin _ => true
  | .ninf, .pinf => true
  | .pinf, .pinf => true
  | .ninf, .ninf => true
  | _, _ => false

instance : Zero FloatVal := ⟨.fin 0⟩

instance : Add FloatVal := ⟨FloatVal.add⟩

instance : Mul FloatVal := ⟨FloatVal.mul⟩

instance : LT FloatVal := ⟨fun a b => FloatVal.ltb a b = true⟩

instance : LE FloatVal := ⟨fun a b => FloatVal.leb a b = true⟩

instance : DecidableRel (fun (a b : FloatVal) => a < b) :=
  fun a b => inferInstanceAs (Decidable (FloatVal.ltb a b = true))

instance : DecidableRel (fun (a b : FloatVal) => a ≤ b) :=
  fun a b => inferInstanceAs (Decidable (FloatVal.leb a b = true))

/-- Every weight of every buffer of `w` satisfies `P`. -/
def AllWeights {α : Type} (P : α → Prop) (w : WeightSet α) : Prop :=
  (∀ row ∈ w.conv1, ∀ x ∈ row, P x) ∧ (∀ row ∈ w.conv2, ∀ x ∈ row, P x) ∧
  (∀ row ∈ w.conv3, ∀ x ∈ row, P x) ∧
  (∀ x ∈ w.fc1, P x) ∧ (∀ x ∈ w.fc2, P x) ∧ (∀ x ∈ w.fc3, P x)

/-- What the comparisons `<` and `<=` of the scalars satisfy on the values that `good`
singles out (for `float`: the values other than NaN). -/
structure OrderedOn {α : Type} [LT α] [LE α] (good : α → Prop) : Prop where
  refl : ∀ a : α, good a → a ≤ a
  le_of_lt : ∀ a b : α, a < b → a ≤ b
  le_of_not_lt : ∀ a b : α, good a → good b → ¬ a < b → b ≤ a
  lt_of_le_of_lt : ∀ a b c : α, a ≤ b → b < c → a < c

/-- Topology-sized weights: every convolution, `fc1` and `fc2` weight is 0.01 and every
`fc3` weight is `+inf`. -/
def infWeights : WeightSet FloatVal :=
  { initialize_weights (FloatVal.fin (1 / 100)) with fc3 := List.replicate 128 FloatVal.pinf }

/-- Four scores of which the first is NaN. -/
def nanScores : List FloatVal := [FloatVal.nan, FloatVal.fin 1, FloatVal.fin 2, FloatVal.fin 0]

/-- Four scores without NaN: the maximum `+inf` is at indices 1 and 2. -/
def finiteScores : List FloatVal :=
  [FloatVal.fin 1, FloatVal.pinf, FloatVal.pinf, FloatVal.fin 2]

/-! ## Loop lemmas -/

theorem forLoop_zero {σ : Type} (body : Nat → σ → Option σ) (s : σ) :
    forLoop 0 body s = some s := rfl

theorem forLoopFrom_succ {σ : Type} (body : Nat → σ → Option σ) (n i : Nat) (s : σ) :
    forLoopFrom body (n + 1) i s = (forLoopFrom body n i s).bind (body (i + n)) := by
  induction n generalizing i s with
  | zero =>
    show (match body i s with
      | none => none
      | some s1 => forLoopFrom body 0 (i + 1) s1) = (some s).bind (body (i + 0))
    cases h : body i s <;> simp [forLoopFrom, h]
  | succ k ih =>
    show (match body i s with
      | none => none
      | some s1 => forLoopFrom body (k + 1) (i + 1) s1)
        = (match body i s with
          | none => none
          | some s1 => forLoopFrom body k (i + 1) s1).bind (body (i + (k + 1)))
    cases h : body i s with
    | none => rfl
    | some s1 =>
      have e : i + 1 + k = i + (k + 1) := by omega
      simp only [ih, e]

/-- Running one more iteration: the loop over `n + 1` is the loop over `n` followed by
the body at `n`. -/
theorem forLoop_succ {σ : Type} (n : Nat) (body : Nat → σ → Option σ) (s : σ) :
    forLoop (n + 1) body s = (forLoop n body s).bind (body n) := by
  unfold forLoop
  rw [forLoopFrom_succ, Nat.zero_add]

theorem forLoop_three {σ : Type} (body : Nat → σ → Option σ) (s : σ) :
    forLoop 3 body s = (((body 0 s).bind (body 1)).bind (body 2)) := by
  show forLoop (0 + 1 + 1 + 1) body s = _
  rw [forLoop_succ, forLoop_succ, forLoop_succ, forLoop_zero, Option.some_bind]

/-- Hoare rule for `forLoop`: an invariant that holds at the start and that every
in-range iteration re-establishes (while succeeding) holds at the end, and the loop succeeds. -/
theorem forLoop_inv {σ : Type} (P : Nat → σ → Prop) (n : Nat) (body : Nat → σ → Option σ)
    (s : σ) (h0 : P 0 s)
    (hstep : ∀ i t, i < n → P i t → ∃ t1, body i t = some t1 ∧ P (i + 1) t1) :
    ∃ t, forLoop n body s = some t ∧ P n t := by
  induction n with
  | zero => exact ⟨s, rfl, h0⟩
  | succ k ih =>
    obtain ⟨t, ht, hP⟩ := ih (fun i t hi hp => hstep i t (Nat.lt_succ_of_lt hi) hp)
    obtain ⟨t1, ht1, hP1⟩ := hstep k t (Nat.lt_succ_self k) hP
    exact ⟨t1, by rw [forLoop_succ, ht]; exact ht1, hP1⟩

theorem forLoop_congr {σ : Type} (n : Nat) (b1 b2 : Nat → σ → Option σ) (s : σ)
    (h : ∀ i, i < n → ∀ t, b1 i t = b2 i t) : forLoop n b1 s = forLoop n b2 s := by
  induction n with
  | zero => rfl
  | succ k ih =>
    rw [forLoop_succ, forLoop_succ, ih (fun i hi t => h i (Nat.lt_succ_of_lt hi) t)]
    cases forLoop k b2 s with
    | none => rfl
    | some t => exact h k (Nat.lt_succ_self k) t

theorem forLoop_add {σ : Type} (a b : Nat) (body : Nat → σ → Option σ) (s : σ) :
    forLoop (a + b) body s = (forLoop a body s).bind (forLoop b (fun k => body (a + k))) := by
  induction b with
  | zero => cases h : forLoop a body s <;> simp [forLoop_zero, h]
  | succ k ih =>
    rw [← Nat.add_assoc, forLoop_succ, ih]
    cases forLoop a body s with
    | none => rfl
    | some t => simp [forLoop_succ]

/-- A loop over `n * m` indices is the nest of a loop over `n` and a loop over `m`. -/
theorem forLoop_mul {σ : Type} (n m : Nat) (body : Nat → σ → Option σ) (s : σ) :
    forLoop (n * m) body s
      = forLoop n (fun a t => forLoop m (fun b u => body (a * m + b) u) t) s := by
  induction n with
  | zero => simp [forLoop_zero]
  | succ k ih =>
    rw [Nat.succ_mul, forLoop_add, ih, forLoop_succ]

/-! ## Arg-max -/

/-- The scan of `max_element` keeps the lowest index of a largest value when the values it
meets are ordered by `<` and `≤` (`OrderedOn good`, every value met being `good`). -/
theorem max_element_go_spec {α : Type} [LT α] [LE α] [DecidableRel (fun (a b : α) => a < b)]
    (good : α → Prop) (hord : OrderedOn good) (rest pre : List α) (cur : α)
    (curIdx : Nat) (hcur : good cur) (hrest : ∀ x ∈ rest, good x)
    (hidx : pre[curIdx]? = some cur)
    (hge : ∀ (k : Nat) (x : α), pre[k]? = some x → x ≤ cur)
    (hlt : ∀ (k : Nat) (x : α), k < curIdx → pre[k]? = some x → x < cur) :
    ∃ best, (pre ++ rest)[max_element_go cur curIdx rest pre.length]? = some best ∧
      (∀ (k : Nat) (x : α), (pre ++ rest)[k]? = some x → x ≤ best) ∧
      (∀ (k : Nat) (x : α), k < max_element_go cur curIdx rest pre.length →
        (pre ++ rest)[k]? = some x → x < best) := by
  induction rest generalizing pre cur curIdx with
  | nil =>
    refine ⟨cur, ?_, ?_, ?_⟩
    · simpa [max_element_go] using hidx
    · simpa using hge
    · simpa [max_element_go] using hlt
  | cons y rest ih =>
    have hy : good y := hrest y (List.mem_cons_self _ _)
    have hrest1 : ∀ x ∈ rest, good x := fun x hx => hrest x (List.mem_cons_of_mem _ hx)
    have hlen : curIdx < pre.length := by
      by_contra hc
      rw [List.getElem?_eq_none (Nat.le_of_not_lt hc)] at hidx
      cases hidx
    have happ : pre ++ y :: rest = (pre ++ [y]) ++ rest := by simp
    have hplen : (pre ++ [y]).length = pre.length + 1 := by simp
    unfold max_element_go
    by_cases hcy : cur < y
    · rw [if_pos hcy, happ, ← hplen]
      apply ih _ _ _ hy hrest1
      · simp
      · intro k x hk
        rcases Nat.lt_or_ge k pre.length with h | h
        · rw [List.getElem?_append_left h] at hk
          exact hord.le_of_lt _ _ (hord.lt_of_le_of_lt _ _ _ (hge k x hk) hcy)
        · rw [List.getElem?_append_right h] at hk
          rcases Nat.eq_zero_or_pos (k - pre.length) with h0 | h0
          · rw [h0] at hk; simp at hk; rw [← hk]; exact hord.refl y hy
          · rw [List.getElem?_eq_none (by simp; omega)] at hk; cases hk
      · intro k x hk hx
        rw [List.getElem?_append_left hk] at hx
        exact hord.lt_of_le_of_lt _ _ _ (hge k x hx) hcy
    · rw [if_neg hcy, happ, ← hplen]
      apply ih _ _ _ hcur hrest1
      · rw [List.getElem?_append_left hlen]; exact hidx
      · intro k x hk
        rcases Nat.lt_or_ge k pre.length with h | h
        · rw [List.getElem?_append_left h] at hk
          exact hge k x hk
        · rw [List.getElem?_append_right h] at hk
          rcases Nat.eq_zero_or_pos (k - pre.length) with h0 | h0
          · rw [h0] at hk; simp at hk; rw [← hk]; exact hord.le_of_not_lt _ _ hcur hy hcy
          · rw [List.getElem?_eq_none (by simp; omega)] at hk; cases hk
      · intro k x hk hx
        rw [List.getElem?_append_left (lt_trans hk hlen)] at hx
        exact hlt k x hk hx

theorem max_element_spec {α : Type} [LT α] [LE α] [DecidableRel (fun (a b : α) => a < b)]
    (good : α → Prop) (hord : OrderedOn good) (xs : List α) (hne : xs ≠ [])
    (hgood : ∀ x ∈ xs, good x) :
    ∃ best, xs[max_element xs]? = some best ∧
      (∀ (k : Nat) (x : α), xs[k]? = some x → x ≤ best) ∧
      (∀ (k : Nat) (x : α), k < max_element xs → xs[k]? = some x → x < best) := by
  cases xs with
  | nil => exact absurd rfl hne
  | cons x rest =>
    have hx : good x := hgood x (List.mem_cons_self _ _)
    have h := max_element_go_spec good hord rest [x] x 0 hx
      (fun y hy => hgood y (List.mem_cons_of_mem _ hy)) (by simp)
      (by
        intro k y hk
        cases k with
        | zero => simp at hk; rw [← hk]; exact hord.refl x hx
        | succ k => simp at hk)
      (by intro k y hk; omega)
    simpa [max_element] using h

/-- A linear order satisfies `OrderedOn` on all its values. -/
theorem orderedOn_linearOrder {α : Type} [LinearOrder α] : OrderedOn (fun _ : α => True) :=
  ⟨fun a _ => le_refl a, fun _ _ h => le_of_lt h, fun _ _ _ _ h => le_of_not_lt h,
    fun _ _ _ h1 h2 => lt_of_le_of_lt h1 h2⟩

/-- The comparisons of `FloatVal` satisfy `OrderedOn` on the values other than NaN. -/
theorem orderedOn_floatVal : OrderedOn (fun a : FloatVal => a ≠ FloatVal.nan) := by
  refine ⟨?_, ?_, ?_, ?_⟩
  · intro a ha
    show FloatVal.leb a a = true
    cases a <;> simp [FloatVal.leb] at ha ⊢
  · intro a b h
    change FloatVal.ltb a b = true at h
    show FloatVal.leb a b = true
    cases a <;> cases b <;> simp [FloatVal.leb, FloatVal.ltb] at h ⊢
    exact le_of_lt h
  · intro a b ha hb h
    change ¬ (FloatVal.ltb a b = true) at h
    show FloatVal.leb b a = true
    cases a <;> cases b <;> simp [FloatVal.leb, FloatVal.ltb] at ha hb h ⊢
    exact h
  · intro a b c h1 h2
    change FloatVal.leb a b = true at h1
    change FloatVal.ltb b c = true at h2
    show FloatVal.ltb a c = true
    cases a <;> cases b <;> cases c <;> simp [FloatVal.leb, FloatVal.ltb] at h1 h2 ⊢
    exact lt_of_le_of_lt h1 h2

/-! ## Tabulating loops -/

theorem set_append_drop {β : Type} (l init : List β) (k : Nat) (v : β)
    (hl : l.length = k) (hk : k < init.length) :
    (l ++ init.drop k).set k v = (l ++ [v]) ++ init.drop (k + 1) := by
  subst hl
  rw [List.set_append_right _ _ (Nat.le_refl _)]
  simp only [Nat.sub_self]
  have h := List.drop_eq_getElem_cons hk
  rw [h, List.set_cons_zero, List.append_assoc]
  rfl

/-- A loop that writes cell `p` in iteration `p` fills the buffer with the table of values. -/
theorem forLoop_tabulate {β γ : Type} (N : Nat) (val : Nat → Option γ) (g : γ → β)
    (v : Nat → γ) (init : List β) (hinit : init.length = N)
    (hval : ∀ p, p < N → val p = some (v p)) :
    forLoop N (fun p out => (val p).bind (fun s => writeAt out p (g s))) init
      = some ((List.range N).map (fun p => g (v p))) := by
  have key : ∀ k, k ≤ N →
      forLoop k (fun p out => (val p).bind (fun s => writeAt out p (g s))) init
        = some ((List.range k).map (fun p => g (v p)) ++ init.drop k) := by
    intro k
    induction k with
    | zero => intro _; simp [forLoop_zero]
    | succ k ih =>
      intro hk
      have hk1 : k < N := hk
      rw [forLoop_succ, ih (Nat.le_of_lt hk1), Option.some_bind, hval k hk1, Option.some_bind]
      unfold writeAt
      rw [if_pos (by simp; omega)]
      rw [set_append_drop _ _ _ _ (by simp) (by omega)]
      simp [List.range_succ]
  rw [key N (Nat.le_refl N)]
  simp [← hinit]

theorem index_decode (H W f i j : Nat) (hi : i < H) (hj : j < W) :
    (f * (H * W) + (i * W + j)) / (H * W) = f ∧
    (f * (H * W) + (i * W + j)) / W % H = i ∧
    (f * (H * W) + (i * W + j)) % W = j := by
  have hW : 0 < W := by omega
  have hH : 0 < H := by omega
  have hlt : i * W + j < H * W := by
    calc i * W + j < i * W + W := by omega
      _ = (i + 1) * W := by ring
      _ ≤ H * W := Nat.mul_le_mul_right W hi
  refine ⟨?_, ?_, ?_⟩
  · rw [Nat.add_comm, Nat.add_mul_div_right _ _ (Nat.mul_pos hH hW), Nat.div_eq_of_lt hlt]
    simp
  · have e : f * (H * W) + (i * W + j) = j + (f * H + i) * W := by ring
    rw [e, Nat.add_mul_div_right _ _ hW, Nat.div_eq_of_lt hj, Nat.zero_add,
      Nat.add_comm, Nat.add_mul_mod_self_right, Nat.mod_eq_of_lt hi]
  · have e : f * (H * W) + (i * W + j) = j + (f * H + i) * W := by ring
    rw [e, Nat.add_mul_mod_self_right, Nat.mod_eq_of_lt hj]

/-- A triple loop nest that writes cell `f * H * W + i * W + j` in iteration `(f, i, j)`
fills the buffer with the table of the cell values. -/
theorem forLoop3_tabulate {β γ : Type} (F H W : Nat) (cell : Nat → Nat → Nat → Option γ)
    (g : γ → β) (v : Nat → Nat → Nat → γ) (init : List β) (hinit : init.length = F * H * W)
    (hcell : ∀ f i j, f < F → i < H → j < W → cell f i j = some (v f i j)) :
    forLoop F (fun f out =>
      forLoop H (fun i out =>
        forLoop W (fun j out =>
          (cell f i j).bind (fun s => writeAt out (f * H * W + i * W + j) (g s))) out) out) init
      = some ((List.range (F * H * W)).map
          (fun p => g (v (p / (H * W)) (p / W % H) (p % W)))) := by
  rw [← forLoop_tabulate (F * H * W)
    (fun p => if p < F * H * W then cell (p / (H * W)) (p / W % H) (p % W) else none) g
    (fun p => v (p / (H * W)) (p / W % H) (p % W)) init hinit]
  · rw [Nat.mul_assoc, forLoop_mul]
    apply forLoop_congr
    intro f hf t
    rw [forLoop_mul]
    apply forLoop_congr
    intro i hi t1
    apply forLoop_congr
    intro j hj t2
    obtain ⟨e1, e2, e3⟩ := index_decode H W f i j hi hj
    have hlt : f * (H * W) + (i * W + j) < F * (H * W) := by
      have h1 : i * W + j < H * W := by
        calc i * W + j < i * W + W := by omega
          _ = (i + 1) * W := by ring
          _ ≤ H * W := Nat.mul_le_mul_right W hi
      calc f * (H * W) + (i * W + j) < f * (H * W) + H * W := by omega
        _ = (f + 1) * (H * W) := by ring
        _ ≤ F * (H * W) := Nat.mul_le_mul_right _ hf
    simp only [e1, e2, e3, if_pos hlt]
    have e : f * (H * W) + (i * W + j) = f * H * W + i * W + j := by ring
    rw [e]
  · intro p hp
    rw [if_pos hp]
    have hHW : 0 < H * W := by
      rcases Nat.eq_zero_or_pos (H * W) with h | h
      · rw [Nat.mul_assoc, h] at hp; simp at hp
      · exact h
    have hW : 0 < W := Nat.pos_of_mul_pos_left hHW |> fun _ => by
      rcases Nat.eq_zero_or_pos W with h | h
      · rw [h] at hHW; simp at hHW
      · exact h
    have hH : 0 < H := by
      rcases Nat.eq_zero_or_pos H with h | h
      · rw [h] at hHW; simp at hHW
      · exact h
    apply hcell
    · rw [Nat.mul_assoc] at hp
      exact Nat.div_lt_of_lt_mul (by rw [Nat.mul_comm]; exact hp)
    · exact Nat.mod_lt _ hH
    · exact Nat.mod_lt _ hW

/-! ## Forward pass: the loops compute the tables -/

section ForwardLemmas

variable {α : Type} [Zero α] [Add α] [Mul α] [LT α] [DecidableRel (fun (a b : α) => a < b)]

theorem readAt_getD {β : Type} (xs : List β) (i : Nat) (d : β) (h : i < xs.length) :
    readAt xs i = some (xs.getD i d) := by
  simp [readAt, List.getD, List.getElem?_eq_getElem h]

omit [Add α] [Mul α] [LT α] [DecidableRel (fun (a b : α) => a < b)] in
theorem readAt2_of_shape (xss : List (List α)) (n m f t : Nat) (hs : HasShape xss n m)
    (hf : f < n) (ht : t < m) : readAt2 xss f t = some (tapOf xss f t) := by
  obtain ⟨hlen, hrow⟩ := hs
  have hf1 : f < xss.length := by omega
  have hmem : xss[f] ∈ xss := List.getElem_mem hf1
  have hr : t < (xss[f]).length := by rw [hrow _ hmem]; exact ht
  simp [readAt2, readAt, tapOf, List.getD, List.getElem?_eq_getElem hf1,
    List.getElem?_eq_getElem hr]

omit [Add α] [Mul α] [LT α] [DecidableRel (fun (a b : α) => a < b)] in
theorem readAt2_grid (g : List (List α)) (r c : Nat) (hg : IsGrid g)
    (hr : r < 64) (hc : c < 64) : readAt2 g r c = some (gridAt g r c) :=
  readAt2_of_shape g 64 64 r c hg hr hc

theorem convLoops_eq (F H W : Nat) (rd : Nat → Nat → Option α) (x : Nat → Nat → α)
    (wts : List (List α))
    (hrd : ∀ r c, r < H + 2 → c < W + 2 → rd r c = some (x r c))
    (hw : ∀ f t, f < F → t < 9 → readAt2 wts f t = some (tapOf wts f t)) :
    convLoops F H W rd wts = some (convTable F H W x wts) := by
  unfold convLoops convTable
  apply forLoop3_tabulate F H W _ relu (fun f i j => convSum x (tapOf wts f) i j)
  · simp
  · intro f i j hf hi hj
    have r00 := hrd (i + 0) (j + 0) (by omega) (by omega)
    have r01 := hrd (i + 0) (j + 1) (by omega) (by omega)
    have r02 := hrd (i + 0) (j + 2) (by omega) (by omega)
    have r10 := hrd (i + 1) (j + 0) (by omega) (by omega)
    have r11 := hrd (i + 1) (j + 1) (by omega) (by omega)
    have r12 := hrd (i + 1) (j + 2) (by omega) (by omega)
    have r20 := hrd (i + 2) (j + 0) (by omega) (by omega)
    have r21 := hrd (i + 2) (j + 1) (by omega) (by omega)
    have r22 := hrd (i + 2) (j + 2) (by omega) (by omega)
    have w0 := hw f 0 hf (by omega)
    have w1 := hw f 1 hf (by omega)
    have w2 := hw f 2 hf (by omega)
    have w3 := hw f 3 hf (by omega)
    have w4 := hw f 4 hf (by omega)
    have w5 := hw f 5 hf (by omega)
    have w6 := hw f 6 hf (by omega)
    have w7 := hw f 7 hf (by omega)
    have w8 := hw f 8 hf (by omega)
    simp only [forLoop_three, Option.some_bind, Nat.zero_mul, Nat.one_mul, Nat.zero_add,
      r00, r01, r02, r10, r11, r12, r20, r21, r22, w0, w1, w2, w3, w4, w5, w6, w7, w8,
      convSum]

omit [LT α] [DecidableRel (fun (a b : α) => a < b)] in
theorem dot_loop_eq (inp wts : List α) (k : Nat) (hi : k ≤ inp.length) (hw : k ≤ wts.length) :
    forLoop k (fun j sum =>
      (readAt inp j).bind (fun x =>
        (readAt wts j).bind (fun wv => some (sum + x * wv)))) 0
      = some (dotLeft (inp.take k) (wts.take k)) := by
  induction k with
  | zero => simp [forLoop_zero, dotLeft]
  | succ k ih =>
    have hi1 : k < inp.length := hi
    have hw1 : k < wts.length := hw
    rw [forLoop_succ, ih (Nat.le_of_lt hi1) (Nat.le_of_lt hw1), Option.some_bind]
    simp only [readAt, List.getElem?_eq_getElem hi1, List.getElem?_eq_getElem hw1,
      Option.some_bind]
    congr 1
    unfold dotLeft
    rw [List.take_succ, List.take_succ, List.getElem?_eq_getElem hi1,
      List.getElem?_eq_getElem hw1]
    rw [List.zipWith_append _ _ _ _ _ (by simp; omega)]
    simp [List.foldl_append]

omit [LT α] [DecidableRel (fun (a b : α) => a < b)] in
theorem fcLoops_eq (n m : Nat) (inp wts : List α) (act : α → α)
    (hi : inp.length = m) (hw : wts.length = m) :
    fcLoops n m inp wts act = some (List.replicate n (act (dotLeft inp wts))) := by
  unfold fcLoops
  rw [forLoop_tabulate n _ act (fun _ => dotLeft inp wts) _ (by simp)]
  · congr 1
    apply List.ext_getElem <;> simp
  · intro p _
    rw [dot_loop_eq inp wts m (by omega) (by omega)]
    rw [← hi, List.take_length, hi, ← hw, List.take_length]

theorem convTable_length (F H W : Nat) (x : Nat → Nat → α) (wts : List (List α)) :
    (convTable F H W x wts).length = F * H * W := by
  simp [convTable]

/-- On topology-sized weights and a 64 x 64 input, `forward` runs to completion and its
buffers are the tables of `forwardTable`. -/
theorem forward_trace_eq (w : WeightSet α) (input : List (List α))
    (hw : Topology w) (hg : IsGrid input) :
    forward_trace w input = some (forwardTable w input) := by
  obtain ⟨h1, h2, h3, h4, h5, h6⟩ := hw
  unfold forward_trace
  rw [convLoops_eq 32 32 32 _ (gridAt input) w.conv1
    (fun r c hr hc => readAt2_grid input r c hg (by omega) (by omega))
    (fun f t hf ht => readAt2_of_shape w.conv1 32 9 f t h1 hf ht)]
  rw [Option.some_bind]
  rw [convLoops_eq 64 16 16 _
    (fun r c => (convTable 32 32 32 (gridAt input) w.conv1).getD (r * 32 + c) 0) w.conv2
    (fun r c hr hc => readAt_getD _ _ 0 (by rw [convTable_length]; omega))
    (fun f t hf ht => readAt2_of_shape w.conv2 64 (32 * 3 * 3) f t h2 hf (by omega))]
  rw [Option.some_bind]
  rw [convLoops_eq 128 8 8 _
    (fun r c => (convTable 64 16 16
      (fun r c => (convTable 32 32 32 (gridAt input) w.conv1).getD (r * 32 + c) 0)
      w.conv2).getD (r * 16 + c) 0) w.conv3
    (fun r c hr hc => readAt_getD _ _ 0 (by rw [convTable_length]; omega))
    (fun f t hf ht => readAt2_of_shape w.conv3 128 (64 * 3 * 3) f t h3 hf (by omega))]
  rw [Option.some_bind]
  rw [fcLoops_eq 256 (128 * 8 * 8) _ w.fc1 relu (by rw [convTable_length]) h4]
  rw [Option.some_bind]
  rw [fcLoops_eq 128 256 _ w.fc2 relu (List.length_replicate _ _) h5]
  rw [Option.some_bind]
  rw [fcLoops_eq NUM_CLASSES 128 _ w.fc3 id (List.length_replicate _ _) h6]
  rfl

end ForwardLemmas

/-! ## Shapes of the standard inputs -/

theorem hasShape_replicate {β : Type} (n m : Nat) (c : β) :
    HasShape (List.replicate n (List.replicate m c)) n m := by
  refine ⟨List.length_replicate _ _, ?_⟩
  intro row hrow
  rw [List.eq_of_mem_replicate hrow]
  exact List.length_replicate _ _

theorem initialize_weights_topology {β : Type} (c : β) : Topology (initialize_weights c) :=
  ⟨hasShape_replicate _ _ c, hasShape_replicate _ _ c, hasShape_replicate _ _ c,
    List.length_replicate _ _, List.length_replicate _ _, List.length_replicate _ _⟩

theorem isGrid_zeroGrid {β : Type} [Zero β] : IsGrid (zeroGrid β) :=
  hasShape_replicate _ _ 0

/-! ## Zero input -/

section ZeroInput

variable {α : Type} [LinearOrderedField α]

theorem relu_zero : relu (0 : α) = 0 := by simp [relu]

theorem convTable_zero (F H W : Nat) (x : Nat → Nat → α) (wts : List (List α))
    (hx : ∀ r c, x r c = 0) : convTable F H W x wts = List.replicate (F * H * W) 0 := by
  unfold convTable
  apply List.ext_getElem
  · simp
  · intro n h1 h2
    simp [convSum, hx, relu_zero]

theorem getD_replicate_zero (n i : Nat) : (List.replicate n (0 : α)).getD i 0 = 0 := by
  rcases Nat.lt_or_ge i n with h | h
  · simp [List.getD, List.getElem?_replicate, h]
  · simp [List.getD, List.getElem?_replicate, Nat.not_lt.mpr h]

theorem gridAt_zeroGrid (r c : Nat) : gridAt (zeroGrid α) r c = 0 := by
  unfold gridAt zeroGrid
  rcases Nat.lt_or_ge r IMAGE_SIZE with h | h
  · have e : (List.replicate IMAGE_SIZE (List.replicate IMAGE_SIZE (0 : α))).getD r []
        = List.replicate IMAGE_SIZE 0 := by
      simp [List.getD, List.getElem?_replicate, h]
    rw [e]
    exact getD_replicate_zero _ _
  · have e : (List.replicate IMAGE_SIZE (List.replicate IMAGE_SIZE (0 : α))).getD r [] = [] := by
      simp [List.getD, List.getElem?_replicate, Nat.not_lt.mpr h]
    rw [e]
    rfl

theorem foldl_add_zero (ps : List α) (hp : ∀ p ∈ ps, p = 0) :
    ps.foldl (fun s p => s + p) 0 = 0 := by
  induction ps with
  | nil => rfl
  | cons p ps ih =>
    have h0 : p = 0 := hp p (List.mem_cons_self _ _)
    rw [List.foldl_cons, h0, add_zero]
    exact ih (fun q hq => hp q (List.mem_cons_of_mem _ hq))

theorem dotLeft_replicate_zero (n : Nat) (ys : List α) :
    dotLeft (List.replicate n (0 : α)) ys = 0 := by
  unfold dotLeft
  apply foldl_add_zero
  intro p hp
  rw [List.mem_iff_getElem] at hp
  obtain ⟨i, hi, rfl⟩ := hp
  simp

theorem forwardTable_zeroGrid (w : WeightSet α) :
    forwardTable w (zeroGrid α)
      = ⟨List.replicate (32 * 32 * 32) 0, List.replicate (64 * 16 * 16) 0,
          List.replicate (128 * 8 * 8) 0, List.replicate 256 0, List.replicate 128 0,
          List.replicate NUM_CLASSES 0⟩ := by
  unfold forwardTable
  have e1 : convTable 32 32 32 (gridAt (zeroGrid α)) w.conv1
      = List.replicate (32 * 32 * 32) 0 := convTable_zero _ _ _ _ _ gridAt_zeroGrid
  simp only [e1]
  have e2 : convTable 64 16 16
      (fun r c => (List.replicate (32 * 32 * 32) (0 : α)).getD (r * 32 + c) 0) w.conv2
      = List.replicate (64 * 16 * 16) 0 :=
    convTable_zero _ _ _ _ _ (fun r c => getD_replicate_zero _ _)
  simp only [e2]
  have e3 : convTable 128 8 8
      (fun r c => (List.replicate (64 * 16 * 16) (0 : α)).getD (r * 16 + c) 0) w.conv3
      = List.replicate (128 * 8 * 8) 0 :=
    convTable_zero _ _ _ _ _ (fun r c => getD_replicate_zero _ _)
  simp only [e3]
  simp only [dotLeft_replicate_zero, relu_zero]

end ZeroInput

/-! ## Claims about `forward` and `predict` -/

/-- C3: on every 64 x 64 input and every topology-sized weight set, `forward` returns
`NUM_CLASSES` copies of one value, the left-accumulated dot product of the 128 fc2
activations with the fc3 buffer; the 256 fc1 activations are copies of one value and so
are the 128 fc2 activations. This holds for any interpretation of the scalar operations. -/
theorem forward_outputs_replicated {α : Type} [Zero α] [Add α] [Mul α] [LT α]
    [DecidableRel (fun (a b : α) => a < b)] (w : WeightSet α) (input : List (List α))
    (hw : Topology w) (hg : IsGrid input) :
    ∃ act, forward_trace w input = some act ∧ forward w input = some act.output ∧
      act.output = List.replicate NUM_CLASSES (dotLeft act.fc2_output w.fc3) ∧
      act.fc2_output.length = 128 ∧ w.fc3.length = 128 ∧
      (∃ a, act.fc1_output = List.replicate 256 a) ∧
      (∃ b, act.fc2_output = List.replicate 128 b) := by
  refine ⟨forwardTable w input, forward_trace_eq w input hw hg, ?_, rfl, ?_, hw.2.2.2.2.2,
    ⟨_, rfl⟩, ⟨_, rfl⟩⟩
  · rw [forward, forward_trace_eq w input hw hg]; rfl
  · exact List.length_replicate _ _

theorem forward_outputs_replicated_witness :
    Topology (initialize_weights (1 / 100 : ℚ)) ∧ IsGrid (zeroGrid ℚ) ∧
    ∃ act, forward_trace (initialize_weights (1 / 100 : ℚ)) (zeroGrid ℚ) = some act ∧
      forward (initialize_weights (1 / 100 : ℚ)) (zeroGrid ℚ) = some act.output ∧
      act.output = List.replicate NUM_CLASSES
        (dotLeft act.fc2_output (initialize_weights (1 / 100 : ℚ)).fc3) ∧
      act.fc2_output.length = 128 ∧ (initialize_weights (1 / 100 : ℚ)).fc3.length = 128 ∧
      (∃ a, act.fc1_output = List.replicate 256 a) ∧
      (∃ b, act.fc2_output = List.replicate 128 b) :=
  ⟨initialize_weights_topology _, isGrid_zeroGrid,
    forward_outputs_replicated _ _ (initialize_weights_topology _) isGrid_zeroGrid⟩

/-! ### Zero input over any scalars -/

theorem relu_zero_any {α : Type} [Zero α] [LT α] [DecidableRel (fun (a b : α) => a < b)] :
    relu (0 : α) = 0 := by simp [relu]

theorem getD_replicate_zero_any {α : Type} [Zero α] (n i : Nat) :
    (List.replicate n (0 : α)).getD i 0 = 0 := by
  rcases Nat.lt_or_ge i n with h | h
  · simp [List.getD, List.getElem?_replicate, h]
  · simp [List.getD, List.getElem?_replicate, Nat.not_lt.mpr h]

theorem gridAt_zeroGrid_any {α : Type} [Zero α] (r c : Nat) : gridAt (zeroGrid α) r c = 0 := by
  unfold gridAt zeroGrid
  rcases Nat.lt_or_ge r IMAGE_SIZE with h | h
  · have e : (List.replicate IMAGE_SIZE (List.replicate IMAGE_SIZE (0 : α))).getD r []
        = List.replicate IMAGE_SIZE 0 := by
      simp [List.getD, List.getElem?_replicate, h]
    rw [e]
    exact getD_replicate_zero_any _ _
  · have e : (List.replicate IMAGE_SIZE (List.replicate IMAGE_SIZE (0 : α))).getD r [] = [] := by
      simp [List.getD, List.getElem?_replicate, Nat.not_lt.mpr h]
    rw [e]
    rfl

/-- A window sum over a zero input is zero when each of the nine taps `x` has
`0 + 0 * x = 0`. -/
theorem convSum_zero_any {α : Type} [Zero α] [Add α] [Mul α] (x : Nat → Nat → α)
    (t : Nat → α) (i j : Nat)
    (hx : ∀ r c, x r c = 0) (ht : ∀ k, k < 9 → (0 : α) + 0 * t k = 0) :
    convSum x t i j = 0 := by
  unfold convSum
  simp only [hx]
  rw [ht 0 (by omega), ht 1 (by omega), ht 2 (by omega), ht 3 (by omega), ht 4 (by omega),
    ht 5 (by omega), ht 6 (by omega), ht 7 (by omega), ht 8 (by omega)]

theorem convTable_zero_any {α : Type} [Zero α] [Add α] [Mul α] [LT α]
    [DecidableRel (fun (a b : α) => a < b)] (F H W : Nat) (x : Nat → Nat → α)
    (wts : List (List α))
    (hx : ∀ r c, x r c = 0)
    (ht : ∀ f k, f < F → k < 9 → (0 : α) + 0 * tapOf wts f k = 0) :
    convTable F H W x wts = List.replicate (F * H * W) 0 := by
  unfold convTable
  apply List.ext_getElem
  · simp
  intro p hp0 _
  have hp : p < F * H * W := by simpa using hp0
  rw [List.getElem_map, List.getElem_range, List.getElem_replicate]
  have hHW : 0 < H * W := by
    rcases Nat.eq_zero_or_pos (H * W) with h | h
    · rw [Nat.mul_assoc, h] at hp; simp at hp
    · exact h
  have hf : p / (H * W) < F := by
    rw [Nat.mul_assoc] at hp
    exact Nat.div_lt_of_lt_mul (by rw [Nat.mul_comm]; exact hp)
  rw [convSum_zero_any x _ _ _ hx (fun k hk => ht _ k hf hk), relu_zero_any]

/-- The left-accumulated dot product of zeros with weights `y` that have `0 + 0 * y = 0`. -/
theorem dotLeft_zero_any {α : Type} [Zero α] [Add α] [Mul α] (n : Nat) (ys : List α)
    (hy : ∀ y ∈ ys, (0 : α) + 0 * y = 0) :
    dotLeft (List.replicate n (0 : α)) ys = 0 := by
  unfold dotLeft
  induction ys generalizing n with
  | nil => cases n <;> rfl
  | cons y ys ih =>
    cases n with
    | zero => rfl
    | succ n =>
      rw [List.replicate_succ, List.zipWith_cons_cons, List.foldl_cons,
        hy y (List.mem_cons_self _ _)]
      exact ih n (fun z hz => hy z (List.mem_cons_of_mem _ hz))

theorem tapOf_mem {α : Type} [Zero α] (xss : List (List α)) (n m f t : Nat)
    (hs : HasShape xss n m)
    (hf : f < n) (ht : t < m) : ∃ row ∈ xss, tapOf xss f t ∈ row := by
  have hf1 : f < xss.length := by rw [hs.1]; exact hf
  have hrow : (xss[f]).length = m := hs.2 _ (List.getElem_mem hf1)
  have ht1 : t < (xss[f]).length := by rw [hrow]; exact ht
  refine ⟨xss[f], List.getElem_mem hf1, ?_⟩
  have e : tapOf xss f t = (xss[f])[t] := by
    simp [tapOf, List.getD, List.getElem?_eq_getElem hf1, List.getElem?_eq_getElem ht1]
  rw [e]
  exact List.getElem_mem ht1

/-- On the all-zero grid, when every convolution, `fc1` and `fc2` weight `x` has
`0 + 0 * x = 0`, every buffer of `forward` before the scores is zero, and each score is the
left-accumulated dot product of 128 zeros with the `fc3` buffer. -/
theorem forwardTable_zeroGrid_any {α : Type} [Zero α] [Add α] [Mul α] [LT α]
    [DecidableRel (fun (a b : α) => a < b)] (w : WeightSet α) (hw : Topology w)
    (h1 : ∀ row ∈ w.conv1, ∀ x ∈ row, (0 : α) + 0 * x = 0)
    (h2 : ∀ row ∈ w.conv2, ∀ x ∈ row, (0 : α) + 0 * x = 0)
    (h3 : ∀ row ∈ w.conv3, ∀ x ∈ row, (0 : α) + 0 * x = 0)
    (h4 : ∀ x ∈ w.fc1, (0 : α) + 0 * x = 0) (h5 : ∀ x ∈ w.fc2, (0 : α) + 0 * x = 0) :
    forwardTable w (zeroGrid α)
      = ⟨List.replicate (32 * 32 * 32) 0, List.replicate (64 * 16 * 16) 0,
          List.replicate (128 * 8 * 8) 0, List.replicate 256 0, List.replicate 128 0,
          List.replicate NUM_CLASSES (dotLeft (List.replicate 128 (0 : α)) w.fc3)⟩ := by
  obtain ⟨s1, s2, s3, _, _, _⟩ := id hw
  unfold forwardTable
  have e1 : convTable 32 32 32 (gridAt (zeroGrid α)) w.conv1
      = List.replicate (32 * 32 * 32) 0 :=
    convTable_zero_any _ _ _ _ _ gridAt_zeroGrid_any (fun f k hf hk => by
      obtain ⟨row, hrow, hx⟩ := tapOf_mem w.conv1 _ _ f k s1 hf (by omega)
      exact h1 row hrow _ hx)
  simp only [e1]
  have e2 : convTable 64 16 16
      (fun r c => (List.replicate (32 * 32 * 32) (0 : α)).getD (r * 32 + c) 0) w.conv2
      = List.replicate (64 * 16 * 16) 0 :=
    convTable_zero_any _ _ _ _ _ (fun r c => getD_replicate_zero_any _ _) (fun f k hf hk => by
      obtain ⟨row, hrow, hx⟩ := tapOf_mem w.conv2 _ _ f k s2 hf (by omega)
      exact h2 row hrow _ hx)
  simp only [e2]
  have e3 : convTable 128 8 8
      (fun r c => (List.replicate (64 * 16 * 16) (0 : α)).getD (r * 16 + c) 0) w.conv3
      = List.replicate (128 * 8 * 8) 0 :=
    convTable_zero_any _ _ _ _ _ (fun r c => getD_replicate_zero_any _ _) (fun f k hf hk => by
      obtain ⟨row, hrow, hx⟩ := tapOf_mem w.conv3 _ _ f k s3 hf (by omega)
      exact h3 row hrow _ hx)
  simp only [e3]
  rw [dotLeft_zero_any _ w.fc1 h4, relu_zero_any, dotLeft_zero_any _ w.fc2 h5, relu_zero_any]

theorem allWeights_initialize_weights {β : Type} (P : β → Prop) (c : β) (h : P c) :
    AllWeights P (initialize_weights c) := by
  have h1 : ∀ (n : Nat) (x : β), x ∈ List.replicate n c → P x := by
    intro n x hx
    rw [List.eq_of_mem_replicate hx]
    exact h
  have h2 : ∀ (n m : Nat) (row : List β), row ∈ List.replicate n (List.replicate m c) →
      ∀ x ∈ row, P x := by
    intro n m row hrow x hx
    rw [List.eq_of_mem_replicate hrow] at hx
    exact h1 _ x hx
  exact ⟨h2 _ _, h2 _ _, h2 _ _, h1 _, h1 _, h1 _⟩

theorem floatVal_zero_add_zero_mul_fin (q : ℚ) :
    (0 : FloatVal) + 0 * FloatVal.fin q = 0 := by
  show FloatVal.add (FloatVal.fin 0) (FloatVal.mul (FloatVal.fin 0) (FloatVal.fin q))
    = FloatVal.fin 0
  simp [FloatVal.add, FloatVal.mul]

theorem floatVal_zero_not_lt_zero : ¬ ((0 : FloatVal) < 0) := by
  show ¬ (FloatVal.ltb (FloatVal.fin 0) (FloatVal.fin 0) = true)
  simp [FloatVal.ltb]

theorem floatVal_nan_add (a : FloatVal) : FloatVal.nan + a = FloatVal.nan := by
  show FloatVal.add FloatVal.nan a = FloatVal.nan
  cases a <;> rfl

theorem floatVal_foldl_nan (ps : List FloatVal) :
    ps.foldl (fun s p => s + p) FloatVal.nan = FloatVal.nan := by
  induction ps with
  | nil => rfl
  | cons p ps ih => rw [List.foldl_cons, floatVal_nan_add, ih]

/-- A left-accumulated dot product of zeros with infinite weights is NaN: the first
product `0 * inf` is NaN, and NaN stays in the sum. -/
theorem dotLeft_zero_pinf (n : Nat) :
    dotLeft (List.replicate (n + 1) (0 : FloatVal)) (List.replicate (n + 1) FloatVal.pinf)
      = FloatVal.nan := by
  unfold dotLeft
  rw [List.replicate_succ, List.replicate_succ, List.zipWith_cons_cons, List.foldl_cons]
  have e : (0 : FloatVal) + 0 * FloatVal.pinf = FloatVal.nan := by
    show FloatVal.add (FloatVal.fin 0) (FloatVal.mul (FloatVal.fin 0) FloatVal.pinf) = _
    simp [FloatVal.add, FloatVal.mul, FloatVal.scaleInf]
  rw [e]
  exact floatVal_foldl_nan _

theorem infWeights_topology : Topology infWeights :=
  ⟨hasShape_replicate _ _ _, hasShape_replicate _ _ _, hasShape_replicate _ _ _,
    List.length_replicate _ _, List.length_replicate _ _, List.length_replicate _ _⟩

/-- C5, as the code has it: for every vector of `NUM_CLASSES` scores none of which is NaN
(scores that `<` and `≤` order: `OrderedOn good`, every score being `good`), the index
chosen by the arg-max step of `predict` holds a score that is at least every score and
strictly above every score at a lower index: it is the lowest index of a maximal score. -/
theorem predict_argmax_lowest_ordered {α : Type} [LT α] [LE α]
    [DecidableRel (fun (a b : α) => a < b)] (good : α → Prop) (scores : List α)
    (h : scores.length = NUM_CLASSES) (hord : OrderedOn good)
    (hgood : ∀ x ∈ scores, good x) :
    max_element scores < NUM_CLASSES ∧
    ∃ best, scores[max_element scores]? = some best ∧
      (∀ (k : Nat) (x : α), scores[k]? = some x → x ≤ best) ∧
      (∀ (k : Nat) (x : α), k < max_element scores → scores[k]? = some x → x < best) := by
  have hne : scores ≠ [] := by
    intro hc
    rw [hc] at h
    simp [NUM_CLASSES] at h
  obtain ⟨best, hb, h1, h2⟩ := max_element_spec good hord scores hne hgood
  refine ⟨?_, best, hb, h1, h2⟩
  rw [← h]
  by_contra hc
  rw [List.getElem?_eq_none (Nat.le_of_not_lt hc)] at hb
  cases hb

theorem predict_argmax_lowest_ordered_witness :
    finiteScores.length = NUM_CLASSES ∧ OrderedOn (fun a : FloatVal => a ≠ FloatVal.nan) ∧
    (∀ x ∈ finiteScores, x ≠ FloatVal.nan) ∧
    (max_element finiteScores < NUM_CLASSES ∧
    ∃ best, finiteScores[max_element finiteScores]? = some best ∧
      (∀ (k : Nat) (x : FloatVal), finiteScores[k]? = some x → x ≤ best) ∧
      (∀ (k : Nat) (x : FloatVal), k < max_element finiteScores →
        finiteScores[k]? = some x → x < best)) :=
  ⟨rfl, orderedOn_floatVal, by simp [finiteScores],
    predict_argmax_lowest_ordered _ finiteScores rfl orderedOn_floatVal
      (by simp [finiteScores])⟩

/-- C5 fails as stated: on the scores `[NaN, 1, 2, 0]` the arg-max step of `predict`
returns index 0, because no comparison with NaN is true, and the score at index 0 is not at
least the score 2 at index 2; on four NaN scores it returns index 0 as well, and that score
is not at least itself. -/
theorem predict_argmax_nan :
    nanScores.length = NUM_CLASSES ∧ max_element nanScores = 0 ∧
    nanScores[0]? = some FloatVal.nan ∧ nanScores[2]? = some (FloatVal.fin 2) ∧
    ¬ (FloatVal.fin 2 ≤ FloatVal.nan) ∧
    (¬ ∃ best, nanScores[max_element nanScores]? = some best ∧
      ∀ (k : Nat) (x : FloatVal), nanScores[k]? = some x → x ≤ best) ∧
    max_element (List.replicate NUM_CLASSES FloatVal.nan) = 0 ∧
    ¬ (FloatVal.nan ≤ FloatVal.nan) := by
  refine ⟨rfl, by decide, rfl, rfl, by decide, ?_, by decide, by decide⟩
  rintro ⟨best, hb, hall⟩
  have h0 : max_element nanScores = 0 := by decide
  rw [h0] at hb
  have hb1 : best = FloatVal.nan := by
    have : nanScores[0]? = some FloatVal.nan := rfl
    rw [this] at hb
    exact (Option.some.inj hb).symm
  have h2 := hall 2 (FloatVal.fin 2) rfl
  rw [hb1] at h2
  exact absurd h2 (by decide)

/-- C6: on every 64 x 64 input and every topology-sized weight set, `forward` returns a
sequence of exactly `NUM_CLASSES` = 4 scores. -/
theorem forward_returns_num_classes {α : Type} [Zero α] [Add α] [Mul α] [LT α]
    [DecidableRel (fun (a b : α) => a < b)] (w : WeightSet α) (input : List (List α))
    (hw : Topology w) (hg : IsGrid input) :
    ∃ out, forward w input = some out ∧ out.length = NUM_CLASSES ∧ NUM_CLASSES = 4 := by
  refine ⟨(forwardTable w input).output, ?_, ?_, rfl⟩
  · rw [forward, forward_trace_eq w input hw hg]; rfl
  · exact List.length_replicate _ _

theorem forward_returns_num_classes_witness :
    Topology (initialize_weights (1 / 100 : ℚ)) ∧ IsGrid (zeroGrid ℚ) ∧
    ∃ out, forward (initialize_weights (1 / 100 : ℚ)) (zeroGrid ℚ) = some out ∧
      out.length = NUM_CLASSES ∧ NUM_CLASSES = 4 :=
  ⟨initialize_weights_topology _, isGrid_zeroGrid,
    forward_returns_num_classes _ _ (initialize_weights_topology _) isGrid_zeroGrid⟩

/-! ## Tables -/

theorem tab_length {β : Type} (N : Nat) (gf : Nat → β) : (tab N gf).length = N := by
  simp [tab]

theorem tab_getElem? {β : Type} (N : Nat) (gf : Nat → β) (p : Nat) (hp : p < N) :
    (tab N gf)[p]? = some (gf p) := by
  simp [tab, List.getElem?_map, List.getElem?_range hp]

theorem tab_congr {β : Type} (N : Nat) (gf gf1 : Nat → β) (h : ∀ p, p < N → gf p = gf1 p) :
    tab N gf = tab N gf1 := by
  unfold tab
  apply List.map_congr_left
  intro p hp
  exact h p (List.mem_range.mp hp)

theorem list_eq_tab {β : Type} (xs : List β) (d : β) :
    xs = tab xs.length (fun i => xs.getD i d) := by
  apply List.ext_getElem?
  intro i
  rcases Nat.lt_or_ge i xs.length with h | h
  · rw [tab_getElem? _ _ _ h]
    simp [List.getD, List.getElem?_eq_getElem h]
  · rw [List.getElem?_eq_none h, List.getElem?_eq_none (by rw [tab_length]; exact h)]

theorem replicate_eq_tab {β : Type} (N : Nat) (c : β) : List.replicate N c = tab N (fun _ => c) := by
  apply List.ext_getElem?
  intro i
  rcases Nat.lt_or_ge i N with h | h
  · rw [tab_getElem? _ _ _ h]
    simp [List.getElem?_replicate, h]
  · rw [List.getElem?_eq_none (by simpa using h),
      List.getElem?_eq_none (by rw [tab_length]; exact h)]

theorem map_tab {β γ : Type} (N : Nat) (gf : Nat → β) (h : β → γ) :
    (tab N gf).map h = tab N (fun p => h (gf p)) := by
  simp [tab, Function.comp_def]

theorem readAt_tab {β : Type} (N : Nat) (gf : Nat → β) (p : Nat) (hp : p < N) :
    readAt (tab N gf) p = some (gf p) := tab_getElem? N gf p hp

theorem set_tab {β : Type} (N : Nat) (gf : Nat → β) (p : Nat) (v : β) :
    (tab N gf).set p v = tab N (Function.update gf p v) := by
  apply List.ext_getElem?
  intro i
  rcases Nat.lt_or_ge i N with h | h
  · rw [tab_getElem? _ _ _ h, List.getElem?_set]
    by_cases hi : p = i
    · subst hi
      simp [tab_length, h]
    · rw [if_neg hi, tab_getElem? _ _ _ h, Function.update_noteq (Ne.symm hi)]
  · rw [List.getElem?_eq_none (by rw [List.length_set, tab_length]; exact h),
      List.getElem?_eq_none (by rw [tab_length]; exact h)]

theorem addAt_tab {β : Type} [Add β] (N : Nat) (gf : Nat → β) (p : Nat) (v : β) (hp : p < N) :
    addAt (tab N gf) p v = some (tab N (Function.update gf p (gf p + v))) := by
  unfold addAt
  rw [readAt_tab N gf p hp, Option.some_bind]
  unfold writeAt
  rw [if_pos (by rw [tab_length]; exact hp), set_tab]

theorem tab2_length {β : Type} (L M : Nat) (wf : Nat → Nat → β) : (tab2 L M wf).length = L := by
  simp [tab2]

theorem tab2_eq_tab {β : Type} (L M : Nat) (wf : Nat → Nat → β) :
    tab2 L M wf = tab L (fun f => tab M (wf f)) := rfl

theorem shape_eq_tab2 {β : Type} [Zero β] (xss : List (List β)) (L M : Nat)
    (hs : HasShape xss L M) : xss = tab2 L M (tapOf xss) := by
  obtain ⟨hlen, hrow⟩ := hs
  rw [tab2_eq_tab]
  apply List.ext_getElem?
  intro f
  rcases Nat.lt_or_ge f L with h | h
  · have hf : f < xss.length := by omega
    rw [tab_getElem? _ _ _ h, List.getElem?_eq_getElem hf]
    congr 1
    have hm : (xss[f]).length = M := hrow _ (List.getElem_mem hf)
    have e := list_eq_tab xss[f] (0 : β)
    rw [hm] at e
    rw [e]
    apply tab_congr
    intro t _
    simp [tapOf, List.getD, List.getElem?_eq_getElem hf]
  · rw [List.getElem?_eq_none (by omega), List.getElem?_eq_none (by rw [tab_length]; exact h)]

theorem tapOf_tab2 {β : Type} [Zero β] (L M : Nat) (wf : Nat → Nat → β) (f t : Nat)
    (hf : f < L) (ht : t < M) : tapOf (tab2 L M wf) f t = wf f t := by
  unfold tapOf
  rw [tab2_eq_tab]
  simp [List.getD, tab_getElem? _ _ _ hf, tab_getElem? _ _ _ ht]

theorem addAt2_tab2 {β : Type} [Add β] (L M : Nat) (wf : Nat → Nat → β) (f t : Nat) (v : β)
    (hf : f < L) (ht : t < M) :
    addAt2 (tab2 L M wf) f t v
      = some (tab2 L M (Function.update wf f (Function.update (wf f) t (wf f t + v)))) := by
  unfold addAt2
  rw [tab2_eq_tab, readAt_tab _ _ _ hf, Option.some_bind, addAt_tab _ _ _ _ ht,
    Option.some_bind]
  unfold writeAt
  rw [if_pos (by rw [tab_length]; exact hf), set_tab, tab2_eq_tab]
  congr 1
  apply tab_congr
  intro g _
  by_cases hg : g = f
  · subst hg; simp
  · simp [Function.update_noteq hg]

/-! ## Backward pass: the fully-connected loop nests -/

theorem fcBack_inner {α : Type} [Add α] [Mul α] (m : Nat) (up : List α) (lr g : α) (i : Nat)
    (hup : readAt up i = some g) (gf wf : Nat → α) :
    forLoop m (fun j st =>
      (readAt up i).bind (fun g =>
        (addAt st.1 j g).bind (fun grad =>
          (addAt st.2 j (lr * g)).bind (fun wts1 => some (grad, wts1))))) (tab m gf, tab m wf)
      = some (tab m (fun p => gf p + g), tab m (fun p => wf p + lr * g)) := by
  obtain ⟨t, ht, hP⟩ := forLoop_inv
    (fun j st => st = (tab m (fun p => if p < j then gf p + g else gf p),
      tab m (fun p => if p < j then wf p + lr * g else wf p))) m
    (fun j st =>
      (readAt up i).bind (fun g =>
        (addAt st.1 j g).bind (fun grad =>
          (addAt st.2 j (lr * g)).bind (fun wts1 => some (grad, wts1))))) (tab m gf, tab m wf)
    (by simp)
    (by
      intro j st hj hst
      subst hst
      refine ⟨_, ?_, rfl⟩
      simp only [hup, Option.some_bind, addAt_tab _ _ _ _ hj]
      congr 2
      · apply tab_congr
        intro p _
        by_cases hpj : p = j
        · subst hpj; simp
        · rw [Function.update_noteq hpj]
          have : (p < j + 1) ↔ (p < j) := by omega
          simp [this]
      · apply tab_congr
        intro p _
        by_cases hpj : p = j
        · subst hpj; simp
        · rw [Function.update_noteq hpj]
          have : (p < j + 1) ↔ (p < j) := by omega
          simp [this])
  rw [ht, hP]
  congr 2
  · exact tab_congr _ _ _ (fun p hp => by simp [hp])
  · exact tab_congr _ _ _ (fun p hp => by simp [hp])

theorem fcBackLoops_tab {α : Type} [CommRing α] (n m : Nat) (up : List α) (upf : Nat → α)
    (lr : α) (wf : Nat → α) (hup : ∀ i, i < n → readAt up i = some (upf i)) :
    fcBackLoops n m up lr (tab m wf)
      = some (tab m (fun _ => psum upf n), tab m (fun p => wf p + lr * psum upf n)) := by
  unfold fcBackLoops
  obtain ⟨t, ht, hP⟩ := forLoop_inv
    (fun i st => st = (tab m (fun _ => psum upf i),
      tab m (fun p => wf p + lr * psum upf i))) n
    (fun i st =>
      forLoop m (fun j st =>
        (readAt up i).bind (fun g =>
          (addAt st.1 j g).bind (fun grad =>
            (addAt st.2 j (lr * g)).bind (fun wts1 => some (grad, wts1))))) st)
    (List.replicate m 0, tab m wf)
    (by
      rw [replicate_eq_tab]
      congr 1
      apply tab_congr
      intro p hp
      simp [psum])
    (by
      intro i st hi hst
      subst hst
      refine ⟨_, fcBack_inner m up lr (upf i) i (hup i hi) _ _, ?_⟩
      congr 1
      apply tab_congr
      intro p _
      simp only [psum]
      ring)
  rw [ht, hP]

/-- In exact arithmetic a fully-connected loop nest of `backward` leaves the sum of the
upstream entries in every `grad` cell and adds `lr` times that sum to every weight. -/
theorem fcBackLoops_eq {α : Type} [CommRing α] (n m : Nat) (up : List α) (upf : Nat → α)
    (lr : α) (wts : List α) (hup : ∀ i, i < n → readAt up i = some (upf i))
    (hw : wts.length = m) :
    fcBackLoops n m up lr wts
      = some (List.replicate m (psum upf n), wts.map (fun x => x + lr * psum upf n)) := by
  obtain ⟨wf, rfl⟩ : ∃ wf, wts = tab m wf := ⟨_, by
    have := list_eq_tab wts (0 : α)
    rwa [hw] at this⟩
  rw [fcBackLoops_tab n m up upf lr wf hup, replicate_eq_tab, map_tab]

theorem output_grad_eq {α : Type} [CommRing α] (output : List α) (label : Nat) (o : α)
    (ho : output[label]? = some o) (hl : label < NUM_CLASSES) :
    output_grad output label
      = some (tab NUM_CLASSES (fun i => if i = label then 1 - o else 0)) := by
  unfold output_grad readAt writeAt
  rw [ho, Option.some_bind, if_pos (by simpa using hl), replicate_eq_tab, set_tab]
  congr 1
  apply tab_congr
  intro p _
  by_cases hp : p = label
  · subst hp; simp
  · simp [Function.update_noteq hp, hp]

theorem psum_output_grad {α : Type} [CommRing α] (label : Nat) (g : α)
    (hl : label < NUM_CLASSES) :
    psum (fun i => if i = label then g else 0) NUM_CLASSES = g := by
  unfold NUM_CLASSES at *
  interval_cases label <;> simp [psum]

theorem psum_const {α : Type} [CommRing α] (g : α) (n : Nat) :
    psum (fun _ => g) n = (n : α) * g := by
  induction n with
  | zero => simp [psum]
  | succ k ih => simp only [psum, ih]; push_cast; ring

/-- The `fc3` loop nest of `backward` in exact arithmetic. -/
theorem backward_fc3_eq {α : Type} [CommRing α] (w : WeightSet α) (output : List α)
    (label : Nat) (lr o : α) (hw : w.fc3.length = 128) (ho : output[label]? = some o)
    (hl : label < NUM_CLASSES) :
    backward_fc3 w output label lr
      = some (List.replicate 128 (1 - o),
          { w with fc3 := w.fc3.map (fun x => x + lr * (1 - o)) }) := by
  unfold backward_fc3
  rw [output_grad_eq output label o ho hl, Option.some_bind]
  rw [fcBackLoops_eq NUM_CLASSES 128 _ (fun i => if i = label then 1 - o else 0) lr w.fc3
    (fun i hi => readAt_tab _ _ _ hi) hw]
  rw [psum_output_grad label (1 - o) hl]
  rfl

/-- The `fc2` loop nest of `backward` in exact arithmetic, on a constant `fc3_grad`. -/
theorem backward_fc2_eq {α : Type} [CommRing α] (w : WeightSet α) (lr g : α)
    (hw : w.fc2.length = 256) :
    backward_fc2 (List.replicate 128 g) lr w
      = some (List.replicate 256 (128 * g),
          { w with fc2 := w.fc2.map (fun x => x + lr * (128 * g)) }) := by
  unfold backward_fc2
  rw [fcBackLoops_eq 128 256 _ (fun _ => g) lr w.fc2
    (fun i hi => by rw [replicate_eq_tab]; exact readAt_tab _ _ _ hi) hw]
  rw [psum_const, Option.map_some']
  simp only [Nat.cast_ofNat]

/-! ## Backward pass: the convolution loop nests -/

theorem tab2_congr {β : Type} (L M : Nat) (wf wf1 : Nat → Nat → β)
    (h : ∀ f t, f < L → t < M → wf f t = wf1 f t) : tab2 L M wf = tab2 L M wf1 := by
  rw [tab2_eq_tab, tab2_eq_tab]
  apply tab_congr
  intro f hf
  apply tab_congr
  intro t ht
  exact h f t hf ht

theorem convBackStep_tab {α : Type} [Add α] [Mul α] (N L M : Nat) (up : List α) (lr u : α)
    (p f t : Nat) (gf : Nat → α) (wf : Nat → Nat → α) (hp : p < N) (hf : f < L) (ht : t < M)
    (hup : readAt up p = some u) :
    convBackStep up lr p f t (tab N gf, tab2 L M wf)
      = some (tab N (Function.update gf p (gf p + u)),
          tab2 L M (Function.update wf f
            (Function.update (wf f) t (wf f t + lr * (gf p + u))))) := by
  unfold convBackStep
  simp only [hup, Option.some_bind, addAt_tab _ _ _ _ hp, readAt_tab _ _ _ hp,
    Function.update_same, addAt2_tab2 _ _ _ _ _ _ hf ht]

/-- The nine innermost iterations at one position `p` whose `grad` cell is still zero:
the cell ends at `9 * u`, and tap `t` of filter `f` gains `lr * ((t + 1) * u)`. -/
theorem convBack_position {α : Type} [CommRing α] (N L M : Nat) (up : List α) (lr u : α)
    (p f : Nat) (gf : Nat → α) (wf : Nat → Nat → α) (hp : p < N) (hf : f < L) (hM : 9 ≤ M)
    (hup : readAt up p = some u) (hz : gf p = 0) :
    forLoop 3 (fun ki st =>
      forLoop 3 (fun kj st => convBackStep up lr p f (ki * 3 + kj) st) st)
        (tab N gf, tab2 L M wf)
      = some (tab N (Function.update gf p (9 * u)),
          tab2 L M (fun f1 t1 =>
            if f1 = f ∧ t1 < 9 then wf f1 t1 + lr * (((t1 : α) + 1) * u) else wf f1 t1)) := by
  rw [← forLoop_mul 3 3 (fun t st => convBackStep up lr p f t st)]
  obtain ⟨s, hs, hP⟩ := forLoop_inv
    (fun t st => st = (tab N (Function.update gf p ((t : α) * u)),
      tab2 L M (fun f1 t1 =>
        if f1 = f ∧ t1 < t then wf f1 t1 + lr * (((t1 : α) + 1) * u) else wf f1 t1)))
    (3 * 3) (fun t st => convBackStep up lr p f t st) (tab N gf, tab2 L M wf)
    (by
      congr 1
      · apply tab_congr
        intro q _
        by_cases hq : q = p
        · subst hq; simp [hz]
        · simp [Function.update_noteq hq]
      · apply tab2_congr
        intro f1 t1 _ _
        simp)
    (by
      intro t st ht hst
      subst hst
      refine ⟨_, convBackStep_tab N L M up lr u p f t _ _ hp hf (by omega) hup, ?_⟩
      congr 1
      · apply tab_congr
        intro q _
        by_cases hq : q = p
        · subst hq; simp; ring
        · simp [Function.update_noteq hq]
      · apply tab2_congr
        intro f1 t1 _ _
        by_cases hf1 : f1 = f
        · subst hf1
          by_cases ht1 : t1 = t
          · subst ht1; simp; ring
          · have e : (t1 < t + 1) ↔ (t1 < t) := by omega
            simp [Function.update_noteq ht1, e]
        · simp [Function.update_noteq hf1, hf1])
  rw [hs, hP]
  congr 2

theorem convBackFilter_flat {α : Type} [Zero α] [Add α] [Mul α] (H W : Nat) (up : List α)
    (lr : α) (f : Nat) (st : List α × List (List α)) :
    convBackFilter H W up lr f st
      = forLoop (H * W) (fun q st =>
          forLoop 3 (fun ki st =>
            forLoop 3 (fun kj st =>
              convBackStep up lr (f * H * W + q) f (ki * 3 + kj) st) st) st) st := by
  unfold convBackFilter
  rw [forLoop_mul]
  simp only [Nat.add_assoc]

/-- One filter iteration of a convolution loop nest of `backward` in exact arithmetic, when
the upstream gradient is the constant `u` on the filter's `H * W` cells and `grad` is still
zero there: the cells end at `9 * u` and tap `t < 9` of the filter gains
`(H * W) * (lr * ((t + 1) * u))`; taps from 9 on and the other filters keep their values. -/
theorem convBackFilter_eq {α : Type} [CommRing α] (H W N L M : Nat) (up : List α) (lr u : α)
    (f : Nat) (gf : Nat → α) (wf : Nat → Nat → α)
    (hN : f * H * W + H * W ≤ N) (hf : f < L) (hM : 9 ≤ M)
    (hup : ∀ q, q < H * W → readAt up (f * H * W + q) = some u)
    (hz : ∀ q, q < H * W → gf (f * H * W + q) = 0) :
    convBackFilter H W up lr f (tab N gf, tab2 L M wf)
      = some (tab N (fun p => if f * H * W ≤ p ∧ p < f * H * W + H * W then 9 * u else gf p),
          tab2 L M (fun f1 t1 =>
            if f1 = f ∧ t1 < 9 then wf f1 t1 + ((H * W : Nat) : α) * (lr * (((t1 : α) + 1) * u))
            else wf f1 t1)) := by
  rw [convBackFilter_flat]
  generalize hB : f * H * W = B at hN hup hz ⊢
  generalize hA : H * W = A at hN hup hz ⊢
  obtain ⟨s, hs, hP⟩ := forLoop_inv
    (fun q st => st = (tab N (fun p => if B ≤ p ∧ p < B + q then 9 * u else gf p),
      tab2 L M (fun f1 t1 =>
        if f1 = f ∧ t1 < 9 then wf f1 t1 + (q : α) * (lr * (((t1 : α) + 1) * u))
        else wf f1 t1)))
    A (fun q st =>
          forLoop 3 (fun ki st =>
            forLoop 3 (fun kj st =>
              convBackStep up lr (B + q) f (ki * 3 + kj) st) st) st) (tab N gf, tab2 L M wf)
    (by
      congr 1
      · apply tab_congr
        intro p _
        have : ¬ (B ≤ p ∧ p < B) := by omega
        simp only [Nat.add_zero]
        rw [if_neg this]
      · apply tab2_congr
        intro f1 t1 _ _
        simp)
    (by
      intro q st hq hst
      subst hst
      refine ⟨_, convBack_position N L M up lr u (B + q) f _ _ (by omega) hf hM (hup q hq)
        (by
          have : ¬ (B ≤ B + q ∧ B + q < B + q) := by omega
          simp only [this, if_false]
          exact hz q hq), ?_⟩
      congr 1
      · apply tab_congr
        intro p _
        by_cases hp : p = B + q
        · subst hp
          have : (B ≤ B + q ∧ B + q < B + (q + 1)) := by omega
          simp [this]
        · rw [Function.update_noteq hp]
          have e : (B ≤ p ∧ p < B + (q + 1)) ↔ (B ≤ p ∧ p < B + q) := by omega
          simp only [e]
      · apply tab2_congr
        intro f1 t1 _ _
        by_cases hc : f1 = f ∧ t1 < 9
        · simp only [hc, and_self, if_true]
          push_cast
          ring
        · simp only [hc, if_false])
  rw [hs, hP]

/-- The first `k` filter iterations of a convolution loop nest of `backward` in exact
arithmetic, when the upstream gradient is the constant `u` on the cells of those filters. -/
theorem convBackLoops_eq {α : Type} [CommRing α] (k F H W M : Nat) (up : List α) (lr u : α)
    (wts : List (List α)) (hk : k ≤ F) (hM : 9 ≤ M) (hs : HasShape wts F M)
    (hup : ∀ p, p < k * (H * W) → readAt up p = some u) :
    convBackLoops k F H W up lr wts
      = some (tab (F * H * W) (fun p => if p < k * (H * W) then 9 * u else 0),
          tab2 F M (fun f t =>
            if f < k ∧ t < 9
            then tapOf wts f t + ((H * W : Nat) : α) * (lr * (((t : α) + 1) * u))
            else tapOf wts f t)) := by
  unfold convBackLoops
  have hwts := shape_eq_tab2 wts F M hs
  obtain ⟨s, hs1, hP⟩ := forLoop_inv
    (fun f st => st = (tab (F * H * W) (fun p => if p < f * (H * W) then 9 * u else 0),
      tab2 F M (fun f1 t =>
        if f1 < f ∧ t < 9
        then tapOf wts f1 t + ((H * W : Nat) : α) * (lr * (((t : α) + 1) * u))
        else tapOf wts f1 t)))
    k (convBackFilter H W up lr) (List.replicate (F * H * W) 0, wts)
    (by
      rw [replicate_eq_tab]
      refine Prod.ext ?_ ?_
      · apply tab_congr
        intro p _
        simp
      · refine hwts.trans ?_
        apply tab2_congr
        intro f t hf ht
        simp)
    (by
      intro f st hf hst
      subst hst
      have e1 : f * H * W = f * (H * W) := Nat.mul_assoc _ _ _
      have e2 : (f + 1) * (H * W) = f * (H * W) + H * W := by ring
      have e3 : (f + 1) * (H * W) ≤ k * (H * W) := Nat.mul_le_mul_right _ hf
      have e4 : k * (H * W) ≤ F * (H * W) := Nat.mul_le_mul_right _ hk
      have e5 : F * H * W = F * (H * W) := Nat.mul_assoc _ _ _
      refine ⟨_, convBackFilter_eq H W (F * H * W) F M up lr u f _ _ (by omega) (by omega) hM
        (by
          intro q hq
          apply hup
          omega)
        (by
          intro q hq
          have : ¬ (f * H * W + q < f * (H * W)) := by omega
          simp only [this, if_false]), ?_⟩
      congr 1
      · apply tab_congr
        intro p _
        by_cases h1 : p < f * (H * W)
        · have h2 : ¬ (f * H * W ≤ p ∧ p < f * H * W + H * W) := by omega
          have h3 : p < (f + 1) * (H * W) := by omega
          simp only [h1, h2, h3, if_true, if_false]
        · by_cases h2 : p < (f + 1) * (H * W)
          · have h3 : (f * H * W ≤ p ∧ p < f * H * W + H * W) := by omega
            simp only [h2, h3, and_self, if_true]
          · have h3 : ¬ (f * H * W ≤ p ∧ p < f * H * W + H * W) := by omega
            simp only [h1, h2, h3, if_false]
      · apply tab2_congr
        intro f1 t _ _
        by_cases h9 : t < 9
        · by_cases h1 : f1 = f
          · subst h1
            have h2 : ¬ (f1 < f1) := by omega
            have h3 : f1 < f1 + 1 := by omega
            simp only [h9, h2, h3, and_true, and_self, if_true, false_and, if_false, true_and]
          · by_cases h2 : f1 < f
            · have h3 : f1 < f + 1 := by omega
              simp only [h9, h1, h2, h3, and_true, and_self, if_true, false_and, if_false]
            · have h3 : ¬ (f1 < f + 1) := by omega
              simp only [h9, h1, h2, h3, and_true, and_self, if_true, false_and, if_false]
        · simp only [h9, and_false, if_false])
  rw [hs1, hP]

/-! ## Backward pass: the part before the first out-of-range read -/

/-- The state of `backward` after its `fc3` and `fc2` loop nests and the first four filter
iterations of its `conv3` loop nest, in exact arithmetic. -/
theorem backward_in_range_eq {α : Type} [CommRing α] (w : WeightSet α) (output : List α)
    (label : Nat) (lr o : α) (hw : Topology w) (ho : output[label]? = some o)
    (hl : label < NUM_CLASSES) :
    backward_in_range w output label lr
      = some (tab (128 * 8 * 8) (fun p => if p < 4 * (8 * 8) then 9 * (128 * (1 - o)) else 0),
          { w with
            fc3 := w.fc3.map (fun x => x + lr * (1 - o))
            fc2 := w.fc2.map (fun x => x + lr * (128 * (1 - o)))
            conv3 := tab2 128 (64 * 3 * 3) (fun f t =>
              if f < 4 ∧ t < 9
              then tapOf w.conv3 f t
                + ((8 * 8 : Nat) : α) * (lr * (((t : α) + 1) * (128 * (1 - o))))
              else tapOf w.conv3 f t) }) := by
  obtain ⟨_, _, h3, _, h5, h6⟩ := hw
  unfold backward_in_range
  rw [backward_fc3_eq w output label lr o h6 ho hl, Option.some_bind]
  dsimp only
  rw [backward_fc2_eq { w with fc3 := w.fc3.map (fun x => x + lr * (1 - o)) } lr (1 - o) h5,
    Option.some_bind]
  dsimp only
  unfold backward_conv3
  rw [convBackLoops_eq 4 128 8 8 (64 * 3 * 3) _ lr (128 * (1 - o)) w.conv3 (by omega) (by omega)
    h3 (fun p hp => by rw [replicate_eq_tab]; exact readAt_tab _ _ _ (by omega))]
  rw [Option.map_some']

theorem backward_fc3_fc1 {α : Type} [Zero α] [One α] [Add α] [Sub α] [Mul α]
    (w : WeightSet α) (output : List α) (label : Nat) (lr : α) (s : List α × WeightSet α)
    (h : backward_fc3 w output label lr = some s) : s.2.fc1 = w.fc1 := by
  unfold backward_fc3 at h
  simp only [Option.bind_eq_some, Option.map_eq_some'] at h
  obtain ⟨_, _, r, _, rfl⟩ := h
  rfl

theorem backward_fc2_fc1 {α : Type} [Zero α] [Add α] [Mul α]
    (g : List α) (lr : α) (w : WeightSet α) (s : List α × WeightSet α)
    (h : backward_fc2 g lr w = some s) : s.2.fc1 = w.fc1 := by
  unfold backward_fc2 at h
  simp only [Option.map_eq_some'] at h
  obtain ⟨r, _, rfl⟩ := h
  rfl

theorem backward_conv3_fc1 {α : Type} [Zero α] [Add α] [Mul α]
    (k : Nat) (g : List α) (lr : α) (w : WeightSet α) (s : List α × WeightSet α)
    (h : backward_conv3 k g lr w = some s) : s.2.fc1 = w.fc1 := by
  unfold backward_conv3 at h
  simp only [Option.map_eq_some'] at h
  obtain ⟨r, _, rfl⟩ := h
  rfl

theorem backward_conv2_fc1 {α : Type} [Zero α] [Add α] [Mul α]
    (k : Nat) (g : List α) (lr : α) (w : WeightSet α) (s : List α × WeightSet α)
    (h : backward_conv2 k g lr w = some s) : s.2.fc1 = w.fc1 := by
  unfold backward_conv2 at h
  simp only [Option.map_eq_some'] at h
  obtain ⟨r, _, rfl⟩ := h
  rfl

theorem backward_conv1_fc1 {α : Type} [Zero α] [Add α] [Mul α]
    (k : Nat) (g : List α) (lr : α) (w : WeightSet α) (s : List α × WeightSet α)
    (h : backward_conv1 k g lr w = some s) : s.2.fc1 = w.fc1 := by
  unfold backward_conv1 at h
  simp only [Option.map_eq_some'] at h
  obtain ⟨r, _, rfl⟩ := h
  rfl

/-- No loop nest of `backward` writes `fc1_weights`: a call that returns leaves `fc1` as
it was. -/
theorem backward_fc1 {α : Type} [Zero α] [One α] [Add α] [Sub α] [Mul α]
    (w : WeightSet α) (input : List (List α)) (output : List α) (label : Nat) (lr : α)
    (w1 : WeightSet α) (h : backward w input output label lr = some w1) : w1.fc1 = w.fc1 := by
  unfold backward at h
  simp only [Option.bind_eq_some, Option.map_eq_some'] at h
  obtain ⟨s3, h3, s2, h2, c3, hc3, c2, hc2, c1, hc1, rfl⟩ := h
  rw [backward_conv1_fc1 _ _ _ _ _ hc1, backward_conv2_fc1 _ _ _ _ _ hc2,
    backward_conv3_fc1 _ _ _ _ _ hc3, backward_fc2_fc1 _ _ _ _ h2,
    backward_fc3_fc1 _ _ _ _ _ h3]

/-! ## Backward pass: the first out-of-range read -/

theorem forLoop_first_none {σ : Type} (n : Nat) (body : Nat → σ → Option σ) (s : σ)
    (hn : 0 < n) (h : body 0 s = none) : forLoop n body s = none := by
  obtain ⟨k, rfl⟩ : ∃ k, n = k + 1 := ⟨n - 1, by omega⟩
  show (match body 0 s with
    | none => none
    | some s1 => forLoopFrom body k (0 + 1) s1) = none
  rw [h]

/-- The filter iteration `f = 4` of the `conv3` loop nest fails at its first step: it reads
`fc2_grad[4 * 8 * 8]`, index 256 of a vector of 256 entries. -/
theorem convBackFilter_out_of_range {α : Type} [Zero α] [Add α] [Mul α] (up : List α) (lr : α)
    (st : List α × List (List α)) (hup : up.length = 256) :
    convBackFilter 8 8 up lr 4 st = none := by
  unfold convBackFilter
  apply forLoop_first_none _ _ _ (by norm_num)
  apply forLoop_first_none _ _ _ (by norm_num)
  apply forLoop_first_none _ _ _ (by norm_num)
  apply forLoop_first_none _ _ _ (by norm_num)
  unfold convBackStep readAt
  rw [List.getElem?_eq_none (by rw [hup])]
  rfl

/-- In exact arithmetic `backward` on topology-sized weights reaches the filter iteration
`f = 4` of its `conv3` loop nest and fails there: the embedded call returns `none`. -/
theorem backward_out_of_range {α : Type} [CommRing α] (w : WeightSet α)
    (input : List (List α)) (output : List α) (label : Nat) (lr o : α) (hw : Topology w)
    (ho : output[label]? = some o) (hl : label < NUM_CLASSES) :
    backward w input output label lr = none := by
  obtain ⟨_, _, h3, _, h5, h6⟩ := id hw
  unfold backward
  rw [backward_fc3_eq w output label lr o h6 ho hl, Option.some_bind]
  dsimp only
  rw [backward_fc2_eq { w with fc3 := w.fc3.map (fun x => x + lr * (1 - o)) } lr (1 - o) h5,
    Option.some_bind]
  dsimp only
  have hc : convBackLoops 128 128 8 8 (List.replicate 256 (128 * (1 - o))) lr w.conv3
      = none := by
    unfold convBackLoops
    rw [show (128 : Nat) = 4 + 1 + 123 from rfl, forLoop_add, forLoop_succ]
    have h4 := convBackLoops_eq 4 128 8 8 (64 * 3 * 3) (List.replicate 256 (128 * (1 - o))) lr
      (128 * (1 - o)) w.conv3 (by omega) (by omega) h3
      (fun p hp => by rw [replicate_eq_tab]; exact readAt_tab _ _ _ (by omega))
    unfold convBackLoops at h4
    rw [show (4 + 1 + 123) * 8 * 8 = 128 * 8 * 8 from rfl, h4, Option.some_bind,
      convBackFilter_out_of_range _ _ _ (List.length_replicate _ _)]
    rfl
  unfold backward_conv3
  rw [hc]
  rfl

/-! ## Claims about `backward` -/

theorem getD_map_lt {β : Type} [Zero β] (xs : List β) (h : β → β) (j : Nat)
    (hj : j < xs.length) : (xs.map h).getD j 0 = h (xs.getD j 0) := by
  simp [List.getD, List.getElem?_map, List.getElem?_eq_getElem hj]

theorem getElem?_getD_of_lt {β : Type} [Zero β] (xs : List β) (j : Nat) (hj : j < xs.length) :
    xs[j]? = some (xs.getD j 0) := by
  simp [List.getD, List.getElem?_eq_getElem hj]

theorem tapOf_replicate {β : Type} [Zero β] (n m f t : Nat) (c : β) (hf : f < n) (ht : t < m) :
    tapOf (List.replicate n (List.replicate m c)) f t = c := by
  simp [tapOf, List.getD, List.getElem?_replicate, hf, ht]

/-- The `fc3` loop nest of `backward` in exact arithmetic: for every output vector of 4
scores, every label in [0, 4) and every learning rate, it leaves each of the 128 fc3 weights
at its value before plus `lr * (1 - output[label])`, and the code that follows it up to the
end of the in-range part of `backward` does not touch `fc3` again. -/
theorem backward_fc3_broadcast {α : Type} [Field α] (w : WeightSet α) (output : List α)
    (label : Nat) (lr : α) (hw : Topology w) (ho : output.length = NUM_CLASSES)
    (hl : label < NUM_CLASSES) :
    ∃ grad w1, backward_fc3 w output label lr = some (grad, w1) ∧
      w1.fc3.length = 128 ∧
      (∀ j, j < 128 → w1.fc3.getD j 0 = w.fc3.getD j 0 + lr * (1 - output.getD label 0)) ∧
      ∃ g3 w3, backward_in_range w output label lr = some (g3, w3) ∧ w3.fc3 = w1.fc3 := by
  have ho1 : output[label]? = some (output.getD label 0) :=
    getElem?_getD_of_lt output label (by omega)
  have h6 : w.fc3.length = 128 := hw.2.2.2.2.2
  refine ⟨_, _, backward_fc3_eq w output label lr _ h6 ho1 hl, ?_, ?_,
    _, _, backward_in_range_eq w output label lr _ hw ho1 hl, rfl⟩
  · simp [h6]
  · intro j hj
    exact getD_map_lt w.fc3 _ j (by omega)

theorem backward_fc3_broadcast_witness :
    Topology scenarioWeights ∧ scenarioOutput.length = NUM_CLASSES ∧ 3 < NUM_CLASSES ∧
    ∃ grad w1, backward_fc3 scenarioWeights scenarioOutput 3 (1 / 100) = some (grad, w1) ∧
      w1.fc3.length = 128 ∧
      (∀ j, j < 128 → w1.fc3.getD j 0
        = scenarioWeights.fc3.getD j 0 + 1 / 100 * (1 - scenarioOutput.getD 3 0)) ∧
      ∃ g3 w3, backward_in_range scenarioWeights scenarioOutput 3 (1 / 100) = some (g3, w3) ∧
        w3.fc3 = w1.fc3 :=
  ⟨initialize_weights_topology _, rfl, by decide,
    backward_fc3_broadcast scenarioWeights scenarioOutput 3 (1 / 100)
      (initialize_weights_topology _) rfl (by decide)⟩

/-- The increment of the training-step scenario: `0.01 * (1 - 0.4) = 0.006`. -/
theorem scenario_increment : (1 / 100 : ℚ) * (1 - scenarioOutput.getD 3 0) = 3 / 500 := by
  simp [scenarioOutput, List.getD]
  norm_num

/-- C8, as the code has it: in exact arithmetic, for every topology-sized weight set, every
output of 4 scores, every label in [0, 4) and every learning rate with
`lr * (1 - output[label]) ≠ 0`, the part of `backward` that runs before its first
out-of-range read changes every weight of `fc3` and of `fc2` and taps 0..8 of the `conv3`
filters 0..3, and it leaves `fc1` as it was; none of the five loop nests of `backward`
writes `fc1`. -/
theorem backward_changes_fc_and_conv3 {α : Type} [LinearOrderedField α] (w : WeightSet α)
    (output : List α) (label : Nat) (lr : α) (hw : Topology w)
    (ho : output.length = NUM_CLASSES) (hl : label < NUM_CLASSES)
    (hne : lr * (1 - output.getD label 0) ≠ 0) :
    (∃ g3 w3, backward_in_range w output label lr = some (g3, w3) ∧
      (∀ j, j < 128 → w3.fc3.getD j 0 ≠ w.fc3.getD j 0) ∧
      (∀ j, j < 256 → w3.fc2.getD j 0 ≠ w.fc2.getD j 0) ∧
      (∀ f t, f < 4 → t < 9 → tapOf w3.conv3 f t ≠ tapOf w.conv3 f t) ∧
      w3.fc1 = w.fc1) ∧
    (∀ (v : WeightSet α) (out : List α) (l : Nat) (s : List α × WeightSet α),
      backward_fc3 v out l lr = some s → s.2.fc1 = v.fc1) ∧
    (∀ (v : WeightSet α) (g : List α) (s : List α × WeightSet α),
      backward_fc2 g lr v = some s → s.2.fc1 = v.fc1) ∧
    (∀ (v : WeightSet α) (k : Nat) (g : List α) (s : List α × WeightSet α),
      backward_conv3 k g lr v = some s → s.2.fc1 = v.fc1) ∧
    (∀ (v : WeightSet α) (k : Nat) (g : List α) (s : List α × WeightSet α),
      backward_conv2 k g lr v = some s → s.2.fc1 = v.fc1) ∧
    (∀ (v : WeightSet α) (k : Nat) (g : List α) (s : List α × WeightSet α),
      backward_conv1 k g lr v = some s → s.2.fc1 = v.fc1) := by
  have ho1 : output[label]? = some (output.getD label 0) :=
    getElem?_getD_of_lt output label (by omega)
  obtain ⟨_, _, _, _, h5, h6⟩ := id hw
  refine ⟨⟨_, _, backward_in_range_eq w output label lr _ hw ho1 hl, ?_, ?_, ?_, rfl⟩,
    fun v out l s h => backward_fc3_fc1 v out l lr s h,
    fun v g s h => backward_fc2_fc1 g lr v s h,
    fun v k g s h => backward_conv3_fc1 k g lr v s h,
    fun v k g s h => backward_conv2_fc1 k g lr v s h,
    fun v k g s h => backward_conv1_fc1 k g lr v s h⟩
  · intro j hj
    show (w.fc3.map _).getD j 0 ≠ _
    rw [getD_map_lt w.fc3 _ j (by omega)]
    intro hc
    exact hne (by linear_combination hc)
  · intro j hj
    show (w.fc2.map _).getD j 0 ≠ _
    rw [getD_map_lt w.fc2 _ j (by omega)]
    intro hc
    apply hne
    have h128 : (128 : α) ≠ 0 := by norm_num
    apply mul_left_cancel₀ h128
    linear_combination hc
  · intro f t hf ht
    show tapOf (tab2 _ _ _) f t ≠ _
    rw [tapOf_tab2 _ _ _ f t (by omega) (by omega), if_pos ⟨hf, ht⟩]
    intro hc
    have ht1 : ((t : α) + 1) ≠ 0 := Nat.cast_add_one_ne_zero t
    have h64 : (((8 * 8 : Nat) : α) * 128) ≠ 0 := by norm_num
    have e : (((8 * 8 : Nat) : α) * 128) * (((t : α) + 1) * (lr * (1 - output.getD label 0)))
        = 0 := by
      linear_combination hc
    rcases mul_eq_zero.mp e with h | h
    · exact h64 h
    · rcases mul_eq_zero.mp h with h | h
      · exact ht1 h
      · exact hne h

theorem backward_changes_fc_and_conv3_witness :
    Topology scenarioWeights ∧ scenarioOutput.length = NUM_CLASSES ∧ 3 < NUM_CLASSES ∧
    (1 / 100 : ℚ) * (1 - scenarioOutput.getD 3 0) ≠ 0 ∧
    ((∃ g3 w3, backward_in_range scenarioWeights scenarioOutput 3 (1 / 100) = some (g3, w3) ∧
      (∀ j, j < 128 → w3.fc3.getD j 0 ≠ scenarioWeights.fc3.getD j 0) ∧
      (∀ j, j < 256 → w3.fc2.getD j 0 ≠ scenarioWeights.fc2.getD j 0) ∧
      (∀ f t, f < 4 → t < 9 → tapOf w3.conv3 f t ≠ tapOf scenarioWeights.conv3 f t) ∧
      w3.fc1 = scenarioWeights.fc1) ∧
    (∀ (v : WeightSet ℚ) (out : List ℚ) (l : Nat) (s : List ℚ × WeightSet ℚ),
      backward_fc3 v out l (1 / 100) = some s → s.2.fc1 = v.fc1) ∧
    (∀ (v : WeightSet ℚ) (g : List ℚ) (s : List ℚ × WeightSet ℚ),
      backward_fc2 g (1 / 100) v = some s → s.2.fc1 = v.fc1) ∧
    (∀ (v : WeightSet ℚ) (k : Nat) (g : List ℚ) (s : List ℚ × WeightSet ℚ),
      backward_conv3 k g (1 / 100) v = some s → s.2.fc1 = v.fc1) ∧
    (∀ (v : WeightSet ℚ) (k : Nat) (g : List ℚ) (s : List ℚ × WeightSet ℚ),
      backward_conv2 k g (1 / 100) v = some s → s.2.fc1 = v.fc1) ∧
    (∀ (v : WeightSet ℚ) (k : Nat) (g : List ℚ) (s : List ℚ × WeightSet ℚ),
      backward_conv1 k g (1 / 100) v = some s → s.2.fc1 = v.fc1)) :=
  ⟨initialize_weights_topology _, rfl, by decide, by rw [scenario_increment]; norm_num,
    backward_changes_fc_and_conv3 scenarioWeights scenarioOutput 3 (1 / 100)
      (initialize_weights_topology _) rfl (by decide) (by rw [scenario_increment]; norm_num)⟩

/-- C8 as stated fails: on the freshly initialised weights, output `[0.1, 0.2, 0.3, 0.4]`,
label 3 and learning rate 0.01 (so `lr * (1 - output[label]) = 0.006 ≠ 0`), `fc1` still has
its initial value after the `fc3`, `fc2` and first `conv3` loops, and no run of `backward`
returns weights in which all six buffers differ from before, because `fc1` is never
written. -/
theorem backward_leaves_fc1 :
    Topology scenarioWeights ∧ scenarioOutput.length = NUM_CLASSES ∧ 3 < NUM_CLASSES ∧
    (1 / 100 : ℚ) * (1 - scenarioOutput.getD 3 0) ≠ 0 ∧
    (∃ g3 w3, backward_in_range scenarioWeights scenarioOutput 3 (1 / 100) = some (g3, w3) ∧
      w3.fc1 = scenarioWeights.fc1) ∧
    ¬ ∃ w1, backward scenarioWeights (zeroGrid ℚ) scenarioOutput 3 (1 / 100) = some w1 ∧
      w1.conv1 ≠ scenarioWeights.conv1 ∧ w1.conv2 ≠ scenarioWeights.conv2 ∧
      w1.conv3 ≠ scenarioWeights.conv3 ∧ w1.fc1 ≠ scenarioWeights.fc1 ∧
      w1.fc2 ≠ scenarioWeights.fc2 ∧ w1.fc3 ≠ scenarioWeights.fc3 := by
  refine ⟨initialize_weights_topology _, rfl, by decide,
    by rw [scenario_increment]; norm_num,
    ⟨_, _, backward_in_range_eq scenarioWeights scenarioOutput 3 (1 / 100) (2 / 5)
      (initialize_weights_topology _) rfl (by decide), rfl⟩, ?_⟩
  rintro ⟨w1, h, _, _, _, hfc1, _, _⟩
  exact hfc1 (backward_fc1 _ _ _ _ _ w1 h)

/-- C9, as the code has it: in exact arithmetic, in the part of `backward` that runs before
its first out-of-range read, every `fc3` weight receives the increment
`lr * (1 - output[label])` and every `fc2` weight the increment
`128 * (lr * (1 - output[label]))`; in the `conv3` filters 0..3, tap `t` of 0..8 receives
`8192 * (t + 1) * (lr * (1 - output[label]))`, so that tap 8 receives nine times the
increment of tap 0, and the taps 9..575 receive no increment. -/
theorem backward_increments {α : Type} [Field α] (w : WeightSet α) (output : List α)
    (label : Nat) (lr : α) (hw : Topology w) (ho : output.length = NUM_CLASSES)
    (hl : label < NUM_CLASSES) :
    ∃ g3 w3, backward_in_range w output label lr = some (g3, w3) ∧
      (∀ j, j < 128 → w3.fc3.getD j 0 - w.fc3.getD j 0 = lr * (1 - output.getD label 0)) ∧
      (∀ j, j < 256 →
        w3.fc2.getD j 0 - w.fc2.getD j 0 = 128 * (lr * (1 - output.getD label 0))) ∧
      (∀ f t, f < 4 → t < 9 → tapOf w3.conv3 f t - tapOf w.conv3 f t
        = 8192 * ((t : α) + 1) * (lr * (1 - output.getD label 0))) ∧
      (∀ f, f < 4 → tapOf w3.conv3 f 8 - tapOf w.conv3 f 8
        = 9 * (tapOf w3.conv3 f 0 - tapOf w.conv3 f 0)) ∧
      (∀ f t, f < 4 → 9 ≤ t → t < 576 → tapOf w3.conv3 f t - tapOf w.conv3 f t = 0) := by
  have ho1 : output[label]? = some (output.getD label 0) :=
    getElem?_getD_of_lt output label (by omega)
  obtain ⟨_, _, _, _, h5, h6⟩ := id hw
  have htap : ∀ f t, f < 4 → t < 9 →
      tapOf (tab2 128 (64 * 3 * 3) (fun f t =>
        if f < 4 ∧ t < 9
        then tapOf w.conv3 f t
          + ((8 * 8 : Nat) : α) * (lr * (((t : α) + 1) * (128 * (1 - output.getD label 0))))
        else tapOf w.conv3 f t)) f t - tapOf w.conv3 f t
      = 8192 * ((t : α) + 1) * (lr * (1 - output.getD label 0)) := by
    intro f t hf ht
    rw [tapOf_tab2 _ _ _ f t (by omega) (by omega), if_pos ⟨hf, ht⟩]
    push_cast
    ring
  refine ⟨_, _, backward_in_range_eq w output label lr _ hw ho1 hl, ?_, ?_, htap, ?_, ?_⟩
  · intro j hj
    show (w.fc3.map _).getD j 0 - _ = _
    rw [getD_map_lt w.fc3 _ j (by omega)]
    ring
  · intro j hj
    show (w.fc2.map _).getD j 0 - _ = _
    rw [getD_map_lt w.fc2 _ j (by omega)]
    ring
  · intro f hf
    show tapOf (tab2 _ _ _) f 8 - _ = 9 * (tapOf (tab2 _ _ _) f 0 - _)
    rw [htap f 8 hf (by omega), htap f 0 hf (by omega)]
    push_cast
    ring
  · intro f t hf ht ht2
    show tapOf (tab2 _ _ _) f t - _ = _
    rw [tapOf_tab2 _ _ _ f t (by omega) (by omega),
      if_neg (by intro hc; exact absurd hc.2 (by omega))]
    ring

theorem backward_increments_witness :
    Topology scenarioWeights ∧ scenarioOutput.length = NUM_CLASSES ∧ 3 < NUM_CLASSES ∧
    ∃ g3 w3, backward_in_range scenarioWeights scenarioOutput 3 (1 / 100) = some (g3, w3) ∧
      (∀ j, j < 128 → w3.fc3.getD j 0 - scenarioWeights.fc3.getD j 0
        = 1 / 100 * (1 - scenarioOutput.getD 3 0)) ∧
      (∀ j, j < 256 → w3.fc2.getD j 0 - scenarioWeights.fc2.getD j 0
        = 128 * (1 / 100 * (1 - scenarioOutput.getD 3 0))) ∧
      (∀ f t, f < 4 → t < 9 → tapOf w3.conv3 f t - tapOf scenarioWeights.conv3 f t
        = 8192 * ((t : ℚ) + 1) * (1 / 100 * (1 - scenarioOutput.getD 3 0))) ∧
      (∀ f, f < 4 → tapOf w3.conv3 f 8 - tapOf scenarioWeights.conv3 f 8
        = 9 * (tapOf w3.conv3 f 0 - tapOf scenarioWeights.conv3 f 0)) ∧
      (∀ f t, f < 4 → 9 ≤ t → t < 576 →
        tapOf w3.conv3 f t - tapOf scenarioWeights.conv3 f t = 0) :=
  ⟨initialize_weights_topology _, rfl, by decide,
    backward_increments scenarioWeights scenarioOutput 3 (1 / 100)
      (initialize_weights_topology _) rfl (by decide)⟩

/-- C9 as stated fails: on the freshly initialised weights, output `[0.1, 0.2, 0.3, 0.4]`,
label 3 and learning rate 0.01, `backward` reaches a state in which filter 0 of `conv3` has
received the increment 49.152 at tap 0, 442.368 at tap 8 and nothing at tap 9, so the
weights of that buffer do not share one increment. -/
theorem conv3_increments_differ :
    ∃ g3 w3, backward_in_range scenarioWeights scenarioOutput 3 (1 / 100) = some (g3, w3) ∧
      tapOf w3.conv3 0 0 - tapOf scenarioWeights.conv3 0 0 = 6144 / 125 ∧
      tapOf w3.conv3 0 8 - tapOf scenarioWeights.conv3 0 8 = 55296 / 125 ∧
      tapOf w3.conv3 0 9 - tapOf scenarioWeights.conv3 0 9 = 0 ∧
      ¬ ∃ c : ℚ, ∀ t, t < 576 →
        tapOf w3.conv3 0 t - tapOf scenarioWeights.conv3 0 t = c := by
  have ho1 : scenarioOutput[3]? = some (2 / 5) := rfl
  have h0 : tapOf (tab2 128 (64 * 3 * 3) (fun f t =>
        if f < 4 ∧ t < 9
        then tapOf scenarioWeights.conv3 f t
          + ((8 * 8 : Nat) : ℚ) * (1 / 100 * (((t : ℚ) + 1) * (128 * (1 - 2 / 5))))
        else tapOf scenarioWeights.conv3 f t)) 0 0 - tapOf scenarioWeights.conv3 0 0
      = 6144 / 125 := by
    rw [tapOf_tab2 _ _ _ 0 0 (by omega) (by omega), if_pos ⟨by omega, by omega⟩]
    norm_num
  have h8 : tapOf (tab2 128 (64 * 3 * 3) (fun f t =>
        if f < 4 ∧ t < 9
        then tapOf scenarioWeights.conv3 f t
          + ((8 * 8 : Nat) : ℚ) * (1 / 100 * (((t : ℚ) + 1) * (128 * (1 - 2 / 5))))
        else tapOf scenarioWeights.conv3 f t)) 0 8 - tapOf scenarioWeights.conv3 0 8
      = 55296 / 125 := by
    rw [tapOf_tab2 _ _ _ 0 8 (by omega) (by omega), if_pos ⟨by omega, by omega⟩]
    norm_num
  have h9 : tapOf (tab2 128 (64 * 3 * 3) (fun f t =>
        if f < 4 ∧ t < 9
        then tapOf scenarioWeights.conv3 f t
          + ((8 * 8 : Nat) : ℚ) * (1 / 100 * (((t : ℚ) + 1) * (128 * (1 - 2 / 5))))
        else tapOf scenarioWeights.conv3 f t)) 0 9 - tapOf scenarioWeights.conv3 0 9
      = 0 := by
    rw [tapOf_tab2 _ _ _ 0 9 (by omega) (by omega),
      if_neg (by intro hc; exact absurd hc.2 (by omega))]
    norm_num
  refine ⟨_, _, backward_in_range_eq scenarioWeights scenarioOutput 3 (1 / 100) (2 / 5)
    (initialize_weights_topology _) ho1 (by decide), h0, h8, h9, ?_⟩
  rintro ⟨c, hc⟩
  have e0 := hc 0 (by omega)
  have e9 := hc 9 (by omega)
  rw [h0] at e0
  rw [h9] at e9
  rw [← e9] at e0
  norm_num at e0

/-! ## Horizontal flip -/

/-- A loop that replaces every cell by a function of its own value maps the buffer. -/
theorem forLoop_modify {β : Type} (n : Nat) (h : β → β) (xs : List β) (hn : xs.length = n) :
    forLoop n (fun i d => (readAt d i).bind (fun x => writeAt d i (h x))) xs
      = some (xs.map h) := by
  rcases xs with _ | ⟨d0, rest⟩
  · subst hn; rfl
  · obtain ⟨gf, hgf⟩ : ∃ gf, (d0 :: rest) = tab n gf := ⟨_, by
      have := list_eq_tab (d0 :: rest) d0
      rwa [hn] at this⟩
    rw [hgf]
    obtain ⟨s, hs, hP⟩ := forLoop_inv
      (fun k st => st = tab n (fun p => if p < k then h (gf p) else gf p)) n
      (fun i d => (readAt d i).bind (fun x => writeAt d i (h x))) (tab n gf)
      (by simp)
      (by
        intro k st hk hst
        subst hst
        refine ⟨_, ?_, rfl⟩
        dsimp only
        rw [readAt_tab _ _ _ hk, Option.some_bind]
        unfold writeAt
        rw [if_pos (by rw [tab_length]; exact hk), set_tab]
        congr 1
        apply tab_congr
        intro p _
        by_cases hp : p = k
        · subst hp; simp
        · have e : (p < k + 1) ↔ (p < k) := by omega
          simp [Function.update_noteq hp, e])
    rw [hs, hP, map_tab]
    congr 1
    exact tab_congr _ _ _ (fun p hp => by rw [if_pos hp])

theorem flip_rows_eq {β : Type} (g : List (List β)) (hg : IsGrid g) :
    flip_rows g = some (g.map List.reverse) :=
  forLoop_modify IMAGE_SIZE List.reverse g hg.1

theorem isGrid_map_reverse {β : Type} (g : List (List β)) (hg : IsGrid g) :
    IsGrid (g.map List.reverse) := by
  refine ⟨by simpa using hg.1, ?_⟩
  intro row hrow
  obtain ⟨r, hr, rfl⟩ := List.mem_map.mp hrow
  simpa using hg.2 r hr

theorem gridAt_map_reverse {β : Type} [Zero β] (g : List (List β)) (hg : IsGrid g) (i j : Nat)
    (hi : i < IMAGE_SIZE) (hj : j < IMAGE_SIZE) :
    gridAt (g.map List.reverse) i (IMAGE_SIZE - 1 - j) = gridAt g i j := by
  have hi1 : i < g.length := by rw [hg.1]; exact hi
  have hrow : (g[i]).length = IMAGE_SIZE := hg.2 _ (List.getElem_mem hi1)
  have hj1 : IMAGE_SIZE - 1 - j < (g[i]).length := by rw [hrow]; omega
  have hj2 : j < (g[i]).length := by rw [hrow]; exact hj
  unfold gridAt
  simp only [List.getD, List.get?_eq_getElem?, List.getElem?_map,
    List.getElem?_eq_getElem hi1, Option.map_some', Option.getD_some]
  rw [List.getElem?_reverse hj1, hrow]
  have e : IMAGE_SIZE - 1 - (IMAGE_SIZE - 1 - j) = j := by omega
  rw [e]

/-- C10: for every 64 x 64 grid the horizontal-flip step of `augment_data` runs to
completion, sends the value at `(i, j)` to `(i, 63 - j)`, and applied twice gives back the
original grid. -/
theorem flip_rows_involution {α : Type} [Zero α] (g : List (List α)) (hg : IsGrid g) :
    ∃ g1, flip_rows g = some g1 ∧ IsGrid g1 ∧
      (∀ i j, i < 64 → j < 64 → gridAt g1 i (63 - j) = gridAt g i j) ∧
      flip_rows g1 = some g := by
  refine ⟨g.map List.reverse, flip_rows_eq g hg, isGrid_map_reverse g hg, ?_, ?_⟩
  · intro i j hi hj
    exact gridAt_map_reverse g hg i j hi hj
  · rw [flip_rows_eq _ (isGrid_map_reverse g hg), List.map_map]
    congr 1
    have : (List.reverse ∘ List.reverse : List α → List α) = id := by
      funext l; simp
    rw [this, List.map_id]

theorem flip_rows_involution_witness :
    IsGrid (List.replicate 64 (List.range 64)) ∧
    ∃ g1, flip_rows (List.replicate 64 (List.range 64)) = some g1 ∧
      IsGrid g1 ∧
      (∀ i j, i < 64 → j < 64 → gridAt g1 i (63 - j)
        = gridAt (List.replicate 64 (List.range 64)) i j) ∧
      flip_rows g1 = some (List.replicate 64 (List.range 64)) :=
  ⟨⟨List.length_replicate _ _, fun row hrow => by
      rw [List.eq_of_mem_replicate hrow]; exact List.length_range 64⟩,
    flip_rows_involution _ ⟨List.length_replicate _ _, fun row hrow => by
      rw [List.eq_of_mem_replicate hrow]; exact List.length_range 64⟩⟩

/-! ## Weight files -/

theorem le_bytes_length (k n : Nat) : (le_bytes k n).length = k := by
  induction k generalizing n with
  | zero => rfl
  | succ k ih => simp [le_bytes, ih]

theorem of_le_bytes_le_bytes (k n : Nat) : of_le_bytes (le_bytes k n) = n % 256 ^ k := by
  induction k generalizing n with
  | zero => simp [le_bytes, of_le_bytes, Nat.mod_one]
  | succ k ih =>
    simp only [le_bytes, of_le_bytes, ih]
    rw [pow_succ, Nat.mul_comm (256 ^ k) 256, Nat.mod_mul]

theorem length_flatMap_const {T : Type} (bytes : T → List Nat) (sz : Nat) (vec : List T)
    (h : ∀ v ∈ vec, (bytes v).length = sz) : (vec.flatMap bytes).length = vec.length * sz := by
  induction vec with
  | nil => simp
  | cons v vs ih =>
    rw [List.flatMap_cons, List.length_append, h v (List.mem_cons_self _ _),
      ih (fun u hu => h u (List.mem_cons_of_mem _ hu)), List.length_cons]
    ring

theorem save_vector_length {T : Type} (bytes : T → List Nat) (sz : Nat) (vec : List T)
    (h : ∀ v ∈ vec, (bytes v).length = sz) :
    (save_vector bytes vec).length = 8 + vec.length * sz := by
  unfold save_vector
  rw [List.length_append, le_bytes_length, length_flatMap_const bytes sz vec h]

theorem save_vector_take {T : Type} (bytes : T → List Nat) (vec : List T) (rest : List Nat) :
    (save_vector bytes vec ++ rest).take 8 = le_bytes 8 vec.length := by
  unfold save_vector
  rw [List.append_assoc, List.take_append_of_le_length (by rw [le_bytes_length]),
    List.take_of_length_le (by rw [le_bytes_length])]

theorem save_vector_drop {T : Type} (bytes : T → List Nat) (vec : List T) (rest : List Nat) :
    (save_vector bytes vec ++ rest).drop 8 = vec.flatMap bytes ++ rest := by
  unfold save_vector
  rw [List.append_assoc, List.drop_append_of_le_length (by rw [le_bytes_length]),
    List.drop_of_length_le (by rw [le_bytes_length])]
  rfl

theorem drop_flatMap_const {T : Type} (bytes : T → List Nat) (sz : Nat) (rest : List Nat)
    (vec : List T) (k : Nat) (h : ∀ v ∈ vec, (bytes v).length = sz) (hk : k ≤ vec.length) :
    (vec.flatMap bytes ++ rest).drop (k * sz) = (vec.drop k).flatMap bytes ++ rest := by
  induction vec generalizing k with
  | nil =>
    have : k = 0 := by simpa using hk
    subst this
    simp
  | cons v vs ih =>
    cases k with
    | zero => simp
    | succ k =>
      have hv : (bytes v).length = sz := h v (List.mem_cons_self _ _)
      have e : (k + 1) * sz = (bytes v).length + k * sz := by rw [hv]; ring
      rw [List.flatMap_cons, List.append_assoc, e, ← List.drop_drop,
        List.drop_left, List.drop_succ_cons]
      exact ih k (fun u hu => h u (List.mem_cons_of_mem _ hu)) (by simpa using hk)

theorem chunks_flatMap {T : Type} (bytes : T → List Nat) (sz : Nat) (rest : List Nat)
    (vec : List T) (h : ∀ v ∈ vec, (bytes v).length = sz) :
    (List.range vec.length).map (fun k => ((vec.flatMap bytes ++ rest).drop (k * sz)).take sz)
      = vec.map bytes := by
  apply List.ext_getElem
  · simp
  · intro k h1 h2
    have hk : k < vec.length := by simpa using h2
    simp only [List.getElem_map, List.getElem_range]
    rw [drop_flatMap_const bytes sz rest vec k h (Nat.le_of_lt hk),
      List.drop_eq_getElem_cons hk, List.flatMap_cons, List.append_assoc]
    have hv : (bytes vec[k]).length = sz := h _ (List.getElem_mem hk)
    rw [List.take_append_of_le_length (by rw [hv]), List.take_of_length_le (by rw [hv])]

theorem resize_length {T : Type} (vec : List T) (n : Nat) (d : T) :
    (resize vec n d).length = n := by
  unfold resize
  simp
  omega

theorem zipWith_store {T : Type} (store : T → List Nat → T) (f : List Nat → T)
    (hstore : ∀ old bs, store old bs = f bs) (olds : List T) (chunks : List (List Nat))
    (hlen : olds.length = chunks.length) : List.zipWith store olds chunks = chunks.map f := by
  induction olds generalizing chunks with
  | nil =>
    cases chunks with
    | nil => rfl
    | cons c cs => simp at hlen
  | cons o os ih =>
    cases chunks with
    | nil => simp at hlen
    | cons c cs =>
      simp only [List.zipWith_cons_cons, List.map_cons, hstore]
      rw [ih cs (by simpa using hlen)]

/-- Loading what `save_vector` wrote: the stored length comes back, and each element is
the result of overwriting an object by the saved bytes of the corresponding element. -/
theorem load_vector_save {T : Type} (bytes : T → List Nat) (sz : Nat)
    (store : T → List Nat → T) (f : List Nat → T) (d : T) (vec vec0 : List T)
    (rest : List Nat) (h : ∀ v ∈ vec, (bytes v).length = sz) (hn : vec.length < 256 ^ 8)
    (hstore : ∀ old bs, store old bs = f bs) :
    load_vector sz store d (save_vector bytes vec ++ rest) vec0
      = some (vec.map (fun v => f (bytes v)), rest) := by
  have hsize : of_le_bytes ((save_vector bytes vec ++ rest).take 8) = vec.length := by
    rw [save_vector_take, of_le_bytes_le_bytes]
    exact Nat.mod_eq_of_lt hn
  have hlen : ¬ (save_vector bytes vec ++ rest).length < 8 := by
    rw [List.length_append, save_vector_length bytes sz vec h]
    omega
  unfold load_vector
  rw [if_neg hlen, hsize, save_vector_drop]
  have hlen2 : ¬ (vec.flatMap bytes ++ rest).length < vec.length * sz := by
    rw [List.length_append, length_flatMap_const bytes sz vec h]
    omega
  rw [if_neg hlen2]
  have e1 : read_elems sz store (resize vec0 vec.length d) (vec.flatMap bytes ++ rest)
      = vec.map (fun v => f (bytes v)) := by
    unfold read_elems
    rw [resize_length, chunks_flatMap bytes sz rest vec h,
      zipWith_store store f hstore _ _ (by rw [resize_length, List.length_map]),
      List.map_map]
    rfl
  have e2 : (vec.flatMap bytes ++ rest).drop (vec.length * sz) = rest := by
    rw [drop_flatMap_const bytes sz rest vec vec.length h (Nat.le_refl _), List.drop_length]
    rfl
  rw [e1, e2]

theorem le_bytes_lt (k n b : Nat) (hb : b ∈ le_bytes k n) : b < 256 := by
  induction k generalizing n with
  | zero => simp [le_bytes] at hb
  | succ k ih =>
    simp only [le_bytes, List.mem_cons] at hb
    rcases hb with rfl | hb
    · exact Nat.mod_lt _ (by norm_num)
    · exact ih _ hb

theorem vector_object_length (start n : Nat) : (vector_object start n).length = 24 := by
  simp [vector_object, le_bytes_length]

theorem vector_object_lt (start n b : Nat) (hb : b ∈ vector_object start n) : b < 256 := by
  simp only [vector_object, List.mem_append] at hb
  rcases hb with (hb | hb) | hb <;> exact le_bytes_lt _ _ _ hb

theorem length_flatten_const {β : Type} (xss : List (List β)) (n m : Nat)
    (hs : HasShape xss n m) : xss.flatten.length = n * m := by
  obtain ⟨hlen, hrow⟩ := hs
  subst hlen
  induction xss with
  | nil => simp
  | cons r rs ih =>
    rw [List.flatten_cons, List.length_append, hrow r (List.mem_cons_self _ _),
      ih (fun u hu => hrow u (List.mem_cons_of_mem _ hu)), List.length_cons]
    ring

theorem sampleModel_shape (x : Nat) (hx : x < 2 ^ 32) : ModelShape 24 (sampleModel x) := by
  refine ⟨⟨⟨?_, ?_⟩, ⟨?_, ?_⟩, ⟨?_, ?_⟩, ?_, ?_, ?_⟩, ?_, ?_⟩
  · simp only [Model.weights, sampleModel, List.length_map, List.length_range]
  · intro row hrow
    simp only [Model.weights, sampleModel, List.map_map, List.mem_map, List.mem_range,
      Function.comp] at hrow
    obtain ⟨f, _, rfl⟩ := hrow
    by_cases h0 : f = 0
    · simp only [h0, if_true, List.length_cons, List.length_replicate]
    · simp only [h0, if_false, List.length_replicate]
  · simp only [Model.weights, sampleModel, List.length_map, List.length_range]
  · intro row hrow
    simp only [Model.weights, sampleModel, List.map_map, List.mem_map, List.mem_range,
      Function.comp] at hrow
    obtain ⟨f, _, rfl⟩ := hrow
    simp only [List.length_replicate]
  · simp only [Model.weights, sampleModel, List.length_map, List.length_range]
  · intro row hrow
    simp only [Model.weights, sampleModel, List.map_map, List.mem_map, List.mem_range,
      Function.comp] at hrow
    obtain ⟨f, _, rfl⟩ := hrow
    simp only [List.length_replicate]
  · simp only [Model.weights, sampleModel, List.length_replicate]
  · simp only [Model.weights, sampleModel, List.length_replicate]
  · simp only [Model.weights, sampleModel, List.length_replicate]
  · intro v hv
    simp only [sampleModel, List.mem_append, List.mem_map, List.mem_range] at hv
    rcases hv with (⟨f, _, rfl⟩ | ⟨f, _, rfl⟩) | ⟨f, _, rfl⟩
    · refine ⟨vector_object_length _ _, fun b hb => vector_object_lt _ _ b hb, ?_⟩
      intro y hy
      by_cases h0 : f = 0
      · simp only [h0, if_true, List.mem_cons] at hy
        rcases hy with rfl | hy
        · exact hx
        · rw [List.eq_of_mem_replicate hy]; norm_num
      · simp only [h0, if_false] at hy
        rw [List.eq_of_mem_replicate hy]; norm_num
    · refine ⟨vector_object_length _ _, fun b hb => vector_object_lt _ _ b hb, ?_⟩
      intro y hy
      rw [List.eq_of_mem_replicate hy]; norm_num
    · refine ⟨vector_object_length _ _, fun b hb => vector_object_lt _ _ b hb, ?_⟩
      intro y hy
      rw [List.eq_of_mem_replicate hy]; norm_num
  · intro y hy
    simp only [sampleModel, List.mem_append] at hy
    rcases hy with (hy | hy) | hy <;> (rw [List.eq_of_mem_replicate hy]; norm_num)

theorem map_decode_encode (xs : List Nat) (h : ∀ x ∈ xs, x < 2 ^ 32) :
    xs.map (fun v => of_le_bytes (le_bytes 4 v)) = xs := by
  have e : xs.map (fun v => of_le_bytes (le_bytes 4 v)) = xs.map id := by
    apply List.map_congr_left
    intro x hx
    rw [of_le_bytes_le_bytes]
    exact Nat.mod_eq_of_lt (lt_of_lt_of_le (h x hx) (by norm_num))
  rw [e, List.map_id]

/-- Loading the file written by `save_weights`: the three `fc` buffers come back as they
were saved; each inner vector of the `conv` buffers comes back as the saved vector object
(the saved pointers) with, as elements, what the loading process has at those addresses. -/
theorem load_weights_save (vsize : Nat) (mem : List Nat → List Nat) (m fresh : Model)
    (h : ModelShape vsize m) :
    load_weights vsize mem (save_weights m) fresh
      = some ⟨m.conv1.map (fun v => ⟨v.object, mem v.object⟩),
          m.conv2.map (fun v => ⟨v.object, mem v.object⟩),
          m.conv3.map (fun v => ⟨v.object, mem v.object⟩), m.fc1, m.fc2, m.fc3⟩ := by
  obtain ⟨⟨⟨hc1, _⟩, ⟨hc2, _⟩, ⟨hc3, _⟩, hf1, hf2, hf3⟩, hobj, hfl⟩ := h
  simp only [Model.weights, List.length_map] at hc1 hc2 hc3 hf1 hf2 hf3
  have e : save_weights m
      = save_vector (fun v => v.object) m.conv1 ++ (save_vector (fun v => v.object) m.conv2
        ++ (save_vector (fun v => v.object) m.conv3 ++ (save_vector (le_bytes 4) m.fc1
        ++ (save_vector (le_bytes 4) m.fc2 ++ (save_vector (le_bytes 4) m.fc3 ++ []))))) := by
    simp [save_weights]
  have o1 : ∀ v ∈ m.conv1, v.object.length = vsize := fun v hv => (hobj v (by simp [hv])).1
  have o2 : ∀ v ∈ m.conv2, v.object.length = vsize := fun v hv => (hobj v (by simp [hv])).1
  have o3 : ∀ v ∈ m.conv3, v.object.length = vsize := fun v hv => (hobj v (by simp [hv])).1
  have b4 : ∀ (xs : List Nat), ∀ v ∈ xs, (le_bytes 4 v).length = 4 :=
    fun _ v _ => le_bytes_length 4 v
  unfold load_weights
  rw [e, load_vector_save (fun v => v.object) vsize (store_vector mem)
    (fun bs => ⟨bs, mem bs⟩) _ m.conv1 fresh.conv1 _ o1 (by rw [hc1]; norm_num)
    (fun _ _ => rfl), Option.some_bind]
  dsimp only
  rw [load_vector_save (fun v => v.object) vsize (store_vector mem)
    (fun bs => ⟨bs, mem bs⟩) _ m.conv2 fresh.conv2 _ o2 (by rw [hc2]; norm_num)
    (fun _ _ => rfl), Option.some_bind]
  dsimp only
  rw [load_vector_save (fun v => v.object) vsize (store_vector mem)
    (fun bs => ⟨bs, mem bs⟩) _ m.conv3 fresh.conv3 _ o3 (by rw [hc3]; norm_num)
    (fun _ _ => rfl), Option.some_bind]
  dsimp only
  rw [load_vector_save (le_bytes 4) 4 store_float of_le_bytes 0 m.fc1 fresh.fc1 _ (b4 _)
    (by rw [hf1]; norm_num) (fun _ _ => rfl), Option.some_bind]
  dsimp only
  rw [load_vector_save (le_bytes 4) 4 store_float of_le_bytes 0 m.fc2 fresh.fc2 _ (b4 _)
    (by rw [hf2]; norm_num) (fun _ _ => rfl), Option.some_bind]
  dsimp only
  rw [load_vector_save (le_bytes 4) 4 store_float of_le_bytes 0 m.fc3 fresh.fc3 _ (b4 _)
    (by rw [hf3]; norm_num) (fun _ _ => rfl), Option.some_bind]
  dsimp only
  rw [map_decode_encode m.fc1 (fun x hx => hfl x (by simp [hx])),
    map_decode_encode m.fc2 (fun x hx => hfl x (by simp [hx])),
    map_decode_encode m.fc3 (fun x hx => hfl x (by simp [hx]))]

theorem save_weights_length (vsize : Nat) (m : Model) (h : ModelShape vsize m) :
    (save_weights m).length = 48 + vsize * (32 + 64 + 128) + 4 * (8192 + 256 + 128) := by
  obtain ⟨⟨⟨hc1, _⟩, ⟨hc2, _⟩, ⟨hc3, _⟩, hf1, hf2, hf3⟩, hobj, hfl⟩ := h
  simp only [Model.weights, List.length_map] at hc1 hc2 hc3 hf1 hf2 hf3
  have o1 : ∀ v ∈ m.conv1, v.object.length = vsize := fun v hv => (hobj v (by simp [hv])).1
  have o2 : ∀ v ∈ m.conv2, v.object.length = vsize := fun v hv => (hobj v (by simp [hv])).1
  have o3 : ∀ v ∈ m.conv3, v.object.length = vsize := fun v hv => (hobj v (by simp [hv])).1
  have b4 : ∀ (xs : List Nat), ∀ v ∈ xs, (le_bytes 4 v).length = 4 :=
    fun _ v _ => le_bytes_length 4 v
  unfold save_weights
  simp only [List.length_append]
  rw [save_vector_length _ vsize m.conv1 o1, save_vector_length _ vsize m.conv2 o2,
    save_vector_length _ vsize m.conv3 o3, save_vector_length _ 4 m.fc1 (b4 _),
    save_vector_length _ 4 m.fc2 (b4 _), save_vector_length _ 4 m.fc3 (b4 _),
    hc1, hc2, hc3, hf1, hf2, hf3]
  ring

theorem spec_file_length (w : WeightSet Nat) (h : Topology w) :
    (spec_file w).length = 48 + 4 * (288 + 18432 + 73728 + 8192 + 256 + 128) := by
  obtain ⟨h1, h2, h3, hf1, hf2, hf3⟩ := h
  have b4 : ∀ (xs : List Nat), ∀ v ∈ xs, (le_bytes 4 v).length = 4 :=
    fun _ v _ => le_bytes_length 4 v
  unfold spec_file
  simp only [List.length_append]
  rw [save_vector_length _ 4 _ (b4 _), save_vector_length _ 4 _ (b4 _),
    save_vector_length _ 4 _ (b4 _), save_vector_length _ 4 _ (b4 _),
    save_vector_length _ 4 _ (b4 _), save_vector_length _ 4 _ (b4 _),
    length_flatten_const _ _ _ h1, length_flatten_const _ _ _ h2,
    length_flatten_const _ _ _ h3, hf1, hf2, hf3]

theorem save_vector_object_congr (vec vec1 : List FloatVector)
    (h : vec.map (fun v => v.object) = vec1.map (fun v => v.object)) :
    save_vector (fun v => v.object) vec = save_vector (fun v => v.object) vec1 := by
  have hl : vec.length = vec1.length := by
    have := congrArg List.length h
    simpa using this
  unfold save_vector
  rw [List.flatMap_def, List.flatMap_def, h, hl]

/-- The file written by `save_weights` has its length fixed by `sizeof(std::vector<float>)`
alone, and for no value of that size is it the length the specification gives. -/
theorem save_weights_length_ne (vsize : Nat) (m : Model) (h : ModelShape vsize m) :
    (save_weights m).length ≠ (spec_file m.weights).length := by
  rw [save_weights_length vsize m h, spec_file_length m.weights h.1]
  omega

/-- C1 fails on the code: two topology-sized models in memory, equal but for the value of
`conv1[0][0]` (`0.5f` in one and `0.01f` in the other), are written to the same file by
`save_weights`, because the file holds the vector objects of the `conv` members and not
their floats; whatever the loading process has in memory, `load_weights` cannot give back
the saved buffers of both. -/
theorem roundtrip_loses_conv_weights :
    ModelShape 24 (sampleModel 1056964608) ∧ ModelShape 24 (sampleModel 1008981770) ∧
    save_weights (sampleModel 1056964608) = save_weights (sampleModel 1008981770) ∧
    (sampleModel 1056964608).weights.conv1 ≠ (sampleModel 1008981770).weights.conv1 ∧
    ∀ (mem : List Nat → List Nat) (fresh : Model),
      ¬ ((load_weights 24 mem (save_weights (sampleModel 1056964608)) fresh).map Model.weights
          = some (sampleModel 1056964608).weights ∧
        (load_weights 24 mem (save_weights (sampleModel 1008981770)) fresh).map Model.weights
          = some (sampleModel 1008981770).weights) := by
  have hsave : save_weights (sampleModel 1056964608) = save_weights (sampleModel 1008981770) := by
    unfold save_weights
    rw [save_vector_object_congr (sampleModel 1056964608).conv1 (sampleModel 1008981770).conv1
      (by simp only [sampleModel, List.map_map, Function.comp_def])]
    rfl
  have hne : (sampleModel 1056964608).weights.conv1
      ≠ (sampleModel 1008981770).weights.conv1 := by
    intro hc
    have h0 := congrArg (fun l => tapOf l 0 0) hc
    simp only [tapOf, Model.weights, sampleModel, List.getD, List.get?_eq_getElem?,
      List.getElem?_map, List.getElem?_range (show 0 < 32 by norm_num), Option.map_some',
      Option.getD_some, if_true, List.getElem?_cons_zero] at h0
    exact absurd h0 (by norm_num)
  refine ⟨sampleModel_shape _ (by norm_num), sampleModel_shape _ (by norm_num), hsave, hne, ?_⟩
  rintro mem fresh ⟨hA, hB⟩
  rw [hsave, hB] at hA
  apply hne
  have := Option.some.inj hA
  rw [← this]

/-- C2 fails on the code: for a topology-sized model in memory (with 24-byte vector
objects) the file written by `save_weights` starts with the length 32, the number of
filters of `conv1`, where the specified layout has 288, the number of floats; it is 39728
bytes long where the specified layout has 404144 bytes. -/
theorem save_weights_not_spec_layout :
    ModelShape 24 (sampleModel 1056964608) ∧
    (save_weights (sampleModel 1056964608)).take 8 = [32, 0, 0, 0, 0, 0, 0, 0] ∧
    (spec_file (sampleModel 1056964608).weights).take 8 = [32, 1, 0, 0, 0, 0, 0, 0] ∧
    (save_weights (sampleModel 1056964608)).length = 39728 ∧
    (spec_file (sampleModel 1056964608).weights).length = 404144 ∧
    save_weights (sampleModel 1056964608) ≠ spec_file (sampleModel 1056964608).weights := by
  have hs := sampleModel_shape 1056964608 (by norm_num)
  have h1 : (save_weights (sampleModel 1056964608)).length = 39728 := by
    rw [save_weights_length 24 _ hs]
  have h2 : (spec_file (sampleModel 1056964608).weights).length = 404144 := by
    rw [spec_file_length _ hs.1]
  refine ⟨hs, ?_, ?_, h1, h2, ?_⟩
  · unfold save_weights
    simp only [List.append_assoc]
    rw [save_vector_take]
    simp only [sampleModel, List.length_map, List.length_range]
    rfl
  · unfold spec_file
    simp only [List.append_assoc]
    rw [save_vector_take, length_flatten_const _ 32 9 hs.1.1]
    rfl
  · intro hc
    rw [hc, h2] at h1
    omega

/-! ## Rotation -/

theorem writeAt2_tab2 {β : Type} (L M : Nat) (wf : Nat → Nat → β) (r c : Nat) (v : β)
    (hr : r < L) (hc : c < M) :
    writeAt2 (tab2 L M wf) r c v
      = some (tab2 L M (Function.update wf r (Function.update (wf r) c v))) := by
  unfold writeAt2
  rw [tab2_eq_tab, readAt_tab _ _ _ hr, Option.some_bind]
  unfold writeAt
  rw [if_pos (by rw [tab_length]; exact hc), Option.some_bind,
    if_pos (by rw [tab_length]; exact hr), set_tab, set_tab, tab2_eq_tab]
  congr 1
  apply tab_congr
  intro g _
  by_cases hg : g = r
  · subst hg; simp
  · simp [Function.update_noteq hg]

theorem gridAt_tab2 {β : Type} [Zero β] (L M : Nat) (wf : Nat → Nat → β) (r c : Nat)
    (hr : r < L) (hc : c < M) : gridAt (tab2 L M wf) r c = wf r c :=
  tapOf_tab2 L M wf r c hr hc

theorem grid_eq_tab2 {β : Type} [Zero β] (g : List (List β)) (hg : IsGrid g) :
    g = tab2 64 64 (gridAt g) :=
  shape_eq_tab2 g 64 64 hg

theorem collect_map_some {β : Type} (l : List β) : collect (l.map some) = some l := by
  induction l with
  | nil => rfl
  | cons x xs ih => simp [collect, ih]

theorem copy_back_tab2 {β : Type} (L M : Nat) (v : Nat → Nat → β) :
    copy_back (tab2 L M (fun r c => some (v r c))) = some (tab2 L M v) := by
  unfold copy_back
  have e : (tab2 L M (fun r c => some (v r c))).map collect = (tab2 L M v).map some := by
    unfold tab2
    rw [List.map_map, List.map_map]
    apply List.map_congr_left
    intro r _
    show collect ((List.range M).map (fun c => some (v r c))) = some ((List.range M).map (v r))
    rw [← collect_map_some ((List.range M).map (v r)), List.map_map]
    rfl
  rw [e, collect_map_some]

theorem rotGrid_eq_tab2 {β : Type} [Zero β] (g : List (List β)) :
    rotGrid g = tab2 64 64 (fun r c => gridAt g (63 - c) r) := rfl

/-- On a 64 x 64 grid the rotation step runs to completion (every cell of `temp` is
written before it is read) and produces `rotGrid`. -/
theorem rotate_image_eq {β : Type} [Zero β] (g : List (List β)) (hg : IsGrid g) :
    rotate_image g = some (rotGrid g) := by
  unfold rotate_image
  have h0 : List.replicate IMAGE_SIZE (List.replicate IMAGE_SIZE (none : Option β))
      = tab2 64 64 (fun _ _ => none) := by
    show List.replicate 64 (List.replicate 64 none) = _
    rw [replicate_eq_tab, replicate_eq_tab, tab2_eq_tab]
  obtain ⟨t, ht, hP⟩ := forLoop_inv
    (fun i temp => temp = tab2 64 64 (fun r c =>
      if 64 ≤ c + i then some (gridAt g (63 - c) r) else none))
    IMAGE_SIZE
    (fun i temp =>
      forLoop IMAGE_SIZE (fun j temp =>
        (readAt2 g i j).bind (fun v => writeAt2 temp j (IMAGE_SIZE - 1 - i) (some v))) temp)
    (List.replicate IMAGE_SIZE (List.replicate IMAGE_SIZE none))
    (by
      rw [h0]
      apply tab2_congr
      intro r c _ hc
      rw [if_neg (by omega)])
    (by
      intro i temp hi hst
      have hi64 : i < 64 := hi
      subst hst
      obtain ⟨t, ht, hQ⟩ := forLoop_inv
        (fun j temp => temp = tab2 64 64 (fun r c =>
          if 64 ≤ c + i ∨ (c = 63 - i ∧ r < j) then some (gridAt g (63 - c) r) else none))
        IMAGE_SIZE
        (fun j temp =>
          (readAt2 g i j).bind (fun v => writeAt2 temp j (IMAGE_SIZE - 1 - i) (some v)))
        (tab2 64 64 (fun r c => if 64 ≤ c + i then some (gridAt g (63 - c) r) else none))
        (by
          apply tab2_congr
          intro r c _ _
          have e : (64 ≤ c + i ∨ (c = 63 - i ∧ r < 0)) ↔ 64 ≤ c + i := by omega
          simp only [e])
        (by
          intro j temp hj hst
          have hj64 : j < 64 := hj
          subst hst
          refine ⟨_, ?_, rfl⟩
          dsimp only
          rw [readAt2_grid g i j hg hi64 hj64, Option.some_bind]
          show writeAt2 _ j (64 - 1 - i) _ = _
          rw [writeAt2_tab2 64 64 _ j (64 - 1 - i) _ hj64 (by omega)]
          congr 1
          apply tab2_congr
          intro r c _ _
          by_cases hr : r = j
          · subst hr
            rw [Function.update_same]
            by_cases hc : c = 64 - 1 - i
            · subst hc
              rw [Function.update_same]
              have e : (64 ≤ 64 - 1 - i + i ∨ (64 - 1 - i = 63 - i ∧ r < r + 1)) := by omega
              rw [if_pos e]
              have e2 : 63 - (64 - 1 - i) = i := by omega
              rw [e2]
            · rw [Function.update_noteq hc]
              have e : (64 ≤ c + i ∨ (c = 63 - i ∧ r < r + 1))
                  ↔ (64 ≤ c + i ∨ (c = 63 - i ∧ r < r)) := by omega
              simp only [e]
          · rw [Function.update_noteq hr]
            have e : (64 ≤ c + i ∨ (c = 63 - i ∧ r < j + 1))
                ↔ (64 ≤ c + i ∨ (c = 63 - i ∧ r < j)) := by omega
            simp only [e])
      refine ⟨t, ht, ?_⟩
      rw [hQ]
      apply tab2_congr
      intro r c hr hc
      have e : (64 ≤ c + i ∨ (c = 63 - i ∧ r < IMAGE_SIZE)) ↔ 64 ≤ c + (i + 1) := by
        unfold IMAGE_SIZE
        omega
      simp only [e])
  rw [ht, hP, Option.some_bind]
  have e : tab2 64 64 (fun r c =>
      if 64 ≤ c + IMAGE_SIZE then some (gridAt g (63 - c) r) else none)
      = tab2 64 64 (fun r c => some (gridAt g (63 - c) r)) := by
    apply tab2_congr
    intro r c _ _
    rw [if_pos (by unfold IMAGE_SIZE; omega)]
  rw [e, copy_back_tab2, rotGrid_eq_tab2]

theorem isGrid_tab2 {β : Type} (wf : Nat → Nat → β) : IsGrid (tab2 64 64 wf) := by
  refine ⟨tab2_length _ _ _, ?_⟩
  intro row hrow
  unfold tab2 at hrow
  obtain ⟨r, _, rfl⟩ := List.mem_map.mp hrow
  simp [IMAGE_SIZE]

theorem rotGrid_tab2 {β : Type} [Zero β] (wf : Nat → Nat → β) :
    rotGrid (tab2 64 64 wf) = tab2 64 64 (fun r c => wf (63 - c) r) := by
  rw [rotGrid_eq_tab2]
  apply tab2_congr
  intro r c hr hc
  exact gridAt_tab2 64 64 wf (63 - c) r (by omega) hr

/-- Four quarter turns give back the grid. -/
theorem rotGrid_four {β : Type} [Zero β] (g : List (List β)) (hg : IsGrid g) :
    rotGrid (rotGrid (rotGrid (rotGrid g))) = g := by
  obtain ⟨wf, rfl⟩ : ∃ wf, g = tab2 64 64 wf := ⟨_, grid_eq_tab2 g hg⟩
  rw [rotGrid_tab2, rotGrid_tab2, rotGrid_tab2, rotGrid_tab2]
  apply tab2_congr
  intro r c hr hc
  have e1 : 63 - (63 - r) = r := by omega
  have e2 : 63 - (63 - c) = c := by omega
  simp only [e1, e2]

/-- C11: for every 64 x 64 grid the rotation step of `augment_data` runs to completion and
yields the grid `new` with `new[j][63 - i] = old[i][j]` for all `i`, `j` below 64, and
applying it four times yields the original grid. -/
theorem rotate_image_order_four {α : Type} [Zero α] (g : List (List α)) (hg : IsGrid g) :
    ∃ g1 g2 g3, rotate_image g = some g1 ∧ IsGrid g1 ∧
      (∀ i j, i < 64 → j < 64 → gridAt g1 j (63 - i) = gridAt g i j) ∧
      rotate_image g1 = some g2 ∧ rotate_image g2 = some g3 ∧ rotate_image g3 = some g := by
  have s1 : IsGrid (rotGrid g) := isGrid_tab2 _
  have s2 : IsGrid (rotGrid (rotGrid g)) := isGrid_tab2 _
  have s3 : IsGrid (rotGrid (rotGrid (rotGrid g))) := isGrid_tab2 _
  refine ⟨rotGrid g, rotGrid (rotGrid g), rotGrid (rotGrid (rotGrid g)),
    rotate_image_eq g hg, s1, ?_, rotate_image_eq _ s1, rotate_image_eq _ s2, ?_⟩
  · intro i j hi hj
    rw [rotGrid_eq_tab2, gridAt_tab2 64 64 _ j (63 - i) hj (by omega)]
    have e : 63 - (63 - i) = i := by omega
    rw [e]
  · rw [rotate_image_eq _ s3, rotGrid_four g hg]

theorem rotate_image_order_four_witness :
    IsGrid (List.replicate 64 (List.range 64)) ∧
    ∃ g1 g2 g3, rotate_image (List.replicate 64 (List.range 64)) = some g1 ∧ IsGrid g1 ∧
      (∀ i j, i < 64 → j < 64 →
        gridAt g1 j (63 - i) = gridAt (List.replicate 64 (List.range 64)) i j) ∧
      rotate_image g1 = some g2 ∧ rotate_image g2 = some g3 ∧
      rotate_image g3 = some (List.replicate 64 (List.range 64)) :=
  ⟨⟨List.length_replicate _ _, fun row hrow => by
      rw [List.eq_of_mem_replicate hrow]; exact List.length_range 64⟩,
    rotate_image_order_four _ ⟨List.length_replicate _ _, fun row hrow => by
      rw [List.eq_of_mem_replicate hrow]; exact List.length_range 64⟩⟩

/-! ## Augmentation draws -/

theorem augment_image_eq {β : Type} [Zero β] (d1 d2 : ℚ) (img : Image β)
    (hg : IsGrid img.data) : augment_image d1 d2 img = some (augmentSpec d1 d2 img) := by
  unfold augment_image augmentSpec
  by_cases h1 : d1 > 1 / 2
  · rw [if_pos h1, if_pos h1, flip_rows_eq _ hg, Option.some_bind]
    by_cases h2 : d2 > 1 / 2
    · rw [if_pos h2, if_pos h2, rotate_image_eq _ (isGrid_map_reverse _ hg)]
      rfl
    · rw [if_neg h2, if_neg h2]
      rfl
  · rw [if_neg h1, if_neg h1, Option.some_bind]
    by_cases h2 : d2 > 1 / 2
    · rw [if_pos h2, if_pos h2, rotate_image_eq _ hg]
      rfl
    · rw [if_neg h2, if_neg h2]
      rfl

theorem augment_from_spec {β : Type} [Zero β] (draw : Nat → ℚ) (batch : List (Image β))
    (k : Nat) (hg : ∀ img ∈ batch, IsGrid img.data) :
    ∃ out, augment_from draw k batch = some (out, k + 2 * batch.length) ∧
      out.length = batch.length ∧
      ∀ (j : Nat) (img : Image β), batch[j]? = some img →
        out[j]? = some (augmentSpec (draw (k + 2 * j)) (draw (k + 2 * j + 1)) img) := by
  induction batch generalizing k with
  | nil => exact ⟨[], rfl, rfl, fun j img h => by simp at h⟩
  | cons x rest ih =>
    obtain ⟨out, ho, hl, hp⟩ := ih (k + 2) (fun img h => hg img (List.mem_cons_of_mem _ h))
    refine ⟨augmentSpec (draw k) (draw (k + 1)) x :: out, ?_, by simp [hl], ?_⟩
    · unfold augment_from
      rw [augment_image_eq _ _ x (hg x (List.mem_cons_self _ _)), Option.some_bind, ho,
        Option.map_some']
      have e : k + 2 + 2 * rest.length = k + 2 * (x :: rest).length := by
        rw [List.length_cons]; ring
      rw [e]
    · intro j img hj
      cases j with
      | zero =>
        simp only [List.getElem?_cons_zero, Option.some.injEq] at hj
        subst hj
        simp
      | succ j =>
        rw [List.getElem?_cons_succ] at hj
        rw [List.getElem?_cons_succ, hp j img hj]
        have e1 : k + 2 + 2 * j = k + 2 * (j + 1) := by ring
        rw [e1]

/-- C13: with the random source a supplied stream, `augment_data` on a batch of 64 x 64
images consumes exactly two draws per image in batch order; image `j` is flipped exactly
when draw `2 j` exceeds 0.5 and then rotated exactly when draw `2 j + 1` exceeds 0.5 (the
flip first when both apply); the batch length and every label are unchanged. -/
theorem augment_data_draws {α : Type} [Zero α] (draw : Nat → ℚ) (batch : List (Image α))
    (hg : ∀ img ∈ batch, IsGrid img.data) :
    ∃ out, augment_from draw 0 batch = some (out, 2 * batch.length) ∧
      augment_data draw batch = some out ∧ out.length = batch.length ∧
      ∀ (j : Nat) (img : Image α), batch[j]? = some img →
        ∃ img1, out[j]? = some img1 ∧ img1.label = img.label ∧
          img1.data = (if draw (2 * j + 1) > 1 / 2 then rotGrid else id)
            ((if draw (2 * j) > 1 / 2 then flipGrid else id) img.data) ∧
          flip_rows img.data = some (flipGrid img.data) ∧
          rotate_image img.data = some (rotGrid img.data) ∧
          rotate_image (flipGrid img.data) = some (rotGrid (flipGrid img.data)) := by
  obtain ⟨out, ho, hl, hp⟩ := augment_from_spec draw batch 0 hg
  rw [Nat.zero_add] at ho
  refine ⟨out, ho, by rw [augment_data, ho]; rfl, hl, ?_⟩
  intro j img hj
  have h := hp j img hj
  rw [Nat.zero_add] at h
  have hgi : IsGrid img.data := hg img (List.getElem?_mem hj)
  exact ⟨_, h, rfl, rfl, flip_rows_eq _ hgi, rotate_image_eq _ hgi,
    rotate_image_eq _ (isGrid_map_reverse _ hgi)⟩

theorem augment_data_draws_witness :
    (∀ img ∈ [(⟨zeroGrid ℚ, 1⟩ : Image ℚ), ⟨zeroGrid ℚ, 2⟩], IsGrid img.data) ∧
    ∃ out, augment_from (fun k => if k = 0 then 3 / 4 else 1 / 4) 0
        [(⟨zeroGrid ℚ, 1⟩ : Image ℚ), ⟨zeroGrid ℚ, 2⟩]
        = some (out, 2 * [(⟨zeroGrid ℚ, 1⟩ : Image ℚ), ⟨zeroGrid ℚ, 2⟩].length) ∧
      augment_data (fun k => if k = 0 then 3 / 4 else 1 / 4)
        [(⟨zeroGrid ℚ, 1⟩ : Image ℚ), ⟨zeroGrid ℚ, 2⟩] = some out ∧
      out.length = [(⟨zeroGrid ℚ, 1⟩ : Image ℚ), ⟨zeroGrid ℚ, 2⟩].length ∧
      ∀ (j : Nat) (img : Image ℚ),
        [(⟨zeroGrid ℚ, 1⟩ : Image ℚ), ⟨zeroGrid ℚ, 2⟩][j]? = some img →
        ∃ img1, out[j]? = some img1 ∧ img1.label = img.label ∧
          img1.data = (if (fun k => if k = 0 then (3 / 4 : ℚ) else 1 / 4) (2 * j + 1) > 1 / 2
              then rotGrid else id)
            ((if (fun k => if k = 0 then (3 / 4 : ℚ) else 1 / 4) (2 * j) > 1 / 2
              then flipGrid else id) img.data) ∧
          flip_rows img.data = some (flipGrid img.data) ∧
          rotate_image img.data = some (rotGrid img.data) ∧
          rotate_image (flipGrid img.data) = some (rotGrid (flipGrid img.data)) :=
  ⟨fun img h => by
      simp only [List.mem_cons, List.mem_singleton, List.not_mem_nil, or_false] at h
      rcases h with rfl | rfl <;> exact isGrid_zeroGrid,
    augment_data_draws _ _ (fun img h => by
      simp only [List.mem_cons, List.mem_singleton, List.not_mem_nil, or_false] at h
      rcases h with rfl | rfl <;> exact isGrid_zeroGrid)⟩

/-! ## Batch partition -/

theorem lt_ceil_div_iff (n bs c : Nat) (hbs : 1 ≤ bs) :
    c < (n + bs - 1) / bs ↔ c * bs < n := by
  have h : c + 1 ≤ (n + bs - 1) / bs ↔ (c + 1) * bs ≤ n + bs - 1 :=
    Nat.le_div_iff_mul_le (by omega)
  have e : (c + 1) * bs = c * bs + bs := by ring
  rw [e] at h
  constructor
  · intro hc
    have := h.mp hc
    omega
  · intro hc
    have := h.mpr (by omega)
    omega

theorem take_min_drop {ι : Type} (data : List ι) (i bs : Nat) :
    (data.drop i).take (min (i + bs) data.length - i) = (data.drop i).take bs := by
  rcases Nat.le_total (i + bs) data.length with h | h
  · rw [Nat.min_eq_left h]
    congr 1
    omega
  · rw [Nat.min_eq_right h, List.take_of_length_le (by simp),
      List.take_of_length_le (by simp; omega)]

/-- The batch loop from batch number `c` on is the fold of `body` over the remaining batch
numbers, batch `c1` being the `batch_size` elements from index `c1 * batch_size` on (fewer
at the end of the data). -/
theorem batch_loop_eq {ι σ : Type} (data : List ι) (bs : Nat)
    (body : Nat → List ι → σ → Option σ) (hbs : 1 ≤ bs) (hbs2 : bs < 2 ^ 64)
    (hn : data.length < 2 ^ 63) (fuel c : Nat) (s : σ)
    (hc : c ≤ (data.length + bs - 1) / bs) (hf : (data.length + bs - 1) / bs - c ≤ fuel) :
    batch_loop data bs body fuel (c * bs) s
      = foldSteps (fun s c1 => body (c1 * bs) ((data.drop (c1 * bs)).take bs) s) s
          (List.range' c ((data.length + bs - 1) / bs - c)) := by
  induction fuel generalizing c s with
  | zero =>
    have hcK : c = (data.length + bs - 1) / bs := by omega
    have hge : ¬ c * bs < data.length := by
      rw [← lt_ceil_div_iff data.length bs c hbs]; omega
    have e0 : (data.length + bs - 1) / bs - c = 0 := by omega
    rw [e0]
    show (if c * bs < data.length then none else some s) = some s
    rw [if_neg hge]
  | succ fuel ih =>
    by_cases hlt : c * bs < data.length
    · have hcK : c < (data.length + bs - 1) / bs := (lt_ceil_div_iff _ _ _ hbs).mpr hlt
      have hsmall : c * bs + bs < 2 ^ 64 := by
        rcases Nat.eq_zero_or_pos c with h0 | h0
        · subst h0; omega
        · have : bs ≤ c * bs := Nat.le_mul_of_pos_left bs h0
          omega
      have hmod : (c * bs + bs) % 2 ^ 64 = (c + 1) * bs := by
        rw [Nat.mod_eq_of_lt hsmall]; ring
      have hnot : ¬ min ((c + 1) * bs) data.length < c * bs := by
        have : c * bs ≤ (c + 1) * bs := Nat.mul_le_mul_right bs (by omega)
        omega
      have hbatch : (data.drop (c * bs)).take (min ((c + 1) * bs) data.length - c * bs)
          = (data.drop (c * bs)).take bs := by
        have e : (c + 1) * bs = c * bs + bs := by ring
        rw [e]
        exact take_min_drop data (c * bs) bs
      have hr : List.range' c ((data.length + bs - 1) / bs - c)
          = c :: List.range' (c + 1) ((data.length + bs - 1) / bs - (c + 1)) := by
        have e : (data.length + bs - 1) / bs - c
            = ((data.length + bs - 1) / bs - (c + 1)) + 1 := by omega
        rw [e, List.range'_succ]
      rw [hr]
      show (if c * bs < data.length then
          if min ((c * bs + bs) % 2 ^ 64) data.length < c * bs then none
          else
            match body (c * bs) ((data.drop (c * bs)).take
                (min ((c * bs + bs) % 2 ^ 64) data.length - c * bs)) s with
            | none => none
            | some s1 => batch_loop data bs body fuel ((c * bs + bs) % 2 ^ 64) s1
        else some s) = _
      rw [if_pos hlt, hmod, if_neg hnot, hbatch]
      show _ = (match body (c * bs) ((data.drop (c * bs)).take bs) s with
        | none => none
        | some s1 => foldSteps _ s1 _)
      cases body (c * bs) ((data.drop (c * bs)).take bs) s with
      | none => rfl
      | some s1 => exact ih (c + 1) s1 (by omega) (by omega)
    · have hcK : c = (data.length + bs - 1) / bs := by
        have := (lt_ceil_div_iff data.length bs c hbs).not.mpr hlt
        omega
      have e0 : (data.length + bs - 1) / bs - c = 0 := by omega
      rw [e0]
      show (if c * bs < data.length then _ else some s) = some s
      rw [if_neg hlt]

theorem foldSteps_record {ι κ : Type} (f : ι → κ) (l : List ι) (acc : List κ) :
    foldSteps (fun acc c => some (acc ++ [f c])) acc l = some (acc ++ l.map f) := by
  induction l generalizing acc with
  | nil => simp [foldSteps]
  | cons x xs ih =>
    show foldSteps _ (acc ++ [f x]) xs = _
    rw [ih]
    simp

theorem flatten_chunks {ι : Type} (data : List ι) (bs K : Nat) :
    ((List.range K).map (fun c => (data.drop (c * bs)).take bs)).flatten
      = data.take (K * bs) := by
  induction K with
  | zero => simp
  | succ K ih =>
    rw [List.range_succ, List.map_append, List.flatten_append, ih]
    have e : (K + 1) * bs = K * bs + bs := by ring
    rw [e, List.take_add]
    simp

/-- The partition the batch loop makes of `data`: batch `c` is the `batch_size` elements
from index `c * batch_size` on. -/
theorem batch_loop_record {ι κ : Type} (data : List ι) (bs : Nat) (tag : List ι → κ)
    (acc : List κ) (hbs : 1 ≤ bs) (hbs2 : bs < 2 ^ 64) (hn : data.length < 2 ^ 63) :
    batch_loop data bs (fun _ batch acc => some (acc ++ [tag batch])) data.length 0 acc
      = some (acc ++ ((List.range ((data.length + bs - 1) / bs)).map
          (fun c => (data.drop (c * bs)).take bs)).map tag) := by
  have hK : (data.length + bs - 1) / bs ≤ data.length := by
    rcases Nat.lt_or_ge data.length ((data.length + bs - 1) / bs) with h | h
    · have := (lt_ceil_div_iff data.length bs data.length hbs).mp h
      have : data.length ≤ data.length * bs := Nat.le_mul_of_pos_right _ (by omega)
      omega
    · exact h
  have h := batch_loop_eq data bs (fun _ batch acc => some (acc ++ [tag batch])) hbs hbs2 hn
    data.length 0 acc (Nat.zero_le _) (by omega)
  rw [Nat.zero_mul] at h
  rw [h, Nat.sub_zero, foldSteps_record (fun c => tag ((data.drop (c * bs)).take bs)),
    ← List.range_eq_range', List.map_map]
  rfl

/-- C12: for every sequence of `n` images and every `batch_size` from 1 on, the batch loop
of every epoch of `train` ends, and it forms `ceil(n / batch_size)` contiguous batches,
the same in every epoch, whose concatenation is the sequence in its order; every batch
but the last has `batch_size` images and the last has between 1 and `batch_size`. The
bounds `batch_size < 2 ^ 64` and `n < 2 ^ 63` are those of `size_t` and of a vector of
images. -/
theorem train_batch_partition {ι : Type} (data : List ι) (epochs bs : Nat) (hbs : 1 ≤ bs)
    (hbs2 : bs < 2 ^ 64) (hn : data.length < 2 ^ 63) :
    ∃ parts : List (List ι),
      train_batches data epochs bs
        = some ((List.range epochs).flatMap (fun e => parts.map (fun b => (e, b)))) ∧
      parts.length = (data.length + bs - 1) / bs ∧
      parts.flatten = data ∧
      (∀ (c : Nat) (b : List ι), parts[c]? = some b → b = (data.drop (c * bs)).take bs) ∧
      (∀ (c : Nat) (b : List ι), c + 1 < parts.length → parts[c]? = some b →
        b.length = bs) ∧
      (∀ (b : List ι), parts[parts.length - 1]? = some b → 1 ≤ b.length ∧ b.length ≤ bs) := by
  have hlen : ((List.range ((data.length + bs - 1) / bs)).map
      (fun c => (data.drop (c * bs)).take bs)).length = (data.length + bs - 1) / bs := by
    simp
  have hget : ∀ (c : Nat) (b : List ι),
      ((List.range ((data.length + bs - 1) / bs)).map
        (fun c => (data.drop (c * bs)).take bs))[c]? = some b →
      c < (data.length + bs - 1) / bs ∧ b = (data.drop (c * bs)).take bs := by
    intro c b h
    rw [List.getElem?_map] at h
    rcases Nat.lt_or_ge c ((data.length + bs - 1) / bs) with hc | hc
    · rw [List.getElem?_range hc] at h
      simp only [Option.map_some', Option.some.injEq] at h
      exact ⟨hc, h.symm⟩
    · rw [List.getElem?_eq_none (by simpa using hc)] at h
      simp at h
  refine ⟨(List.range ((data.length + bs - 1) / bs)).map
    (fun c => (data.drop (c * bs)).take bs), ?_, hlen, ?_, fun c b h => (hget c b h).2, ?_, ?_⟩
  · unfold train_batches train_loop
    obtain ⟨t, ht, hP⟩ := forLoop_inv
      (fun e acc => acc = (List.range e).flatMap (fun e =>
        ((List.range ((data.length + bs - 1) / bs)).map
          (fun c => (data.drop (c * bs)).take bs)).map (fun b => (e, b))))
      epochs
      (fun epoch s => batch_loop data bs
        (fun _ batch acc => some (acc ++ [(epoch, batch)])) data.length 0 s) []
      (by simp)
      (by
        intro e acc _ hacc
        refine ⟨_, batch_loop_record data bs (fun b => (e, b)) acc hbs hbs2 hn, ?_⟩
        dsimp only
        rw [hacc, List.range_succ, List.flatMap_append]
        simp)
    rw [ht, hP]
  · rw [flatten_chunks]
    apply List.take_of_length_le
    rcases Nat.lt_or_ge ((data.length + bs - 1) / bs * bs) data.length with h | h
    · have := (lt_ceil_div_iff data.length bs _ hbs).mpr h
      omega
    · exact h
  · intro c b hc hb
    rw [hlen] at hc
    obtain ⟨_, rfl⟩ := hget c b hb
    have h1 := (lt_ceil_div_iff data.length bs (c + 1) hbs).mp hc
    have e : (c + 1) * bs = c * bs + bs := by ring
    rw [e] at h1
    rw [List.length_take, List.length_drop]
    omega
  · intro b hb
    rw [hlen] at hb
    obtain ⟨hc, rfl⟩ := hget _ b hb
    have h1 := (lt_ceil_div_iff data.length bs _ hbs).mp hc
    rw [List.length_take, List.length_drop]
    omega

theorem train_batch_partition_witness :
    1 ≤ 4 ∧ 4 < 2 ^ 64 ∧ (List.range 10).length < 2 ^ 63 ∧
    ∃ parts : List (List Nat),
      train_batches (List.range 10) 2 4
        = some ((List.range 2).flatMap (fun e => parts.map (fun b => (e, b)))) ∧
      parts.length = ((List.range 10).length + 4 - 1) / 4 ∧
      parts.flatten = List.range 10 ∧
      (∀ (c : Nat) (b : List Nat), parts[c]? = some b →
        b = ((List.range 10).drop (c * 4)).take 4) ∧
      (∀ (c : Nat) (b : List Nat), c + 1 < parts.length → parts[c]? = some b →
        b.length = 4) ∧
      (∀ (b : List Nat), parts[parts.length - 1]? = some b → 1 ≤ b.length ∧ b.length ≤ 4) :=
  ⟨by decide, by norm_num, by simp,
    train_batch_partition (List.range 10) 2 4 (by decide) (by norm_num) (by simp)⟩

/-- The batch partition scenario: 10 images with batch size 4 are processed in batches of
sizes 4, 4, 2, in the original order. -/
theorem train_batches_ten_four :
    train_batches (List.range 10) 1 4
      = some [(0, [0, 1, 2, 3]), (0, [4, 5, 6, 7]), (0, [8, 9])] := by
  decide

/-! ## Claims about the later loop nests of `backward` -/

/-- The `fc2` loop nest of `backward` in exact arithmetic: for every output of 4 scores,
every label in [0, 4) and every learning rate, the `fc3` loop nest leaves the fully
accumulated gradient
`1 - output[label]` in each of the 128 cells of `fc3_grad`, and the `fc2` loop nest adds
`lr` times it once per cell: each of the 256 fc2 weights ends at its value before plus
`128 * lr * (1 - output[label])`, which it keeps through the rest of the in-range part of
`backward`. -/
theorem backward_fc2_accumulated {α : Type} [Field α] (w : WeightSet α) (output : List α)
    (label : Nat) (lr : α) (hw : Topology w) (ho : output.length = NUM_CLASSES)
    (hl : label < NUM_CLASSES) :
    ∃ w1 fc2_grad w2, backward_fc3 w output label lr
        = some (List.replicate 128 (1 - output.getD label 0), w1) ∧
      backward_fc2 (List.replicate 128 (1 - output.getD label 0)) lr w1
        = some (fc2_grad, w2) ∧
      w2.fc2.length = 256 ∧
      (∀ j, j < 256 →
        w2.fc2.getD j 0 = w.fc2.getD j 0 + 128 * lr * (1 - output.getD label 0)) ∧
      ∃ g3 w3, backward_in_range w output label lr = some (g3, w3) ∧ w3.fc2 = w2.fc2 := by
  have ho1 : output[label]? = some (output.getD label 0) :=
    getElem?_getD_of_lt output label (by omega)
  obtain ⟨_, _, _, _, h5, h6⟩ := id hw
  refine ⟨_, _, _, backward_fc3_eq w output label lr _ h6 ho1 hl,
    backward_fc2_eq { w with fc3 := w.fc3.map (fun x => x + lr * (1 - output.getD label 0)) }
      lr (1 - output.getD label 0) h5, ?_, ?_,
    _, _, backward_in_range_eq w output label lr _ hw ho1 hl, rfl⟩
  · show (w.fc2.map _).length = 256
    rw [List.length_map, h5]
  · intro j hj
    show (w.fc2.map _).getD j 0 = _
    rw [getD_map_lt w.fc2 _ j (by omega)]
    ring

theorem backward_fc2_accumulated_witness :
    Topology scenarioWeights ∧ scenarioOutput.length = NUM_CLASSES ∧ 3 < NUM_CLASSES ∧
    ∃ w1 fc2_grad w2, backward_fc3 scenarioWeights scenarioOutput 3 (1 / 100)
        = some (List.replicate 128 (1 - scenarioOutput.getD 3 0), w1) ∧
      backward_fc2 (List.replicate 128 (1 - scenarioOutput.getD 3 0)) (1 / 100) w1
        = some (fc2_grad, w2) ∧
      w2.fc2.length = 256 ∧
      (∀ j, j < 256 → w2.fc2.getD j 0
        = scenarioWeights.fc2.getD j 0 + 128 * (1 / 100) * (1 - scenarioOutput.getD 3 0)) ∧
      ∃ g3 w3, backward_in_range scenarioWeights scenarioOutput 3 (1 / 100) = some (g3, w3) ∧
        w3.fc2 = w2.fc2 :=
  ⟨initialize_weights_topology _, rfl, by decide,
    backward_fc2_accumulated scenarioWeights scenarioOutput 3 (1 / 100)
      (initialize_weights_topology _) rfl (by decide)⟩

theorem forLoop_none_at {σ : Type} (n f : Nat) (body : Nat → σ → Option σ) (s : σ)
    (hf : f < n) (h : ∀ t, body f t = none) : forLoop n body s = none := by
  obtain ⟨r, rfl⟩ : ∃ r, n = f + 1 + r := ⟨n - (f + 1), by omega⟩
  rw [forLoop_add, forLoop_succ]
  cases forLoop f body s with
  | none => rfl
  | some t => rw [Option.some_bind, h t]; rfl

/-- A filter iteration of a convolution loop nest of `backward` whose first cell
`f * H * W` lies outside the upstream gradient fails at its first step. -/
theorem convBackFilter_none {α : Type} [Zero α] [Add α] [Mul α] (H W : Nat) (up : List α)
    (lr : α) (f : Nat) (st : List α × List (List α)) (hH : 0 < H) (hW : 0 < W)
    (hup : up.length ≤ f * H * W) : convBackFilter H W up lr f st = none := by
  unfold convBackFilter
  apply forLoop_first_none _ _ _ hH
  apply forLoop_first_none _ _ _ hW
  apply forLoop_first_none _ _ _ (by norm_num)
  apply forLoop_first_none _ _ _ (by norm_num)
  unfold convBackStep readAt
  rw [List.getElem?_eq_none (by omega)]
  rfl

theorem backward_conv3_none {α : Type} [Zero α] [Add α] [Mul α] (g : List α) (lr : α)
    (w : WeightSet α) (hg : g.length = 256) : backward_conv3 128 g lr w = none := by
  unfold backward_conv3 convBackLoops
  rw [forLoop_none_at 128 4 _ _ (by norm_num)
    (fun t => convBackFilter_none 8 8 g lr 4 t (by norm_num) (by norm_num) (by omega))]
  rfl

theorem backward_conv2_none {α : Type} [Zero α] [Add α] [Mul α] (g : List α) (lr : α)
    (w : WeightSet α) (hg : g.length = 8192) : backward_conv2 64 g lr w = none := by
  unfold backward_conv2 convBackLoops
  rw [forLoop_none_at 64 32 _ _ (by norm_num)
    (fun t => convBackFilter_none 16 16 g lr 32 t (by norm_num) (by norm_num) (by omega))]
  rfl

theorem backward_conv1_none {α : Type} [Zero α] [Add α] [Mul α] (g : List α) (lr : α)
    (w : WeightSet α) (hg : g.length = 16384) : backward_conv1 32 g lr w = none := by
  unfold backward_conv1 convBackLoops
  rw [forLoop_none_at 32 16 _ _ (by norm_num)
    (fun t => convBackFilter_none 32 32 g lr 16 t (by norm_num) (by norm_num) (by omega))]
  rfl

/-- C17 fails on the code: on the freshly initialised weights, output
`[0.1, 0.2, 0.3, 0.4]`, label 3 and learning rate 0.01, `backward` runs its `fc3` and `fc2`
loop nests and four filters of its `conv3` loop nest, and then reads `fc2_grad[256]` in a
vector of 256 entries: the embedded call takes its out-of-range branch. Whatever the
weights, the `conv3` loop nest fails on an upstream gradient of 256 entries, the `conv2`
loop nest on one of 8192 entries and the `conv1` loop nest on one of 16384 entries, which
are the sizes the source gives `fc2_grad`, `conv3_grad` and `conv2_grad`. -/
theorem backward_index_unsafe :
    Topology scenarioWeights ∧ scenarioOutput.length = NUM_CLASSES ∧ 3 < NUM_CLASSES ∧
    backward scenarioWeights (zeroGrid ℚ) scenarioOutput 3 (1 / 100) = none ∧
    (∃ conv3_grad w3,
      backward_in_range scenarioWeights scenarioOutput 3 (1 / 100) = some (conv3_grad, w3)) ∧
    4 * 8 * 8 + 0 * 8 + 0 = 256 ∧
    readAt (List.replicate 256 (128 * (1 - scenarioOutput.getD 3 0))) 256 = none ∧
    (∀ (g : List ℚ) (lr : ℚ) (w : WeightSet ℚ),
      g.length = 256 → backward_conv3 128 g lr w = none) ∧
    (∀ (g : List ℚ) (lr : ℚ) (w : WeightSet ℚ),
      g.length = 128 * 8 * 8 → backward_conv2 64 g lr w = none) ∧
    (∀ (g : List ℚ) (lr : ℚ) (w : WeightSet ℚ),
      g.length = 64 * 16 * 16 → backward_conv1 32 g lr w = none) := by
  refine ⟨initialize_weights_topology _, rfl, by decide,
    backward_out_of_range scenarioWeights (zeroGrid ℚ) scenarioOutput 3 (1 / 100) (2 / 5)
      (initialize_weights_topology _) rfl (by decide),
    ⟨_, _, backward_in_range_eq scenarioWeights scenarioOutput 3 (1 / 100) (2 / 5)
      (initialize_weights_topology _) rfl (by decide)⟩, rfl, ?_,
    fun g lr w hg => backward_conv3_none g lr w hg,
    fun g lr w hg => backward_conv2_none g lr w (by omega),
    fun g lr w hg => backward_conv1_none g lr w (by omega)⟩
  unfold readAt
  rw [List.getElem?_eq_none (by rw [List.length_replicate])]

/-! ## Footprint of `forward` -/

section Footprint

variable {α : Type} [Zero α] [Add α] [Mul α] [LT α] [DecidableRel (fun (a b : α) => a < b)]

theorem getD_tab {β : Type} (N : Nat) (gf : Nat → β) (p : Nat) (d : β) (hp : p < N) :
    (tab N gf).getD p d = gf p := by
  simp [List.getD, tab_getElem? N gf p hp]

theorem convTable_eq_tab (F H W : Nat) (x : Nat → Nat → α) (wts : List (List α)) :
    convTable F H W x wts
      = tab (F * H * W)
          (fun p => relu (convSum x (tapOf wts (p / (H * W))) (p / W % H) (p % W))) := rfl

omit [LT α] [DecidableRel (fun (a b : α) => a < b)] in
theorem convSum_congr (x x1 : Nat → Nat → α) (t t1 : Nat → α) (i j : Nat)
    (hx : ∀ a b, a < 3 → b < 3 → x (i + a) (j + b) = x1 (i + a) (j + b))
    (ht : ∀ k, k < 9 → t k = t1 k) : convSum x t i j = convSum x1 t1 i j := by
  unfold convSum
  rw [hx 0 0 (by omega) (by omega), hx 0 1 (by omega) (by omega), hx 0 2 (by omega) (by omega),
    hx 1 0 (by omega) (by omega), hx 1 1 (by omega) (by omega), hx 1 2 (by omega) (by omega),
    hx 2 0 (by omega) (by omega), hx 2 1 (by omega) (by omega), hx 2 2 (by omega) (by omega),
    ht 0 (by omega), ht 1 (by omega), ht 2 (by omega), ht 3 (by omega), ht 4 (by omega),
    ht 5 (by omega), ht 6 (by omega), ht 7 (by omega), ht 8 (by omega)]

/-- A cell of filter 0 of a convolution stage depends on the stage input only through its
3 x 3 window and on the weights only through taps 0..8 of filter 0. -/
theorem convTable_cell_congr (F H W : Nat) (x x1 : Nat → Nat → α) (wts wts1 : List (List α))
    (r c : Nat) (hF : 0 < F) (hr : r < H) (hc : c < W)
    (hx : ∀ a b, a < 3 → b < 3 → x (r + a) (c + b) = x1 (r + a) (c + b))
    (ht : ∀ k, k < 9 → tapOf wts 0 k = tapOf wts1 0 k) :
    (convTable F H W x wts).getD (r * W + c) 0
      = (convTable F H W x1 wts1).getD (r * W + c) 0 := by
  have hlt : r * W + c < F * H * W := by
    have h1 : r * W + c < H * W := by
      calc r * W + c < r * W + W := by omega
        _ = (r + 1) * W := by ring
        _ ≤ H * W := Nat.mul_le_mul_right W hr
    have h2 : H * W ≤ F * H * W := by
      rw [Nat.mul_assoc]
      exact Nat.le_mul_of_pos_left _ hF
    omega
  obtain ⟨e1, e2, e3⟩ := index_decode H W 0 r c hr hc
  rw [Nat.zero_mul, Nat.zero_add] at e1 e2 e3
  rw [convTable_eq_tab, convTable_eq_tab, getD_tab _ _ _ _ hlt, getD_tab _ _ _ _ hlt,
    e1, e2, e3, convSum_congr x x1 _ _ r c hx ht]

/-- A convolution stage depends on its input only through the rows and columns below
`H + 2` and `W + 2`, and on the weights only through taps 0..8 of its `F` filters. -/
theorem convTable_congr (F H W : Nat) (x x1 : Nat → Nat → α) (wts wts1 : List (List α))
    (hx : ∀ r c, r < H + 2 → c < W + 2 → x r c = x1 r c)
    (ht : ∀ f k, f < F → k < 9 → tapOf wts f k = tapOf wts1 f k) :
    convTable F H W x wts = convTable F H W x1 wts1 := by
  rw [convTable_eq_tab, convTable_eq_tab]
  apply tab_congr
  intro p hp
  have hHW : 0 < H * W := by
    rcases Nat.eq_zero_or_pos (H * W) with h | h
    · rw [Nat.mul_assoc, h] at hp; simp at hp
    · exact h
  have hW : 0 < W := by
    rcases Nat.eq_zero_or_pos W with h | h
    · rw [h] at hHW; simp at hHW
    · exact h
  have hH : 0 < H := by
    rcases Nat.eq_zero_or_pos H with h | h
    · rw [h] at hHW; simp at hHW
    · exact h
  have hf : p / (H * W) < F := by
    rw [Nat.mul_assoc] at hp
    exact Nat.div_lt_of_lt_mul (by rw [Nat.mul_comm]; exact hp)
  have hi : p / W % H < H := Nat.mod_lt _ hH
  have hj : p % W < W := Nat.mod_lt _ hW
  rw [convSum_congr x x1 _ _ _ _
    (fun a b ha hb => hx _ _ (by omega) (by omega))
    (fun k hk => ht _ k hf hk)]

/-- The scores of `forward` depend on the input only through its top-left 14 x 14 block,
and on the convolution weights only through taps 0..8 of filter 0 of `conv1`, of filter 0
of `conv2` and of the 128 filters of `conv3`. -/
theorem forwardTable_footprint (w w1 : WeightSet α) (input input1 : List (List α))
    (hin : ∀ r c, r < 14 → c < 14 → gridAt input r c = gridAt input1 r c)
    (h1 : ∀ k, k < 9 → tapOf w.conv1 0 k = tapOf w1.conv1 0 k)
    (h2 : ∀ k, k < 9 → tapOf w.conv2 0 k = tapOf w1.conv2 0 k)
    (h3 : ∀ f k, f < 128 → k < 9 → tapOf w.conv3 f k = tapOf w1.conv3 f k)
    (hf1 : w.fc1 = w1.fc1) (hf2 : w.fc2 = w1.fc2) (hf3 : w.fc3 = w1.fc3) :
    (forwardTable w input).conv_output3 = (forwardTable w1 input1).conv_output3 ∧
    (forwardTable w input).fc1_output = (forwardTable w1 input1).fc1_output ∧
    (forwardTable w input).fc2_output = (forwardTable w1 input1).fc2_output ∧
    (forwardTable w input).output = (forwardTable w1 input1).output := by
  have e3 : convTable 128 8 8
      (fun r c => (convTable 64 16 16
        (fun r c => (convTable 32 32 32 (gridAt input) w.conv1).getD (r * 32 + c) 0)
        w.conv2).getD (r * 16 + c) 0) w.conv3
      = convTable 128 8 8
      (fun r c => (convTable 64 16 16
        (fun r c => (convTable 32 32 32 (gridAt input1) w1.conv1).getD (r * 32 + c) 0)
        w1.conv2).getD (r * 16 + c) 0) w1.conv3 := by
    apply convTable_congr
    · intro r c hr hc
      apply convTable_cell_congr 64 16 16 _ _ _ _ r c (by norm_num) (by omega) (by omega) _ h2
      intro a b ha hb
      apply convTable_cell_congr 32 32 32 _ _ _ _ (r + a) (c + b) (by norm_num) (by omega)
        (by omega) _ h1
      intro a1 b1 ha1 hb1
      exact hin _ _ (by omega) (by omega)
    · exact h3
  simp only [forwardTable]
  rw [e3, hf1, hf2, hf3]
  exact ⟨rfl, rfl, rfl, rfl⟩

end Footprint

/-! ## Claims about the footprint and the safety of `forward` -/

theorem hasShape_tab2 {β : Type} (L M : Nat) (wf : Nat → Nat → β) :
    HasShape (tab2 L M wf) L M := by
  refine ⟨tab2_length _ _ _, ?_⟩
  intro row hrow
  unfold tab2 at hrow
  obtain ⟨r, _, rfl⟩ := List.mem_map.mp hrow
  simp

theorem variantWeights_topology : Topology variantWeights :=
  ⟨hasShape_tab2 _ _ _, hasShape_tab2 _ _ _, hasShape_tab2 _ _ _,
    List.length_replicate _ _, List.length_replicate _ _, List.length_replicate _ _⟩

theorem max_element_replicate {α : Type} [LT α] [DecidableRel (fun (a b : α) => a < b)]
    (v : α) (hirr : ¬ v < v) : max_element (List.replicate NUM_CLASSES v) = 0 := by
  simp [NUM_CLASSES, List.replicate, max_element, max_element_go, hirr]

/-- C16: for every 64 x 64 image and every topology-sized weight set, `predict` returns the
label 0: the four scores of `forward` are equal and the arg-max keeps the first. This needs
of the scalars only that no value is smaller than itself. -/
theorem predict_constant {α : Type} [Zero α] [Add α] [Mul α] [LT α]
    [DecidableRel (fun (a b : α) => a < b)] (w : WeightSet α) (img : Image α)
    (hirr : ∀ a : α, ¬ a < a) (hw : Topology w) (hg : IsGrid img.data) :
    predict w img = some 0 := by
  rw [predict, forward, forward_trace_eq w img.data hw hg, Option.map_some', Option.map_some']
  show some (max_element (List.replicate NUM_CLASSES _)) = some 0
  rw [max_element_replicate _ (hirr _)]

theorem predict_constant_witness :
    (∀ a : ℚ, ¬ a < a) ∧ Topology variantWeights ∧ IsGrid (⟨spotGrid, 2⟩ : Image ℚ).data ∧
    predict variantWeights ⟨spotGrid, 2⟩ = some 0 :=
  ⟨fun a => lt_irrefl a, variantWeights_topology, isGrid_tab2 _,
    predict_constant variantWeights ⟨spotGrid, 2⟩ (fun a => lt_irrefl a)
      variantWeights_topology (isGrid_tab2 _)⟩

/-- C18: for every topology-sized weight set, two 64 x 64 inputs that agree on the top-left
14 x 14 block (rows 0..13, columns 0..13) get the same scores from `forward`: the pixels
outside that block do not influence the output. -/
theorem forward_input_footprint {α : Type} [Zero α] [Add α] [Mul α] [LT α]
    [DecidableRel (fun (a b : α) => a < b)] (w : WeightSet α) (input input1 : List (List α))
    (hw : Topology w) (hg : IsGrid input) (hg1 : IsGrid input1)
    (hin : ∀ r c, r < 14 → c < 14 → gridAt input r c = gridAt input1 r c) :
    ∃ out, forward w input = some out ∧ forward w input1 = some out := by
  refine ⟨(forwardTable w input).output, ?_, ?_⟩
  · rw [forward, forward_trace_eq w input hw hg]; rfl
  · rw [forward, forward_trace_eq w input1 hw hg1, Option.map_some',
      (forwardTable_footprint w w input input1 hin (fun _ _ => rfl) (fun _ _ => rfl)
        (fun _ _ _ _ => rfl) rfl rfl rfl).2.2.2]

theorem spotGrid_block (r c : Nat) (hr : r < 14) (hc : c < 14) :
    gridAt (zeroGrid ℚ) r c = gridAt spotGrid r c := by
  rw [gridAt_zeroGrid, spotGrid, gridAt_tab2 64 64 _ r c (by omega) (by omega),
    if_neg (by omega)]

theorem forward_input_footprint_witness :
    Topology scenarioWeights ∧ IsGrid (zeroGrid ℚ) ∧ IsGrid spotGrid ∧
    (∀ r c, r < 14 → c < 14 → gridAt (zeroGrid ℚ) r c = gridAt spotGrid r c) ∧
    ∃ out, forward scenarioWeights (zeroGrid ℚ) = some out ∧
      forward scenarioWeights spotGrid = some out :=
  ⟨initialize_weights_topology _, isGrid_zeroGrid, isGrid_tab2 _, spotGrid_block,
    forward_input_footprint scenarioWeights (zeroGrid ℚ) spotGrid
      (initialize_weights_topology _) isGrid_zeroGrid (isGrid_tab2 _) spotGrid_block⟩

/-- C19: for every 64 x 64 input, two topology-sized weight sets that agree on taps 0..8 of
filter 0 of `conv1`, on taps 0..8 of filter 0 of `conv2`, on taps 0..8 of each of the 128
filters of `conv3` and on `fc1`, `fc2`, `fc3` get the same scores from `forward`, whatever
their other convolution weights are. -/
theorem forward_weight_footprint {α : Type} [Zero α] [Add α] [Mul α] [LT α]
    [DecidableRel (fun (a b : α) => a < b)] (w w1 : WeightSet α) (input : List (List α))
    (hw : Topology w) (hw1 : Topology w1) (hg : IsGrid input)
    (h1 : ∀ k, k < 9 → tapOf w.conv1 0 k = tapOf w1.conv1 0 k)
    (h2 : ∀ k, k < 9 → tapOf w.conv2 0 k = tapOf w1.conv2 0 k)
    (h3 : ∀ f k, f < 128 → k < 9 → tapOf w.conv3 f k = tapOf w1.conv3 f k)
    (hf1 : w.fc1 = w1.fc1) (hf2 : w.fc2 = w1.fc2) (hf3 : w.fc3 = w1.fc3) :
    ∃ out, forward w input = some out ∧ forward w1 input = some out := by
  refine ⟨(forwardTable w input).output, ?_, ?_⟩
  · rw [forward, forward_trace_eq w input hw hg]; rfl
  · rw [forward, forward_trace_eq w1 input hw1 hg, Option.map_some',
      (forwardTable_footprint w w1 input input (fun _ _ _ _ => rfl) h1 h2 h3 hf1 hf2
        hf3).2.2.2]

theorem variantWeights_conv1 (k : Nat) (hk : k < 9) :
    tapOf scenarioWeights.conv1 0 k = tapOf variantWeights.conv1 0 k := by
  rw [scenarioWeights, initialize_weights, variantWeights,
    tapOf_replicate 32 9 0 k _ (by omega) hk, tapOf_tab2 32 9 _ 0 k (by omega) hk, if_pos rfl]

theorem variantWeights_conv2 (k : Nat) (hk : k < 9) :
    tapOf scenarioWeights.conv2 0 k = tapOf variantWeights.conv2 0 k := by
  rw [scenarioWeights, initialize_weights, variantWeights,
    tapOf_replicate 64 (32 * 3 * 3) 0 k _ (by omega) (by omega),
    tapOf_tab2 64 (32 * 3 * 3) _ 0 k (by omega) (by omega), if_pos ⟨rfl, hk⟩]

theorem variantWeights_conv3 (f k : Nat) (hf : f < 128) (hk : k < 9) :
    tapOf scenarioWeights.conv3 f k = tapOf variantWeights.conv3 f k := by
  rw [scenarioWeights, initialize_weights, variantWeights,
    tapOf_replicate 128 (64 * 3 * 3) f k _ hf (by omega),
    tapOf_tab2 128 (64 * 3 * 3) _ f k hf (by omega), if_pos hk]

theorem forward_weight_footprint_witness :
    Topology scenarioWeights ∧ Topology variantWeights ∧ IsGrid spotGrid ∧
    (∀ k, k < 9 → tapOf scenarioWeights.conv1 0 k = tapOf variantWeights.conv1 0 k) ∧
    (∀ k, k < 9 → tapOf scenarioWeights.conv2 0 k = tapOf variantWeights.conv2 0 k) ∧
    (∀ f k, f < 128 → k < 9 →
      tapOf scenarioWeights.conv3 f k = tapOf variantWeights.conv3 f k) ∧
    scenarioWeights.fc1 = variantWeights.fc1 ∧ scenarioWeights.fc2 = variantWeights.fc2 ∧
    scenarioWeights.fc3 = variantWeights.fc3 ∧
    ∃ out, forward scenarioWeights spotGrid = some out ∧
      forward variantWeights spotGrid = some out :=
  ⟨initialize_weights_topology _, variantWeights_topology, isGrid_tab2 _,
    variantWeights_conv1, variantWeights_conv2, variantWeights_conv3, rfl, rfl, rfl,
    forward_weight_footprint scenarioWeights variantWeights spotGrid
      (initialize_weights_topology _) variantWeights_topology (isGrid_tab2 _)
      variantWeights_conv1 variantWeights_conv2 variantWeights_conv3 rfl rfl rfl⟩

theorem forwardTable_lengths {α : Type} [Zero α] [Add α] [Mul α] [LT α]
    [DecidableRel (fun (a b : α) => a < b)] (w : WeightSet α) (input : List (List α)) :
    (forwardTable w input).conv_output1.length = 32 * 32 * 32 ∧
    (forwardTable w input).conv_output2.length = 64 * 16 * 16 ∧
    (forwardTable w input).conv_output3.length = 128 * 8 * 8 ∧
    (forwardTable w input).fc1_output.length = 256 ∧
    (forwardTable w input).fc2_output.length = 128 ∧
    (forwardTable w input).output.length = NUM_CLASSES := by
  simp only [forwardTable]
  exact ⟨convTable_length _ _ _ _ _, convTable_length _ _ _ _ _, convTable_length _ _ _ _ _,
    List.length_replicate _ _, List.length_replicate _ _, List.length_replicate _ _⟩

theorem readAt_some_of_lt {β : Type} (xs : List β) (i : Nat) (h : i < xs.length) :
    ∃ v, readAt xs i = some v :=
  ⟨xs[i], by simp [readAt, List.getElem?_eq_getElem h]⟩

/-- C20: for every 64 x 64 input and every topology-sized weight set, `forward` runs to
completion, and every index its loops evaluate lies within the container it indexes: the
reads `input[i + ki][j + kj]`, the reads of the stage-1, stage-2 and stage-3 buffers, the
taps `[f][ki * 3 + kj]` of the filters, the reads of the `fc` buffers, and the cells the
loops write. The embedding of `forward` has the weights as an input only. -/
theorem forward_index_safe {α : Type} [Zero α] [Add α] [Mul α] [LT α]
    [DecidableRel (fun (a b : α) => a < b)] (w : WeightSet α) (input : List (List α))
    (hw : Topology w) (hg : IsGrid input) :
    ∃ act, forward_trace w input = some act ∧ forward w input = some act.output ∧
      (∀ f i j ki kj, f < 32 → i < 32 → j < 32 → ki < 3 → kj < 3 →
        (∃ v, readAt2 input (i + ki) (j + kj) = some v) ∧
        (∃ v, readAt2 w.conv1 f (ki * 3 + kj) = some v) ∧
        f * 32 * 32 + i * 32 + j < act.conv_output1.length) ∧
      (∀ f i j ki kj, f < 64 → i < 16 → j < 16 → ki < 3 → kj < 3 →
        (∃ v, readAt act.conv_output1 ((i + ki) * 32 + (j + kj)) = some v) ∧
        (∃ v, readAt2 w.conv2 f (ki * 3 + kj) = some v) ∧
        f * 16 * 16 + i * 16 + j < act.conv_output2.length) ∧
      (∀ f i j ki kj, f < 128 → i < 8 → j < 8 → ki < 3 → kj < 3 →
        (∃ v, readAt act.conv_output2 ((i + ki) * 16 + (j + kj)) = some v) ∧
        (∃ v, readAt2 w.conv3 f (ki * 3 + kj) = some v) ∧
        f * 8 * 8 + i * 8 + j < act.conv_output3.length) ∧
      (∀ i j, i < 256 → j < 128 * 8 * 8 →
        (∃ v, readAt act.conv_output3 j = some v) ∧ (∃ v, readAt w.fc1 j = some v) ∧
        i < act.fc1_output.length) ∧
      (∀ i j, i < 128 → j < 256 →
        (∃ v, readAt act.fc1_output j = some v) ∧ (∃ v, readAt w.fc2 j = some v) ∧
        i < act.fc2_output.length) ∧
      (∀ i j, i < NUM_CLASSES → j < 128 →
        (∃ v, readAt act.fc2_output j = some v) ∧ (∃ v, readAt w.fc3 j = some v) ∧
        i < act.output.length) := by
  obtain ⟨l1, l2, l3, l4, l5, l6⟩ := forwardTable_lengths w input
  obtain ⟨h1, h2, h3, h4, h5, h6⟩ := id hw
  refine ⟨forwardTable w input, forward_trace_eq w input hw hg, ?_, ?_, ?_, ?_, ?_, ?_, ?_⟩
  · rw [forward, forward_trace_eq w input hw hg]; rfl
  · intro f i j ki kj hf hi hj hki hkj
    exact ⟨⟨_, readAt2_grid input _ _ hg (by omega) (by omega)⟩,
      ⟨_, readAt2_of_shape w.conv1 32 9 f _ h1 hf (by omega)⟩, by rw [l1]; omega⟩
  · intro f i j ki kj hf hi hj hki hkj
    exact ⟨readAt_some_of_lt _ _ (by rw [l1]; omega),
      ⟨_, readAt2_of_shape w.conv2 64 (32 * 3 * 3) f _ h2 hf (by omega)⟩, by rw [l2]; omega⟩
  · intro f i j ki kj hf hi hj hki hkj
    exact ⟨readAt_some_of_lt _ _ (by rw [l2]; omega),
      ⟨_, readAt2_of_shape w.conv3 128 (64 * 3 * 3) f _ h3 hf (by omega)⟩, by rw [l3]; omega⟩
  · intro i j hi hj
    exact ⟨readAt_some_of_lt _ _ (by rw [l3]; exact hj),
      readAt_some_of_lt _ _ (by rw [h4]; exact hj), by rw [l4]; exact hi⟩
  · intro i j hi hj
    exact ⟨readAt_some_of_lt _ _ (by rw [l4]; exact hj),
      readAt_some_of_lt _ _ (by rw [h5]; exact hj), by rw [l5]; exact hi⟩
  · intro i j hi hj
    exact ⟨readAt_some_of_lt _ _ (by rw [l5]; exact hj),
      readAt_some_of_lt _ _ (by rw [h6]; exact hj), by rw [l6]; exact hi⟩

theorem forward_index_safe_witness :
    Topology variantWeights ∧ IsGrid spotGrid ∧
    ∃ act, forward_trace variantWeights spotGrid = some act ∧
      forward variantWeights spotGrid = some act.output ∧
      (∀ f i j ki kj, f < 32 → i < 32 → j < 32 → ki < 3 → kj < 3 →
        (∃ v, readAt2 spotGrid (i + ki) (j + kj) = some v) ∧
        (∃ v, readAt2 variantWeights.conv1 f (ki * 3 + kj) = some v) ∧
        f * 32 * 32 + i * 32 + j < act.conv_output1.length) ∧
      (∀ f i j ki kj, f < 64 → i < 16 → j < 16 → ki < 3 → kj < 3 →
        (∃ v, readAt act.conv_output1 ((i + ki) * 32 + (j + kj)) = some v) ∧
        (∃ v, readAt2 variantWeights.conv2 f (ki * 3 + kj) = some v) ∧
        f * 16 * 16 + i * 16 + j < act.conv_output2.length) ∧
      (∀ f i j ki kj, f < 128 → i < 8 → j < 8 → ki < 3 → kj < 3 →
        (∃ v, readAt act.conv_output2 ((i + ki) * 16 + (j + kj)) = some v) ∧
        (∃ v, readAt2 variantWeights.conv3 f (ki * 3 + kj) = some v) ∧
        f * 8 * 8 + i * 8 + j < act.conv_output3.length) ∧
      (∀ i j, i < 256 → j < 128 * 8 * 8 →
        (∃ v, readAt act.conv_output3 j = some v) ∧
        (∃ v, readAt variantWeights.fc1 j = some v) ∧ i < act.fc1_output.length) ∧
      (∀ i j, i < 128 → j < 256 →
        (∃ v, readAt act.fc1_output j = some v) ∧
        (∃ v, readAt variantWeights.fc2 j = some v) ∧ i < act.fc2_output.length) ∧
      (∀ i j, i < NUM_CLASSES → j < 128 →
        (∃ v, readAt act.fc2_output j = some v) ∧
        (∃ v, readAt variantWeights.fc3 j = some v) ∧ i < act.output.length) :=
  ⟨variantWeights_topology, isGrid_tab2 _,
    forward_index_safe variantWeights spotGrid variantWeights_topology (isGrid_tab2 _)⟩

/-! ## Training: batches and the fold over the images -/

theorem foldSteps_append {ι σ : Type} (step : σ → ι → Option σ) (s : σ) (l1 l2 : List ι) :
    foldSteps step s (l1 ++ l2) = (foldSteps step s l1).bind (fun s1 => foldSteps step s1 l2) := by
  induction l1 generalizing s with
  | nil => rfl
  | cons x xs ih =>
    show (match step s x with
      | none => none
      | some s1 => foldSteps step s1 (xs ++ l2))
      = (match step s x with
        | none => none
        | some s1 => foldSteps step s1 xs).bind (fun s1 => foldSteps step s1 l2)
    cases step s x with
    | none => rfl
    | some s1 => exact ih s1

theorem foldSteps_flatten {ι κ σ : Type} (step : σ → ι → Option σ) (chunk : κ → List ι)
    (s : σ) (cs : List κ) :
    foldSteps (fun s c => foldSteps step s (chunk c)) s cs
      = foldSteps step s (cs.map chunk).flatten := by
  induction cs generalizing s with
  | nil => rfl
  | cons c rest ih =>
    rw [List.map_cons, List.flatten_cons, foldSteps_append]
    show (match foldSteps step s (chunk c) with
      | none => none
      | some s1 => foldSteps (fun s c => foldSteps step s (chunk c)) s1 rest) = _
    cases foldSteps step s (chunk c) with
    | none => rfl
    | some s1 => exact ih s1

/-- The loops of `train` with a body that folds a per-image step over its batch are the
fold of that step over the whole sequence, once per epoch, whatever the batch size. -/
theorem train_loop_fold {ι σ : Type} (step : σ → ι → Option σ) (data : List ι)
    (epochs bs : Nat) (s : σ) (hbs : 1 ≤ bs) (hbs2 : bs < 2 ^ 64)
    (hn : data.length < 2 ^ 63) :
    train_loop data epochs bs (fun _ _ batch s => foldSteps step s batch) s
      = forLoop epochs (fun _ s => foldSteps step s data) s := by
  unfold train_loop
  apply forLoop_congr
  intro e _ t
  have hK : (data.length + bs - 1) / bs ≤ data.length := by
    rcases Nat.lt_or_ge data.length ((data.length + bs - 1) / bs) with h | h
    · have := (lt_ceil_div_iff data.length bs data.length hbs).mp h
      have : data.length ≤ data.length * bs := Nat.le_mul_of_pos_right _ (by omega)
      omega
    · exact h
  have h := batch_loop_eq data bs (fun _ batch s => foldSteps step s batch) hbs hbs2 hn
    data.length 0 t (Nat.zero_le _) (by omega)
  rw [Nat.zero_mul] at h
  rw [h, Nat.sub_zero, foldSteps_flatten step (fun c => (data.drop (c * bs)).take bs),
    ← List.range_eq_range', flatten_chunks]
  congr 1
  apply List.take_of_length_le
  rcases Nat.lt_or_ge ((data.length + bs - 1) / bs * bs) data.length with h1 | h1
  · have := (lt_ceil_div_iff data.length bs _ hbs).mpr h1
    omega
  · exact h1

theorem augment_from_noop {β : Type} (draw : Nat → ℚ) (hd : ∀ k, draw k ≤ 1 / 2)
    (batch : List (Image β)) (k : Nat) :
    augment_from draw k batch = some (batch, k + 2 * batch.length) := by
  induction batch generalizing k with
  | nil => rfl
  | cons x rest ih =>
    unfold augment_from augment_image
    rw [if_neg (not_lt.mpr (hd k)), Option.some_bind, if_neg (not_lt.mpr (hd (k + 1))),
      Option.some_bind, Option.some_bind, ih (k + 2), Option.map_some']
    have e : k + 2 + 2 * rest.length = k + 2 * (x :: rest).length := by
      rw [List.length_cons]; ring
    rw [e]

/-- With every draw at most 0.5 (no flip, no rotation), `train` is the fold of "`forward`,
then `backward`" over the sequence, once per epoch, whatever the batch size. Both sides
are partial: the equation says nothing on whether they return. -/
theorem train_eq_fold {α : Type} [Zero α] [One α] [Add α] [Sub α] [Mul α] [LT α]
    [DecidableRel (fun (a b : α) => a < b)] (draws : Nat → Nat → Nat → ℚ)
    (hd : ∀ e i k, draws e i k ≤ 1 / 2) (w : WeightSet α) (data : List (Image α))
    (epochs : Nat) (lr : α) (bs : Nat) (hbs : 1 ≤ bs) (hbs2 : bs < 2 ^ 64)
    (hn : data.length < 2 ^ 63) :
    train draws w data epochs lr bs
      = forLoop epochs (fun _ w => foldSteps (train_step lr) w data) w := by
  rw [← train_loop_fold (train_step lr) data epochs bs w hbs hbs2 hn]
  unfold train
  congr 1
  funext e i batch t
  unfold augment_data
  rw [augment_from_noop (draws e i) (hd e i) batch 0]
  rfl

/-- In exact arithmetic no training step on a 64 x 64 image and topology-sized weights
returns: `forward` returns four scores, and `backward` then reads out of range (or, for a
label outside [0, 4), already fails at `output[label]`). -/
theorem train_step_none {α : Type} [LinearOrderedField α] (lr : α) (w : WeightSet α)
    (img : Image α) (hw : Topology w) (hg : IsGrid img.data) : train_step lr w img = none := by
  unfold train_step
  rw [forward, forward_trace_eq w img.data hw hg, Option.map_some', Option.some_bind]
  rcases Nat.lt_or_ge img.label NUM_CLASSES with hl | hl
  · have ho : (forwardTable w img.data).output[img.label]?
        = some ((forwardTable w img.data).output.getD img.label 0) :=
      getElem?_getD_of_lt _ _ (by rw [(forwardTable_lengths w img.data).2.2.2.2.2]; exact hl)
    exact backward_out_of_range w img.data _ img.label lr _ hw ho hl
  · have ho : readAt (forwardTable w img.data).output img.label = none := by
      unfold readAt
      rw [List.getElem?_eq_none
        (by rw [(forwardTable_lengths w img.data).2.2.2.2.2]; exact hl)]
    unfold backward backward_fc3 output_grad
    rw [ho]
    rfl

theorem foldSteps_cons_none {ι σ : Type} (step : σ → ι → Option σ) (s : σ) (x : ι)
    (rest : List ι) (h : step s x = none) : foldSteps step s (x :: rest) = none := by
  show (match step s x with
    | none => none
    | some s1 => foldSteps step s1 rest) = none
  rw [h]

theorem forward_zeroGrid_scores {α : Type} [LinearOrderedField α] (w : WeightSet α)
    (hw : Topology w) : forward w (zeroGrid α) = some [0, 0, 0, 0] := by
  have h := forward_trace_eq w (zeroGrid α) hw isGrid_zeroGrid
  rw [forwardTable_zeroGrid] at h
  rw [forward, h]
  rfl

/-- C15 fails on the code: with augmentation switched off (every draw 0), one all-zero
image with label 3, the freshly initialised weights, one epoch and learning rate 0.01,
`forward` returns four zeros and `backward` then reads `fc2_grad` out of range, so `train`
produces no final weights, with batch size 1 as with batch size 2; the fold of "`forward`,
then `backward`" over the sequence produces none either. -/
theorem train_has_no_result :
    Topology scenarioWeights ∧ IsGrid (zeroGrid ℚ) ∧
    forward scenarioWeights (zeroGrid ℚ) = some [0, 0, 0, 0] ∧
    backward scenarioWeights (zeroGrid ℚ) [0, 0, 0, 0] 3 (1 / 100) = none ∧
    train (fun _ _ _ => 0) scenarioWeights [⟨zeroGrid ℚ, 3⟩] 1 (1 / 100) 1 = none ∧
    train (fun _ _ _ => 0) scenarioWeights [⟨zeroGrid ℚ, 3⟩] 1 (1 / 100) 2 = none ∧
    forLoop 1 (fun _ w => foldSteps (train_step (1 / 100)) w [⟨zeroGrid ℚ, 3⟩])
      scenarioWeights = none := by
  have hw : Topology scenarioWeights := initialize_weights_topology _
  have hfold : forLoop 1 (fun _ w =>
      foldSteps (train_step (1 / 100)) w [(⟨zeroGrid ℚ, 3⟩ : Image ℚ)]) scenarioWeights
      = none := by
    apply forLoop_first_none _ _ _ (by norm_num)
    exact foldSteps_cons_none _ _ _ _
      (train_step_none (1 / 100) scenarioWeights ⟨zeroGrid ℚ, 3⟩ hw isGrid_zeroGrid)
  have hfwd : forward scenarioWeights (zeroGrid ℚ) = some [0, 0, 0, 0] :=
    forward_zeroGrid_scores scenarioWeights hw
  refine ⟨hw, isGrid_zeroGrid, hfwd,
    backward_out_of_range scenarioWeights (zeroGrid ℚ) [0, 0, 0, 0] 3 (1 / 100) 0 hw rfl
      (by decide), ?_, ?_, hfold⟩
  · rw [train_eq_fold (fun _ _ _ => 0) (fun _ _ _ => by norm_num) scenarioWeights _ 1
      (1 / 100) 1 (by norm_num) (by norm_num) (by simp), hfold]
  · rw [train_eq_fold (fun _ _ _ => 0) (fun _ _ _ => by norm_num) scenarioWeights _ 1
      (1 / 100) 2 (by norm_num) (by norm_num) (by simp), hfold]

end CNN
